import Mathlib

/-!
# Gap-weighted string kernel (`string_kernel.h`)

A shallow embedding of `StringKernel<k_type>` from
`src/string_kernel/core/src/string_kernel.h`.

* `k_type` (a floating-point type in the program) is an arbitrary field `K`;
  every statement is about exact arithmetic.
* `size_t` values are natural numbers with explicit reduction modulo `2 ^ 64`.
* Heap storage (`Kd`, `_kernel`, `norms`) is a bounds-checked map from indices
  to cells; a cell is `none` until it is first assigned.  An access outside
  the allocated extent, or a read of an unassigned cell, makes the enclosing
  computation return `none`.
* `data_set.h` and `models.h` are not among the sources: the sequence type, the
  store and the extent of `aa_model` follow the specification; the content of
  `aa_model` is a parameter.

The file first gives the embedding and the reference quantities, then the
proofs: the DP tables against the textbook recurrences (`Kprime`, `Kdprime`),
the accumulated value against the sum over index tuples, the matrix assembly,
and last the main theorems.
-/

namespace SKernel

/-! ## `size_t` arithmetic -/

/-- Number of values of the 64-bit type `size_t`. -/
def SIZE_MOD : Nat := 2 ^ 64

/-- Largest value of `size_t`. -/
def SIZE_MAX : Nat := SIZE_MOD - 1

/-- Largest value of `int`. -/
def INT_MAX : Int := 2 ^ 31 - 1

/-- Addition of two `size_t` values. -/
def sadd (a b : Nat) : Nat := (a + b) % SIZE_MOD

/-- Subtraction of two `size_t` values (wraps below zero). -/
def ssub (a b : Nat) : Nat := (a + (SIZE_MOD - b % SIZE_MOD)) % SIZE_MOD

/-- Multiplication of two `size_t` values. -/
def smul (a b : Nat) : Nat := (a * b) % SIZE_MOD

/-- Conversion of an `int` to `size_t` (as in `i <= (_kn - 1)` and `i = _kn`). -/
def toSizeT (z : Int) : Nat := (z % (SIZE_MOD : Int)).toNat

/-! ## Loops -/

/-- Runs `body j`, `body (j+1)`, ... for the given number of iterations,
stopping at the first iteration that fails. -/
def loopFrom {σ : Type} (body : Nat → σ → Option σ) : Nat → Nat → σ → Option σ
  | 0, _, s => some s
  | n + 1, j, s => (body j s).bind (loopFrom body n (j + 1))

/-- The loop `for (j = lo; j < hi; j++) body` over a `size_t` counter. -/
def forLt {σ : Type} (lo hi : Nat) (body : Nat → σ → Option σ) (s : σ) : Option σ :=
  loopFrom body (hi - lo) lo s

/-- The loop `for (j = lo; j <= hi; j++) body` over a `size_t` counter.
When `hi` is `SIZE_MAX` the test `j <= hi` can never fail, so the loop is
left only through a failing access: no state is ever returned. -/
def forLe {σ : Type} (lo hi : Nat) (body : Nat → σ → Option σ) (s : σ) : Option σ :=
  if hi = SIZE_MAX then none else loopFrom body (hi + 1 - lo) lo s

/-! ## Data -/

/-- Modelled from the spec: `DataElement` is declared in `data_set.h`, which is not among
the sources.  A sequence exposes its length and an indexable array of symbols,
`attributes[0 .. length)`.  The engine compares `length` with `size_t` counters and
allocates `length + 1` table rows, so the length is below `SIZE_MAX`. -/
structure DataElement where
  attributes : List Char
  length_lt : attributes.length < SIZE_MAX

/-- The field `length` of a `DataElement`. -/
def DataElement.length (x : DataElement) : Nat := x.attributes.length

/-- The read `x.attributes[i]`; `none` outside `[0, length)`. -/
def DataElement.attr (x : DataElement) (i : Nat) : Option Char := x.attributes[i]?

/-- Numeric code of a symbol, from which the engine subtracts the code of `A`. -/
def code (c : Char) : Int := (c.toNat : Int)

/-- The flat index into `aa_model` for the ordered pair of symbols `(a, b)`:
`(a - A) * 26 + b - A`, computed in `int`. -/
def aaIndex (a b : Char) : Int := (code a - code 'A') * 26 + code b - code 'A'

/-- Modelled from the spec: the table `aa_model` of `models.h` is a flat
`26 x 26` array of scores; a read outside `[0, 676)` fails. -/
def aaRead {K : Type} (aa_model : Nat → K) (idx : Int) : Option K :=
  if 0 ≤ idx ∧ idx < 676 then some (aa_model idx.toNat) else none

/-- The two DP tables `Kd[2]`, each `rows x cols`. -/
structure KdTable (K : Type) where
  rows : Nat
  cols : Nat
  cell : Nat → Nat → Nat → Option K

/-- Freshly allocated tables: no cell has been assigned. -/
def KdTable.alloc {K : Type} (rows cols : Nat) : KdTable K :=
  ⟨rows, cols, fun _ _ _ => none⟩

/-- The read `Kd[t][j][k]`. -/
def KdTable.get {K : Type} (T : KdTable K) (t j k : Nat) : Option K :=
  if t < 2 ∧ j < T.rows ∧ k < T.cols then T.cell t j k else none

/-- The write `Kd[t][j][k] = v`. -/
def KdTable.set {K : Type} (T : KdTable K) (t j k : Nat) (v : K) : Option (KdTable K) :=
  if t < 2 ∧ j < T.rows ∧ k < T.cols then
    some ⟨T.rows, T.cols,
      fun t' j' k' => if t' = t ∧ j' = j ∧ k' = k then some v else T.cell t' j' k'⟩
  else none

section Engine

variable {K : Type} [Field K]

/-- Body of the initialisation loops: `Kd[i][j][k] = (i + 1) % 2`. -/
def initBody (i j k : Nat) (Kd : KdTable K) : Option (KdTable K) :=
  Kd.set i j k (((sadd i 1 % 2 : Nat) : K))

/-- The three nested loops under `// Initialise Kd`. -/
def initKd (x y : DataElement) (Kd : KdTable K) : Option (KdTable K) :=
  forLt 0 2 (fun i Kd =>
    forLt 0 (sadd x.length 1) (fun j Kd =>
      forLt 0 (sadd y.length 1) (fun k Kd => initBody i j k Kd) Kd) Kd) Kd

/-- Body of the first zeroing loop: `Kd[i % 2][j][i - 1] = 0`. -/
def zeroColBody (i j : Nat) (Kd : KdTable K) : Option (KdTable K) :=
  Kd.set (i % 2) j (ssub i 1) 0

/-- Body of the second zeroing loop: `Kd[i % 2][i - 1][j] = 0`. -/
def zeroRowBody (i j : Nat) (Kd : KdTable K) : Option (KdTable K) :=
  Kd.set (i % 2) (ssub i 1) j 0

/-- Body of the innermost loop of the order pass; the state is the table
together with the running value `Kdd`. -/
def innerBody (_lambda : K) (x y : DataElement) (i j k : Nat)
    (st : KdTable K × K) : Option (KdTable K × K) :=
  (x.attr (ssub j 1)).bind fun xa =>
  (y.attr (ssub k 1)).bind fun ya =>
  (if xa ≠ ya then some (_lambda * st.2)
   else (st.1.get (sadd i 1 % 2) (ssub j 1) (ssub k 1)).bind fun v =>
     some (_lambda * (st.2 + _lambda * v))).bind fun Kdd =>
  (st.1.get (i % 2) (ssub j 1) k).bind fun u =>
  (st.1.set (i % 2) j k (_lambda * u + Kdd)).bind fun Kd =>
  some (Kd, Kdd)

/-- Body of the loop over `j` in the order pass: `Kdd = 0`, then the loop over `k`. -/
def rowBody (_lambda : K) (x y : DataElement) (i j : Nat)
    (Kd : KdTable K) : Option (KdTable K) :=
  (forLe i (ssub y.length 1) (innerBody _lambda x y i j) (Kd, 0)).map Prod.fst

/-- One iteration of `for (i = 1; i <= (_kn - 1); i++)`. -/
def orderPass (_lambda : K) (x y : DataElement) (i : Nat)
    (Kd : KdTable K) : Option (KdTable K) :=
  (forLe (ssub i 1) (ssub x.length 1) (zeroColBody i) Kd).bind fun Kd1 =>
  (forLe (ssub i 1) (ssub y.length 1) (zeroRowBody i) Kd1).bind fun Kd2 =>
  forLe i (ssub x.length 1) (rowBody _lambda x y i) Kd2

/-- The index `(_kn - 1) % 2` of the table read by the final accumulation
(`int` remainder, which is negative for a negative dividend). -/
def lastTable (_kn : Int) : Option Nat :=
  if 0 ≤ Int.tmod (_kn - 1) 2 then some (Int.tmod (_kn - 1) 2).toNat else none

/-- Body of the final accumulation:
`sum += _lambda * _lambda * aa_model[...] * Kd[(_kn - 1) % 2][i - 1][j - 1]`. -/
def finalBody (aa_model : Nat → K) (_kn : Int) (_lambda : K) (x y : DataElement)
    (Kd : KdTable K) (i j : Nat) (sum : K) : Option K :=
  (x.attr (ssub i 1)).bind fun xa =>
  (y.attr (ssub j 1)).bind fun ya =>
  (aaRead aa_model (aaIndex xa ya)).bind fun w =>
  (lastTable _kn).bind fun t =>
  (Kd.get t (ssub i 1) (ssub j 1)).bind fun v =>
  some (sum + _lambda * _lambda * w * v)

/-- The loops under `// Calculate K`. -/
def finalSum (aa_model : Nat → K) (_kn : Int) (_lambda : K) (x y : DataElement)
    (Kd : KdTable K) : Option K :=
  forLe (toSizeT _kn) x.length (fun i sum =>
    forLe (toSizeT _kn) y.length (finalBody aa_model _kn _lambda x y Kd i) sum) 0

/-- The engine `StringKernel::kernel(x, y)`: `none` when an access leaves the
allocated storage or a loop cannot terminate.  The loops that release `Kd` before the
`return` do not affect the result and are left out.  The `int` difference `_kn - 1` is
the difference of integers for every `_kn` above `INT_MIN`; the statements about the
engine take `_kn = 0` or `_kn ≥ 1`. -/
def kernel (aa_model : Nat → K) (_kn : Int) (_lambda : K) (x y : DataElement) : Option K :=
  (initKd x y (KdTable.alloc (sadd x.length 1) (sadd y.length 1))).bind fun Kd0 =>
  (forLe 1 (toSizeT (_kn - 1)) (orderPass _lambda x y) Kd0).bind fun Kd =>
  finalSum aa_model _kn _lambda x y Kd

end Engine

/-! ## Matrix assembly -/

/-- How a member function can end without returning. -/
inductive Fault where
  /-- An `assert` fails. -/
  | assertion
  /-- Undefined behaviour (an access outside the allocated storage, a null or unset
  pointer) or a loop that cannot terminate. -/
  | undefined
  deriving DecidableEq

/-- A heap array `new k_type[size]`; a cell is `none` until it is first assigned. -/
structure Buf (K : Type) where
  size : Nat
  cell : Nat → Option K

/-- The allocation `new k_type[n]`. -/
def Buf.alloc {K : Type} (n : Nat) : Buf K := ⟨n, fun _ => none⟩

/-- The read `b[i]`. -/
def Buf.get {K : Type} (b : Buf K) (i : Nat) : Option K :=
  if i < b.size then b.cell i else none

/-- The write `b[i] = v`. -/
def Buf.set {K : Type} (b : Buf K) (i : Nat) (v : K) : Option (Buf K) :=
  if i < b.size then some ⟨b.size, fun i' => if i' = i then some v else b.cell i'⟩ else none

/-- Modelled from the spec: `DataSet` is declared in `data_set.h`, which is not among the
sources.  The store is an ordered collection of sequences with `size()` and `elements()`.
The dense kernel matrix of `size * size` entries is addressed by a `size_t`, so `size` is
below `2 ^ 32`. -/
structure DataSet where
  elements : List DataElement
  size_lt : elements.length < 2 ^ 32

/-- The member `size()` of `DataSet`. -/
def DataSet.size (d : DataSet) : Nat := d.elements.length

/-- The data members of `StringKernel<k_type>`.  A pointer member is `none` while it is
null or has not been set. -/
structure StringKernel (K : Type) where
  _normalize : Int
  _symbol_size : Int
  _max_length : Nat
  _kn : Int
  _lambda : K
  _string_data : Option DataSet
  _kernel : Option (Buf K)
  norms : Option (Buf K)
  _private_dataset : Int

section Matrix
variable {K : Type} [Field K]

/-- Body of the loop of `compute_norms`: `norms[i] = kernel(elements()[i], elements()[i])`. -/
def normsBody (aa_model : Nat → K) (sk : StringKernel K) (ds : DataSet) (i : Nat)
    (nb : Buf K) : Option (Buf K) :=
  (ds.elements[i]?).bind fun e =>
  (kernel aa_model sk._kn sk._lambda e e).bind fun v =>
  nb.set i v

/-- The member function `compute_norms`. -/
def compute_norms (aa_model : Nat → K) (sk : StringKernel K) : Except Fault (StringKernel K) :=
  match sk._string_data with
  | none => Except.error Fault.undefined
  | some ds =>
    match forLt 0 ds.size (normsBody aa_model sk ds) (Buf.alloc ds.size) with
    | none => Except.error Fault.undefined
    | some nb => Except.ok { sk with norms := some nb }

/-- Body of the inner loop of `compute_kernel`, for row `i` and column `j`. -/
def entryBody (aa_model : Nat → K) (sqrt : K → K) (sk : StringKernel K) (ds : DataSet)
    (kernel_dim i j : Nat) (kb : Buf K) : Option (Buf K) :=
  (ds.elements[i]?).bind fun xi =>
  (ds.elements[j]?).bind fun xj =>
  (kernel aa_model sk._kn sk._lambda xi xj).bind fun v =>
  (kb.set (sadd (smul i kernel_dim) j) v).bind fun kb1 =>
  (if sk._normalize ≠ 0 then
     (kb1.get (sadd (smul i kernel_dim) j)).bind fun cur =>
     (sk.norms.bind fun nb => nb.get i).bind fun ni =>
     (sk.norms.bind fun nb => nb.get j).bind fun nj =>
     kb1.set (sadd (smul i kernel_dim) j) (cur / sqrt (ni * nj))
   else some kb1).bind fun kb2 =>
  (kb2.get (sadd (smul i kernel_dim) j)).bind fun cur =>
  kb2.set (sadd (smul j kernel_dim) i) cur

/-- Body of the outer loop of `compute_kernel`, for row `i`. -/
def rowEntries (aa_model : Nat → K) (sqrt : K → K) (sk : StringKernel K) (ds : DataSet)
    (kernel_dim i : Nat) (kb : Buf K) : Option (Buf K) :=
  (if sk._normalize ≠ 0 then
     (kb.set (sadd (smul i kernel_dim) i) 1).map fun kb1 => (kb1, sadd i 1)
   else some (kb, i)).bind fun st =>
  forLt st.2 kernel_dim (entryBody aa_model sqrt sk ds kernel_dim i) st.1

/-- The member function `compute_kernel`; `sqrt` is the square root of `cmath`. -/
def compute_kernel (aa_model : Nat → K) (sqrt : K → K) (sk : StringKernel K) :
    Except Fault (StringKernel K) :=
  match sk._string_data with
  | none => Except.error Fault.assertion
  | some ds =>
    match (if sk._normalize ≠ 0 then compute_norms aa_model sk else Except.ok sk) with
    | Except.error f => Except.error f
    | Except.ok sk1 =>
      match forLt 0 ds.size (rowEntries aa_model sqrt sk1 ds ds.size)
          (Buf.alloc (smul ds.size ds.size)) with
      | none => Except.error Fault.undefined
      | some kb => Except.ok { sk1 with _kernel := some kb }

/-- The call `kernel(elements()[i], elements()[j])`. -/
def pairCall (aa_model : Nat → K) (sk : StringKernel K) (ds : DataSet) (i j : Nat) :
    Option K :=
  (ds.elements[i]?).bind fun xi => (ds.elements[j]?).bind fun xj =>
    kernel aa_model sk._kn sk._lambda xi xj

/-- The value the engine returns for the sequences `i` and `j` of the store (`0` when it
returns nothing). -/
def pairScore (aa_model : Nat → K) (sk : StringKernel K) (ds : DataSet) (i j : Nat) : K :=
  (pairCall aa_model sk ds i j).getD 0

/-- The content of cell `(i, j)` of the matrix that `compute_kernel` assembles. -/
def matEntry (aa_model : Nat → K) (sqrt : K → K) (sk : StringKernel K) (ds : DataSet)
    (i j : Nat) : K :=
  if sk._normalize ≠ 0 then
    if i = j then 1
    else pairScore aa_model sk ds (min i j) (max i j)
      / sqrt (pairScore aa_model sk ds (min i j) (min i j)
          * pairScore aa_model sk ds (max i j) (max i j))
  else pairScore aa_model sk ds (min i j) (max i j)

/-- The engine returns a score for every pair `(s_i, s_j)`, `i ≤ j`, of the store: the
calls that `compute_norms` and `compute_kernel` make. -/
def PairsReturn (aa_model : Nat → K) (sk : StringKernel K) (ds : DataSet) : Prop :=
  ∀ i j, i ≤ j → j < ds.size → (pairCall aa_model sk ds i j).isSome

/-- The store from which `compute_norms` filled `norms`: the vector has one entry per
sequence, the self-similarity of that sequence. -/
def NormsReady (aa_model : Nat → K) (sk : StringKernel K) (ds : DataSet) : Prop :=
  sk._normalize ≠ 0 → ∃ nb, sk.norms = some nb ∧ nb.size = ds.size ∧
    ∀ i, i < ds.size → nb.cell i = some (pairScore aa_model sk ds i i)

/-- State of `_kernel` before row `i` is processed: every cell `(a, b)` with
`min a b < i` holds its final content. -/
def RowsDone (aa_model : Nat → K) (sqrt : K → K) (sk : StringKernel K) (ds : DataSet)
    (i : Nat) (kb : Buf K) : Prop :=
  kb.size = ds.size * ds.size ∧
  ∀ a b, a < ds.size → b < ds.size → min a b < i →
    kb.cell (a * ds.size + b) = some (matEntry aa_model sqrt sk ds a b)

/-- State of `_kernel` inside row `i`, before column `j` is processed. -/
def RowPartial (aa_model : Nat → K) (sqrt : K → K) (sk : StringKernel K) (ds : DataSet)
    (i j : Nat) (kb : Buf K) : Prop :=
  RowsDone aa_model sqrt sk ds i kb ∧
  ∀ b, i ≤ b → b < j →
    kb.cell (i * ds.size + b) = some (matEntry aa_model sqrt sk ds i b) ∧
    kb.cell (b * ds.size + i) = some (matEntry aa_model sqrt sk ds b i)

end Matrix

/-! ## Reference quantities -/


/-- All strictly increasing tuples of length `k` with entries below `n`,
each listed from its first to its last index. -/
def incTuples : Nat → Nat → List (List Nat)
  | 0, _ => [[]]
  | _ + 1, 0 => []
  | k + 1, n + 1 => incTuples (k + 1) n ++ (incTuples k n).map (fun p => p ++ [n])

/-- Componentwise exact match `s[p_m] = t[q_m]` of two index tuples. -/
def hardMatch (s t : List Char) (p q : List Nat) : Bool :=
  (List.zip p q).all fun ab => decide (s[ab.1]? = t[ab.2]?)

section SpecDefs
variable {K : Type} [Field K]

/-- The weight `lam ^ ((n - p_1) + (m - q_1))` of a pair of tuples inside prefixes of
lengths `n` and `m` (exponent `0` for the empty tuple). -/
def tupleWeight (lam : K) (n m : Nat) (p q : List Nat) : K :=
  lam ^ ((n - p.headD n) + (m - q.headD m))

/-- The quantity written `K'_i` in the literature, for the prefixes of lengths `j` and `k`. -/
def Kprime (lam : K) (s t : List Char) (i j k : Nat) : K :=
  ((incTuples i j).map fun p =>
    ((incTuples i k).map fun q =>
      if hardMatch s t p q then tupleWeight lam j k p q else 0).sum).sum

/-- The quantity written `K''_(i+1)`: as `Kprime (i+1) (j+1) k`, restricted to the tuples whose
last index into `s` is `j`. -/
def Kdprime (lam : K) (s t : List Char) (i j k : Nat) : K :=
  ((incTuples i j).map fun p =>
    ((incTuples (i + 1) k).map fun q =>
      if hardMatch s t (p ++ [j]) q then tupleWeight lam (j + 1) k (p ++ [j]) q else 0).sum).sum

end SpecDefs

section Invariants
variable {K : Type} [Field K]

/-- State of the tables after the pass of order `i` over sequences of lengths `n`
and `m`: table `i % 2` holds `Kprime i` on the cells `[i-1, n) x [i-1, m)`. -/
def Holds (lam : K) (s t : List Char) (n m i : Nat) (T : KdTable K) : Prop :=
  T.rows = n + 1 ∧ T.cols = m + 1 ∧
  ∀ j k, i ≤ j + 1 → i ≤ k + 1 → j < n → k < m →
    T.cell (i % 2) j k = some (Kprime lam s t i j k)

/-- State of the tables inside the pass of order `i + 1`: the previous table is intact,
column `i` is zeroed on rows `[i, a)`, row `i` is zeroed on columns `[i, b)`, the
rows `(i, c)` are complete and row `c` is complete on columns `(i, d)`. -/
def PassInv (lam : K) (s t : List Char) (n m i a b c d : Nat) (T : KdTable K) : Prop :=
  Holds lam s t n m i T ∧
  (∀ j, i ≤ j → j < a → T.cell ((i + 1) % 2) j i = some 0) ∧
  (∀ k, i ≤ k → k < b → T.cell ((i + 1) % 2) i k = some 0) ∧
  (∀ j k, i < j → j < c → i < k → k < m →
    T.cell ((i + 1) % 2) j k = some (Kprime lam s t (i + 1) j k)) ∧
  (∀ k, i < k → k < d → T.cell ((i + 1) % 2) c k = some (Kprime lam s t (i + 1) c k))

/-- State of the tables inside the initialisation loops: the cells selected by `P`
hold the initial value of their table. -/
def InitInv (R C : Nat) (P : Nat → Nat → Nat → Prop) (T : KdTable K) : Prop :=
  T.rows = R ∧ T.cols = C ∧
  ∀ t j k, P t j k → T.cell t j k = some (((t + 1) % 2 : Nat) : K)

end Invariants

/-- A sequence over the alphabet `A .. Z` of the `26 x 26` substitution table. -/
def DataElement.inAlphabet (x : DataElement) : Prop :=
  ∀ c ∈ x.attributes, code 'A' ≤ code c ∧ code c ≤ code 'Z'

instance (x : DataElement) : Decidable x.inAlphabet :=
  inferInstanceAs (Decidable (∀ c ∈ x.attributes, code 'A' ≤ code c ∧ code c ≤ code 'Z'))

section Emission
variable {K : Type} [Field K]

/-- The substitution score `sub(a, b)`: the entry of `aa_model` that the engine reads
for the ordered pair of symbols `(a, b)`. -/
def sub (aa_model : Nat → K) (a b : Char) : K := aa_model (aaIndex a b).toNat

/-- The value accumulated by the loops under `// Calculate K` when table `c % 2`
holds `Kprime c`: the sum over all positions `i` of `s` and `j` of `t`. -/
def finalValue (aa_model : Nat → K) (lam : K) (s t : List Char) (c : Nat) : K :=
  ∑ i in Finset.range s.length, ∑ j in Finset.range t.length,
    lam * lam * sub aa_model (s.getD i 'A') (t.getD j 'A') * Kprime lam s t c i j

end Emission

section GapSum
variable {K : Type} [Field K]

/-- Contribution of one pair of index tuples `p` (into `s`) and `q` (into `t`) to the
gap-weighted kernel with soft final match: all components but the last must match exactly,
the weight is `lam ^ ((p_last - p_first + 1) + (q_last - q_first + 1))`, and the last
components are compared through the substitution table. -/
def pairTerm (aa_model : Nat → K) (lam : K) (s t : List Char) (p q : List Nat) : K :=
  if hardMatch s t p.dropLast q.dropLast then
    lam ^ ((p.getLastD 0 - p.headD 0 + 1) + (q.getLastD 0 - q.headD 0 + 1))
      * sub aa_model (s.getD (p.getLastD 0) 'A') (t.getD (q.getLastD 0) 'A')
  else 0

/-- The gap-weighted subsequence kernel of order `kn` with soft final match, as a sum over
the enumerated index tuples. -/
def gapSum (aa_model : Nat → K) (lam : K) (s t : List Char) (kn : Nat) : K :=
  ((incTuples kn s.length).map fun p =>
    ((incTuples kn t.length).map fun q => pairTerm aa_model lam s t p q).sum).sum

end GapSum

/-- The strictly increasing index tuples `p_1 < ... < p_k` into a sequence of length `n`. -/
def incFuns (k n : Nat) : Finset (Fin k → Fin n) :=
  Finset.univ.filter fun p => ∀ a b : Fin k, a < b → p a < p b

/-- The indices of a tuple, listed from the first to the last. -/
def tupleList {k n : Nat} (p : Fin k → Fin n) : List Nat :=
  List.ofFn fun m => (p m).val

section Subsequence
variable {K : Type} [Field K]

/-- The gap-weighted subsequence kernel of order `kn` with a soft final match, in the words
of the specification: the sum, over all pairs of strictly increasing index tuples
`p_1 < ... < p_kn` into `s` and `q_1 < ... < q_kn` into `t` with `s[p_m] = t[q_m]` for every
`m < kn`, of `lam ^ ((p_kn - p_1 + 1) + (q_kn - q_1 + 1)) * sub(s[p_kn], t[q_kn])`. -/
def subsequenceKernel (aa_model : Nat → K) (lam : K) (s t : List Char) : Nat → K
  | 0 => 0
  | k + 1 =>
    ∑ p in incFuns (k + 1) s.length, ∑ q in incFuns (k + 1) t.length,
      if ∀ m : Fin (k + 1), m ≠ Fin.last k → s.get (p m) = t.get (q m) then
        lam ^ (((p (Fin.last k)).val - (p 0).val + 1) + ((q (Fin.last k)).val - (q 0).val + 1))
          * sub aa_model (s.get (p (Fin.last k))) (t.get (q (Fin.last k)))
      else 0

end Subsequence

section TableProps
variable {K : Type} [Field K]

/-- The substitution table is symmetric: `sub(a, b) = sub(b, a)` for all symbols of the
alphabet. -/
def SymmetricTable (aa_model : Nat → K) : Prop :=
  ∀ a b : Char, (code 'A' ≤ code a ∧ code a ≤ code 'Z') →
    (code 'A' ≤ code b ∧ code b ≤ code 'Z') → sub aa_model a b = sub aa_model b a

/-- The substitution table is the identity table: score `1` for equal symbols and `0`
otherwise, for all symbols of the alphabet. -/
def IdentityTable (aa_model : Nat → K) : Prop :=
  ∀ a b : Char, (code 'A' ≤ code a ∧ code a ≤ code 'Z') →
    (code 'A' ≤ code b ∧ code b ≤ code 'Z') → sub aa_model a b = if a = b then 1 else 0

/-- The identity substitution table as a flat `26 x 26` array: entry `26 * r + c` is `1`
when `r = c` and `0` otherwise. -/
def identityTable : Nat → K := fun n => if n / 26 = n % 26 then 1 else 0

end TableProps

section Exact
variable {K : Type} [Field K]

/-- The classical gap-weighted subsequence kernel of order `kn` (exact matching of every
component): the sum, over all pairs of strictly increasing index tuples with
`s[p_m] = t[q_m]` for every `m ≤ kn`, of `lam ^ ((p_kn - p_1 + 1) + (q_kn - q_1 + 1))`. -/
def exactSubsequenceKernel (lam : K) (s t : List Char) : Nat → K
  | 0 => 0
  | k + 1 =>
    ∑ p in incFuns (k + 1) s.length, ∑ q in incFuns (k + 1) t.length,
      if ∀ m : Fin (k + 1), s.get (p m) = t.get (q m) then
        lam ^ (((p (Fin.last k)).val - (p 0).val + 1) + ((q (Fin.last k)).val - (q 0).val + 1))
      else 0

end Exact

/-! ## Concrete inputs -/

/-- The sequence `"A"`. -/
def seqA : DataElement := ⟨['A'], by decide⟩

/-- The sequence `"AA"`. -/
def seqAA : DataElement := ⟨['A', 'A'], by decide⟩

/-- The sequence `"AB"`. -/
def seqAB : DataElement := ⟨['A', 'B'], by decide⟩

/-- The sequence `"ABC"`. -/
def seqABC : DataElement := ⟨['A', 'B', 'C'], by decide⟩

/-- A store of three sequences. -/
def exampleStore : DataSet := ⟨[seqAA, seqAB, seqABC], by decide⟩

/-- A kernel object over the rationals holding `exampleStore`, with `kn = 2` and
`lambda = 1/2`, before `compute_kernel` is called. -/
def exampleKernel (normalize : Int) : StringKernel ℚ :=
  { _normalize := normalize, _symbol_size := 26, _max_length := 10, _kn := 2,
    _lambda := 1 / 2, _string_data := some exampleStore, _kernel := none, norms := none,
    _private_dataset := 0 }

/-! ## Construction and data supply -/

/-- The constructor `StringKernel(normalize, symbol_size, max_length, kn, lambda)`: it stores
its arguments unchanged and sets `_string_data = 0` and `_kernel = 0`.  It leaves `norms`
and `_private_dataset` unset; no modelled function reads them before writing them. -/
def StringKernel.init {K : Type} (normalize symbol_size : Int) (max_length : Nat) (kn : Int)
    (lambda : K) : StringKernel K :=
  { _normalize := normalize, _symbol_size := symbol_size, _max_length := max_length,
    _kn := kn, _lambda := lambda, _string_data := none, _kernel := none, norms := none,
    _private_dataset := 0 }

/-- The overload `set_data(DataSet * dataset)`: the pointer is copied (`none` is a null
pointer) and the store is marked as borrowed. -/
def set_data {K : Type} (sk : StringKernel K) (dataset : Option DataSet) : StringKernel K :=
  { sk with _string_data := dataset, _private_dataset := 0 }

/-- The overload `set_data(const std::vector<std::string> &strings)`:
`assert(strings.size() > 0)`, then a private store is built from the strings.
`load_strings` (of `data_set.h`, not among the sources) is a parameter. -/
def set_data_strings {K : Type} (load_strings : Nat → Int → List (List Char) → DataSet)
    (sk : StringKernel K) (strings : List (List Char)) : Except Fault (StringKernel K) :=
  if strings.length > 0 then
    Except.ok { sk with
      _string_data := some (load_strings sk._max_length sk._symbol_size strings),
      _private_dataset := 1 }
  else Except.error Fault.assertion

/-- A store without sequences. -/
def emptyStore : DataSet := ⟨[], by decide⟩

/-! ## The textbook recursion -/

section Textbook
variable {K : Type} [Field K]

/-- The quantity `K''_i(s[0..j] , t[0..k))` of the textbook recursion, given the table
`Kprev` of `K'_(i-1)`: `K''_i(sa, empty) = 0` and
`K''_i(sa, tb) = lam * K''_i(sa, t) + [a = b] * lam ^ 2 * K'_(i-1)(s, t)`, where `a = s[j]` and
`b = t[k]` (for positions inside the sequences `s[j]? = t[k]?` is the test `a = b`). -/
def textKdprime (lam : K) (s t : List Char) (Kprev : Nat → Nat → K) (j : Nat) : Nat → K
  | 0 => 0
  | k + 1 =>
    lam * textKdprime lam s t Kprev j k + (if s[j]? = t[k]? then lam ^ 2 * Kprev j k else 0)

/-- One order of the textbook recursion: `K'_i(s, t) = 0` when `min(|s|, |t|) < i`, and
`K'_i(sa, t) = lam * K'_i(s, t) + K''_i(sa, t)`; the arguments are the lengths of the
prefixes of `s` and `t`. -/
def textKprimeStep (lam : K) (s t : List Char) (i : Nat) (Kprev : Nat → Nat → K) :
    Nat → Nat → K
  | 0, _ => 0
  | j + 1, k =>
    if min (j + 1) k < i then 0
    else lam * textKprimeStep lam s t i Kprev j k + textKdprime lam s t Kprev j k

/-- The textbook `K'_i(s[0..j), t[0..k))`, one table per order: `K'_0 = 1`. -/
def textKprime (lam : K) (s t : List Char) : Nat → Nat → Nat → K
  | 0 => fun _ _ => 1
  | i + 1 => textKprimeStep lam s t (i + 1) (textKprime lam s t i)

end Textbook

section OrderedTables
variable {K : Type} [LinearOrderedField K]

/-- Every entry of the `26 x 26` substitution table is non-negative. -/
def NonnegTable (aa_model : Nat → K) : Prop := ∀ n, n < 676 → 0 ≤ aa_model n

/-- The diagonal of the substitution table is strictly positive: `sub(a, a) > 0` for every
symbol of the alphabet. -/
def PositiveDiagonal (aa_model : Nat → K) : Prop :=
  ∀ a : Char, (code 'A' ≤ code a ∧ code a ≤ code 'Z') → 0 < sub aa_model a a

end OrderedTables

/-! ## Index tuples -/

theorem incTuples_zero (n : Nat) : incTuples 0 n = [[]] := by
  cases n <;> rfl

theorem incTuples_succ_succ (k n : Nat) :
    incTuples (k + 1) (n + 1) = incTuples (k + 1) n ++ (incTuples k n).map (fun p => p ++ [n]) := rfl

theorem incTuples_length : ∀ (n k : Nat) (p : List Nat), p ∈ incTuples k n → p.length = k
  | n, 0, p, h => by
    rw [incTuples_zero] at h
    simp at h
    simp [h]
  | 0, k + 1, p, h => by simp [incTuples] at h
  | n + 1, k + 1, p, h => by
    rw [incTuples_succ_succ, List.mem_append, List.mem_map] at h
    rcases h with h | ⟨p', hp', rfl⟩
    · exact incTuples_length n (k + 1) p h
    · simp [incTuples_length n k p' hp']

theorem incTuples_lt : ∀ (n k : Nat) (p : List Nat), p ∈ incTuples k n → ∀ a ∈ p, a < n
  | n, 0, p, h => by
    rw [incTuples_zero] at h
    simp at h
    simp [h]
  | 0, k + 1, p, h => by simp [incTuples] at h
  | n + 1, k + 1, p, h => by
    rw [incTuples_succ_succ, List.mem_append, List.mem_map] at h
    rcases h with h | ⟨p', hp', rfl⟩
    · intro a ha
      exact Nat.lt_succ_of_lt (incTuples_lt n (k + 1) p h a ha)
    · intro a ha
      rw [List.mem_append] at ha
      rcases ha with ha | ha
      · exact Nat.lt_succ_of_lt (incTuples_lt n k p' hp' a ha)
      · simp at ha; omega

theorem incTuples_eq_nil : ∀ (n k : Nat), n < k → incTuples k n = []
  | 0, 0, h => by omega
  | 0, k + 1, _ => rfl
  | n + 1, 0, h => by omega
  | n + 1, k + 1, h => by
    rw [incTuples_succ_succ, incTuples_eq_nil n (k + 1) (by omega),
      incTuples_eq_nil n k (by omega)]
    rfl

/-! ## The recurrences of the reference quantities -/


section Recurrence
variable {K : Type} [Field K]

theorem snoc_exponent {i j : Nat} {p : List Nat} (h : p ∈ incTuples i j) :
    (j + 1) - (p ++ [j]).headD (j + 1) = (j - p.headD j) + 1 := by
  cases p with
  | nil => simp
  | cons a p' =>
    have ha : a < j := incTuples_lt j i _ h a (by simp)
    simp only [List.cons_append, List.headD_cons]
    omega

theorem succ_exponent {i j : Nat} {p : List Nat} (h : p ∈ incTuples (i + 1) j) :
    (j + 1) - p.headD (j + 1) = (j - p.headD j) + 1 := by
  have hl := incTuples_length j (i + 1) p h
  cases p with
  | nil => simp at hl
  | cons a p' =>
    have ha : a < j := incTuples_lt j (i + 1) _ h a (by simp)
    simp only [List.headD_cons]
    omega

theorem hardMatch_snoc (s t : List Char) {p q : List Nat} (a b : Nat)
    (h : p.length = q.length) :
    hardMatch s t (p ++ [a]) (q ++ [b]) = (hardMatch s t p q && decide (s[a]? = t[b]?)) := by
  unfold hardMatch
  rw [List.zip_append h, List.all_append]
  simp

theorem Kprime_zero (lam : K) (s t : List Char) (j k : Nat) : Kprime lam s t 0 j k = 1 := by
  simp [Kprime, incTuples_zero, hardMatch, tupleWeight]

theorem Kprime_eq_zero_left (lam : K) (s t : List Char) {i j : Nat} (k : Nat) (h : j < i) :
    Kprime lam s t i j k = 0 := by
  simp [Kprime, incTuples_eq_nil j i h]

theorem Kprime_eq_zero_right (lam : K) (s t : List Char) {i k : Nat} (j : Nat) (h : k < i) :
    Kprime lam s t i j k = 0 := by
  simp [Kprime, incTuples_eq_nil k i h]

theorem Kdprime_eq_zero (lam : K) (s t : List Char) {i k : Nat} (j : Nat) (h : k < i + 1) :
    Kdprime lam s t i j k = 0 := by
  simp [Kdprime, incTuples_eq_nil k (i + 1) h]

theorem Kprime_succ (lam : K) (s t : List Char) (i j k : Nat) :
    Kprime lam s t (i + 1) (j + 1) k
      = lam * Kprime lam s t (i + 1) j k + Kdprime lam s t i j k := by
  unfold Kprime Kdprime
  rw [incTuples_succ_succ, List.map_append, List.sum_append, List.map_map]
  congr 1
  rw [← List.sum_map_mul_left]
  congr 1
  apply List.map_congr_left
  intro p hp
  rw [← List.sum_map_mul_left]
  congr 1
  apply List.map_congr_left
  intro q _
  by_cases hm : hardMatch s t p q = true
  · simp only [hm, if_true, tupleWeight, succ_exponent hp]
    rw [Nat.add_right_comm, pow_succ, mul_comm]
  · simp [hm]

theorem Kdprime_succ (lam : K) (s t : List Char) (i j k : Nat) :
    Kdprime lam s t i j (k + 1)
      = lam * Kdprime lam s t i j k
        + (if s[j]? = t[k]? then lam ^ 2 * Kprime lam s t i j k else 0) := by
  unfold Kprime Kdprime
  simp only [incTuples_succ_succ, List.map_append, List.sum_append, List.map_map]
  rw [List.sum_map_add]
  congr 1
  · rw [← List.sum_map_mul_left]
    congr 1
    apply List.map_congr_left
    intro p _
    rw [← List.sum_map_mul_left]
    congr 1
    apply List.map_congr_left
    intro q hq
    by_cases hm : hardMatch s t (p ++ [j]) q = true
    · simp only [hm, if_true, tupleWeight, succ_exponent hq]
      rw [← Nat.add_assoc, pow_succ, mul_comm]
    · simp [hm]
  · by_cases hc : s[j]? = t[k]?
    · rw [if_pos hc, ← List.sum_map_mul_left]
      congr 1
      apply List.map_congr_left
      intro p hp
      rw [← List.sum_map_mul_left]
      congr 1
      apply List.map_congr_left
      intro q hq
      have hlen : p.length = q.length := by
        rw [incTuples_length j i p hp, incTuples_length k i q hq]
      simp only [Function.comp, hardMatch_snoc s t j k hlen, hc, decide_True, Bool.and_true]
      by_cases hm : hardMatch s t p q = true
      · simp only [hm, if_true, tupleWeight, snoc_exponent hp, snoc_exponent hq]
        ring
      · simp [hm]
    · rw [if_neg hc]
      apply List.sum_eq_zero
      intro v hv
      rw [List.mem_map] at hv
      obtain ⟨p, hp, rfl⟩ := hv
      apply List.sum_eq_zero
      intro w hw
      rw [List.mem_map] at hw
      obtain ⟨q, hq, rfl⟩ := hw
      have hlen : p.length = q.length := by
        rw [incTuples_length j i p hp, incTuples_length k i q hq]
      simp [Function.comp, hardMatch_snoc s t j k hlen, hc]

end Recurrence


/-! ## `size_t` arithmetic without wrap-around -/

theorem SIZE_MAX_eq : SIZE_MAX = 18446744073709551615 := by decide

theorem SIZE_MOD_eq : SIZE_MOD = 18446744073709551616 := by decide

theorem sadd_one {a : Nat} (h : a < SIZE_MAX) : sadd a 1 = a + 1 := by
  unfold sadd
  rw [SIZE_MAX_eq] at h
  rw [SIZE_MOD_eq]
  omega

theorem ssub_one {a : Nat} (h1 : 1 ≤ a) (h : a ≤ SIZE_MAX) : ssub a 1 = a - 1 := by
  unfold ssub
  rw [SIZE_MAX_eq] at h
  rw [SIZE_MOD_eq]
  omega

theorem ssub_zero_one : ssub 0 1 = SIZE_MAX := by decide

theorem toSizeT_natCast {a : Nat} (h : a ≤ SIZE_MAX) : toSizeT (a : Int) = a := by
  unfold toSizeT
  rw [SIZE_MAX_eq] at h
  rw [SIZE_MOD_eq]
  omega

/-! ## Loop rules -/

theorem loopFrom_add {σ : Type} (body : Nat → σ → Option σ) :
    ∀ (a b lo : Nat) (s : σ),
      loopFrom body (a + b) lo s = (loopFrom body a lo s).bind (loopFrom body b (lo + a))
  | 0, b, lo, s => by simp [loopFrom]
  | a + 1, b, lo, s => by
    rw [Nat.add_right_comm]
    simp only [loopFrom]
    cases h : body lo s with
    | none => simp
    | some s' =>
      simp only [Option.some_bind]
      have e : lo + 1 + a = lo + (a + 1) := by omega
      rw [loopFrom_add body a b (lo + 1) s', e]

/-- Total-correctness rule: an invariant established before the loop and
preserved by every iteration holds of the state the loop returns. -/
theorem loopFrom_inv {σ : Type} (body : Nat → σ → Option σ) (I : Nat → σ → Prop) :
    ∀ (n lo : Nat) (s : σ), I lo s →
      (∀ j s, lo ≤ j → j < lo + n → I j s → ∃ s', body j s = some s' ∧ I (j + 1) s') →
      ∃ s', loopFrom body n lo s = some s' ∧ I (lo + n) s'
  | 0, lo, s, h0, _ => ⟨s, rfl, h0⟩
  | n + 1, lo, s, h0, hstep => by
    obtain ⟨s1, hb, h1⟩ := hstep lo s (Nat.le_refl lo) (by omega) h0
    obtain ⟨s2, hl, h2⟩ := loopFrom_inv body I n (lo + 1) s1 h1
      (fun j s hj hj' hI => hstep j s (by omega) (by omega) hI)
    refine ⟨s2, ?_, ?_⟩
    · simp [loopFrom, hb, hl]
    · rw [← Nat.add_assoc, Nat.add_right_comm]
      exact h2

theorem loopFrom_fail_first {σ : Type} (body : Nat → σ → Option σ) (n lo : Nat) (s : σ)
    (h : body lo s = none) : loopFrom body (n + 1) lo s = none := by
  simp [loopFrom, h]

theorem forLt_inv {σ : Type} (body : Nat → σ → Option σ) (I : Nat → σ → Prop)
    (lo hi : Nat) (s : σ) (hle : lo ≤ hi) (h0 : I lo s)
    (hstep : ∀ j s, lo ≤ j → j < hi → I j s → ∃ s', body j s = some s' ∧ I (j + 1) s') :
    ∃ s', forLt lo hi body s = some s' ∧ I hi s' := by
  obtain ⟨s', h1, h2⟩ := loopFrom_inv body I (hi - lo) lo s h0
    (fun j s hj hj' hI => hstep j s hj (by omega) hI)
  refine ⟨s', h1, ?_⟩
  have : lo + (hi - lo) = hi := by omega
  rw [this] at h2
  exact h2

theorem forLe_inv {σ : Type} (body : Nat → σ → Option σ) (I : Nat → σ → Prop)
    (lo hi : Nat) (s : σ) (hhi : hi < SIZE_MAX) (hle : lo ≤ hi + 1) (h0 : I lo s)
    (hstep : ∀ j s, lo ≤ j → j ≤ hi → I j s → ∃ s', body j s = some s' ∧ I (j + 1) s') :
    ∃ s', forLe lo hi body s = some s' ∧ I (hi + 1) s' := by
  obtain ⟨s', h1, h2⟩ := loopFrom_inv body I (hi + 1 - lo) lo s h0
    (fun j s hj hj' hI => hstep j s hj (by omega) hI)
  refine ⟨s', ?_, ?_⟩
  · unfold forLe
    rw [if_neg (Nat.ne_of_lt hhi)]
    exact h1
  · have : lo + (hi + 1 - lo) = hi + 1 := by omega
    rw [this] at h2
    exact h2

theorem forLe_empty {σ : Type} (body : Nat → σ → Option σ)
    (lo hi : Nat) (s : σ) (hhi : hi < SIZE_MAX) (hlt : hi < lo) :
    forLe lo hi body s = some s := by
  unfold forLe
  rw [if_neg (Nat.ne_of_lt hhi)]
  have : hi + 1 - lo = 0 := by omega
  rw [this]
  rfl

theorem forLe_fail_first {σ : Type} (body : Nat → σ → Option σ)
    (lo hi : Nat) (s : σ) (hle : lo ≤ hi) (h : body lo s = none) :
    forLe lo hi body s = none := by
  unfold forLe
  split
  · rfl
  · have : hi + 1 - lo = (hi - lo) + 1 := by omega
    rw [this]
    exact loopFrom_fail_first body _ lo s h

theorem forLe_max {σ : Type} (body : Nat → σ → Option σ) (lo : Nat) (s : σ) :
    forLe lo SIZE_MAX body s = none := by
  simp [forLe]

/-! ## The DP tables -/


theorem kdSet_eq {K : Type} (T : KdTable K) {t j k : Nat} (v : K)
    (ht : t < 2) (hj : j < T.rows) (hk : k < T.cols) :
    T.set t j k v = some ⟨T.rows, T.cols,
      fun t' j' k' => if t' = t ∧ j' = j ∧ k' = k then some v else T.cell t' j' k'⟩ := by
  unfold KdTable.set
  rw [if_pos ⟨ht, hj, hk⟩]

theorem kdGet_eq {K : Type} (T : KdTable K) {t j k : Nat}
    (ht : t < 2) (hj : j < T.rows) (hk : k < T.cols) :
    T.get t j k = T.cell t j k := by
  unfold KdTable.get
  rw [if_pos ⟨ht, hj, hk⟩]

theorem kdSet_none_of_row {K : Type} (T : KdTable K) {t j k : Nat} (v : K) (hj : T.rows ≤ j) :
    T.set t j k v = none := by
  unfold KdTable.set
  rw [if_neg]
  omega

theorem kdSet_none_of_col {K : Type} (T : KdTable K) {t j k : Nat} (v : K) (hk : T.cols ≤ k) :
    T.set t j k v = none := by
  unfold KdTable.set
  rw [if_neg]
  omega

section Tables
variable {K : Type} [Field K]

/-! ### Initialisation -/

theorem initInner_spec (R C : Nat) (P : Nat → Nat → Nat → Prop) (i j : Nat) (T : KdTable K)
    (hi : i < 2) (hj : j < R) (h : InitInv R C P T) :
    ∃ T', forLt 0 C (fun k Kd => initBody i j k Kd) T = some T' ∧
      InitInv R C (fun t' j' k' => P t' j' k' ∨ (t' = i ∧ j' = j ∧ k' < C)) T' := by
  apply forLt_inv _ (fun k T => InitInv R C (fun t' j' k' => P t' j' k' ∨ (t' = i ∧ j' = j ∧ k' < k)) T)
    0 C T (Nat.zero_le C)
  · obtain ⟨h1, h2, h3⟩ := h
    refine ⟨h1, h2, fun t' j' k' hp => ?_⟩
    rcases hp with hp | ⟨_, _, hk⟩
    · exact h3 t' j' k' hp
    · omega
  · intro k T1 _ hk ⟨h1, h2, h3⟩
    refine ⟨_, kdSet_eq T1 _ hi (by omega) (by omega), h1, h2, fun t' j' k' hp => ?_⟩
    by_cases hc : t' = i ∧ j' = j ∧ k' = k
    · simp only [hc, and_self, if_true]
      have : sadd i 1 = i + 1 := sadd_one (by rw [SIZE_MAX_eq]; omega)
      rw [this]
    · simp only [hc, if_false]
      apply h3
      rcases hp with hp | ⟨e1, e2, e3⟩
      · exact Or.inl hp
      · exact Or.inr ⟨e1, e2, by omega⟩

theorem initRows_spec (R C : Nat) (P : Nat → Nat → Nat → Prop) (i : Nat) (T : KdTable K)
    (hi : i < 2) (h : InitInv R C P T) :
    ∃ T', forLt 0 R (fun j Kd => forLt 0 C (fun k Kd => initBody i j k Kd) Kd) T = some T' ∧
      InitInv R C (fun t' j' k' => P t' j' k' ∨ (t' = i ∧ j' < R ∧ k' < C)) T' := by
  apply forLt_inv _
    (fun j T => InitInv R C (fun t' j' k' => P t' j' k' ∨ (t' = i ∧ j' < j ∧ k' < C)) T)
    0 R T (Nat.zero_le R)
  · obtain ⟨h1, h2, h3⟩ := h
    refine ⟨h1, h2, fun t' j' k' hp => ?_⟩
    rcases hp with hp | ⟨_, hk, _⟩
    · exact h3 t' j' k' hp
    · omega
  · intro j T1 _ hj hI
    obtain ⟨T2, e, h1, h2, h3⟩ := initInner_spec R C _ i j T1 hi hj hI
    refine ⟨T2, e, h1, h2, fun t' j' k' hp => ?_⟩
    apply h3
    rcases hp with hp | ⟨e1, e2, e3⟩
    · exact Or.inl (Or.inl hp)
    · by_cases e4 : j' = j
      · exact Or.inr ⟨e1, e4, e3⟩
      · exact Or.inl (Or.inr ⟨e1, by omega, e3⟩)

theorem initKd_spec (x y : DataElement) :
    ∃ T : KdTable K, initKd x y (KdTable.alloc (sadd x.length 1) (sadd y.length 1)) = some T ∧
      T.rows = x.length + 1 ∧ T.cols = y.length + 1 ∧
      ∀ t j k, t < 2 → j ≤ x.length → k ≤ y.length →
        T.cell t j k = some (((t + 1) % 2 : Nat) : K) := by
  have hx : sadd x.length 1 = x.length + 1 := sadd_one x.length_lt
  have hy : sadd y.length 1 = y.length + 1 := sadd_one y.length_lt
  unfold initKd
  rw [hx, hy]
  obtain ⟨T, e, h1, h2, h3⟩ := forLt_inv
    (fun i Kd => forLt 0 (x.length + 1) (fun j Kd =>
      forLt 0 (y.length + 1) (fun k Kd => initBody i j k Kd) Kd) Kd)
    (fun i (T : KdTable K) => InitInv (x.length + 1) (y.length + 1)
      (fun t' j' k' => t' < i ∧ j' < x.length + 1 ∧ k' < y.length + 1) T)
    0 2 (KdTable.alloc (x.length + 1) (y.length + 1)) (by omega)
    ⟨rfl, rfl, fun t' j' k' hp => by omega⟩
    (fun i T1 _ hi hI => by
      obtain ⟨T2, e, h1, h2, h3⟩ := initRows_spec (x.length + 1) (y.length + 1) _ i T1 hi hI
      refine ⟨T2, e, h1, h2, fun t' j' k' hp => ?_⟩
      apply h3
      by_cases e4 : t' = i
      · exact Or.inr ⟨e4, hp.2.1, hp.2.2⟩
      · exact Or.inl ⟨by omega, hp.2.1, hp.2.2⟩)
  exact ⟨T, e, h1, h2, fun t j k ht hj hk => h3 t j k ⟨ht, by omega, by omega⟩⟩

theorem initKd_holds (lam : K) (x y : DataElement) :
    ∃ T : KdTable K, initKd x y (KdTable.alloc (sadd x.length 1) (sadd y.length 1)) = some T ∧
      Holds lam x.attributes y.attributes x.length y.length 0 T := by
  obtain ⟨T, e, h1, h2, h3⟩ := @initKd_spec K _ x y
  refine ⟨T, e, h1, h2, fun j k _ _ hj hk => ?_⟩
  rw [h3 0 j k (by omega) (by omega) (by omega), Kprime_zero]
  simp

end Tables

/-! ## One pass of the order loop -/


section Pass
variable {K : Type} [Field K]

theorem parity_ne (i : Nat) : i % 2 ≠ (i + 1) % 2 := by omega

theorem zeroCol_spec (lam : K) (x y : DataElement) (i : Nat) (T : KdTable K)
    (hn : 1 ≤ x.length) (hi : i ≤ x.length) (him : i ≤ y.length)
    (h : Holds lam x.attributes y.attributes x.length y.length i T) :
    ∃ T', forLe (ssub (i + 1) 1) (ssub x.length 1) (zeroColBody (i + 1)) T = some T' ∧
      PassInv lam x.attributes y.attributes x.length y.length i
        x.length i (i + 1) (i + 1) T' := by
  have hxl := x.length_lt
  have hmax := SIZE_MAX_eq
  have e1 : ssub (i + 1) 1 = i := by rw [ssub_one (by omega) (by unfold DataElement.length at hi; omega)]; rfl
  have e2 : ssub x.length 1 = x.length - 1 := ssub_one hn (by unfold DataElement.length; omega)
  rw [e1, e2]
  obtain ⟨T', e, hT'⟩ := forLe_inv (zeroColBody (i + 1))
    (fun j T => PassInv lam x.attributes y.attributes x.length y.length i j i (i + 1) (i + 1) T)
    i (x.length - 1) T (by unfold DataElement.length; omega) (by omega)
    ⟨h, fun j _ _ => by omega, fun k _ _ => by omega, fun j k _ _ => by omega,
      fun k _ _ => by omega⟩
    (fun j T1 hj1 hj2 ⟨⟨r, c, hH⟩, hA, hB, hC, hD⟩ => by
      unfold zeroColBody
      rw [e1]
      refine ⟨_, kdSet_eq T1 0 (Nat.mod_lt _ (by omega)) (by omega) (by omega),
        ⟨r, c, fun j' k' a1 a2 a3 a4 => ?_⟩, fun j' a1 a2 => ?_, fun k _ _ => by omega,
        fun j k _ _ => by omega, fun k _ _ => by omega⟩
      · show (if i % 2 = (i + 1) % 2 ∧ j' = j ∧ k' = i then some 0 else T1.cell (i % 2) j' k') = _
        rw [if_neg (fun hc => parity_ne i hc.1)]
        exact hH j' k' a1 a2 a3 a4
      · show (if (i + 1) % 2 = (i + 1) % 2 ∧ j' = j ∧ i = i then some 0
            else T1.cell ((i + 1) % 2) j' i) = _
        by_cases hc : j' = j
        · simp [hc]
        · simp only [hc, false_and, and_false, if_false]
          exact hA j' a1 (by omega))
  refine ⟨T', e, ?_⟩
  have : x.length - 1 + 1 = x.length := by omega
  rw [this] at hT'
  exact hT'

theorem zeroRow_spec (lam : K) (x y : DataElement) (i : Nat) (T : KdTable K)
    (hm : 1 ≤ y.length) (hi : i ≤ x.length) (him : i ≤ y.length)
    (h : PassInv lam x.attributes y.attributes x.length y.length i
        x.length i (i + 1) (i + 1) T) :
    ∃ T', forLe (ssub (i + 1) 1) (ssub y.length 1) (zeroRowBody (i + 1)) T = some T' ∧
      PassInv lam x.attributes y.attributes x.length y.length i
        x.length y.length (i + 1) (i + 1) T' := by
  have hyl := y.length_lt
  have hmax := SIZE_MAX_eq
  have e1 : ssub (i + 1) 1 = i := by rw [ssub_one (by omega) (by unfold DataElement.length at him; omega)]; rfl
  have e2 : ssub y.length 1 = y.length - 1 := ssub_one hm (by unfold DataElement.length; omega)
  rw [e1, e2]
  obtain ⟨T', e, hT'⟩ := forLe_inv (zeroRowBody (i + 1))
    (fun k T => PassInv lam x.attributes y.attributes x.length y.length i
      x.length k (i + 1) (i + 1) T)
    i (y.length - 1) T (by unfold DataElement.length; omega) (by omega) h
    (fun k T1 hk1 hk2 ⟨⟨r, c, hH⟩, hA, hB, hC, hD⟩ => by
      unfold zeroRowBody
      rw [e1]
      refine ⟨_, kdSet_eq T1 0 (Nat.mod_lt _ (by omega)) (by omega) (by omega),
        ⟨r, c, fun j' k' a1 a2 a3 a4 => ?_⟩, fun j' a1 a2 => ?_, fun k' a1 a2 => ?_,
        fun j k _ _ => by omega, fun k _ _ => by omega⟩
      · show (if i % 2 = (i + 1) % 2 ∧ j' = i ∧ k' = k then some 0 else T1.cell (i % 2) j' k') = _
        rw [if_neg (fun hc => parity_ne i hc.1)]
        exact hH j' k' a1 a2 a3 a4
      · show (if (i + 1) % 2 = (i + 1) % 2 ∧ j' = i ∧ i = k then some 0
            else T1.cell ((i + 1) % 2) j' i) = _
        by_cases hc : j' = i ∧ i = k
        · simp [hc]
        · simp only [hc, and_false, if_false]
          exact hA j' a1 a2
      · show (if (i + 1) % 2 = (i + 1) % 2 ∧ i = i ∧ k' = k then some 0
            else T1.cell ((i + 1) % 2) i k') = _
        by_cases hc : k' = k
        · simp [hc]
        · simp only [hc, and_false, if_false]
          exact hB k' a1 (by omega))
  refine ⟨T', e, ?_⟩
  have : y.length - 1 + 1 = y.length := by omega
  rw [this] at hT'
  exact hT'

end Pass


section Pass2
variable {K : Type} [Field K]

theorem innerBody_spec (lam : K) (x y : DataElement) (i j k : Nat) (T : KdTable K) (Kdd : K)
    (hj : i ≤ j) (hjn : j + 1 < x.length) (hk : i ≤ k) (hkm : k + 1 < y.length)
    (hinv : PassInv lam x.attributes y.attributes x.length y.length i
      x.length y.length (j + 1) (k + 1) T)
    (hK : Kdd = Kdprime lam x.attributes y.attributes i j k) :
    ∃ T', innerBody lam x y (i + 1) (j + 1) (k + 1) (T, Kdd)
        = some (T', Kdprime lam x.attributes y.attributes i j (k + 1)) ∧
      PassInv lam x.attributes y.attributes x.length y.length i
        x.length y.length (j + 1) (k + 2) T' := by
  have hxl := x.length_lt
  have hyl := y.length_lt
  have hmax := SIZE_MAX_eq
  obtain ⟨⟨r, c, hH⟩, hA, hB, hC, hD⟩ := hinv
  have hxl' : x.length = x.attributes.length := rfl
  have hyl' : y.length = y.attributes.length := rfl
  have ej : ssub (j + 1) 1 = j := by rw [ssub_one (by omega) (by omega)]; rfl
  have ek : ssub (k + 1) 1 = k := by rw [ssub_one (by omega) (by omega)]; rfl
  have ei : sadd (i + 1) 1 % 2 = i % 2 := by rw [sadd_one (by omega)]; omega
  obtain ⟨xa, hxa⟩ : ∃ xa, x.attributes[j]? = some xa :=
    ⟨_, List.getElem?_eq_getElem (by omega)⟩
  obtain ⟨ya, hya⟩ : ∃ ya, y.attributes[k]? = some ya :=
    ⟨_, List.getElem?_eq_getElem (by omega)⟩
  have hxa' : x.attr j = some xa := hxa
  have hya' : y.attr k = some ya := hya
  have hv : T.get (i % 2) j k = some (Kprime lam x.attributes y.attributes i j k) := by
    rw [kdGet_eq T (Nat.mod_lt _ (by omega)) (by omega) (by omega)]
    exact hH j k (by omega) (by omega) (by omega) (by omega)
  have hu : T.get ((i + 1) % 2) j (k + 1)
      = some (Kprime lam x.attributes y.attributes (i + 1) j (k + 1)) := by
    rw [kdGet_eq T (Nat.mod_lt _ (by omega)) (by omega) (by omega)]
    by_cases hji : j = i
    · rw [hji, Kprime_eq_zero_left lam _ _ (k + 1) (Nat.lt_succ_self i)]
      exact hB (k + 1) (by omega) (by omega)
    · exact hC j (k + 1) (by omega) (by omega) (by omega) (by omega)
  have hval : (if xa ≠ ya then some (lam * Kdd)
      else (T.get (i % 2) j k).bind fun v => some (lam * (Kdd + lam * v)))
      = some (Kdprime lam x.attributes y.attributes i j (k + 1)) := by
    rw [Kdprime_succ, hv, hK, hxa, hya]
    by_cases hc : xa = ya
    · rw [if_neg (not_not.mpr hc), if_pos (congrArg some hc), Option.some_bind]
      rw [mul_add, ← mul_assoc, pow_two]
    · rw [if_pos hc, if_neg (fun h => hc (Option.some.inj h)), add_zero]
  unfold innerBody
  simp only [ej, ek, ei, hxa', hya', Option.some_bind, hval, hu]
  rw [kdSet_eq T _ (Nat.mod_lt _ (by omega)) (by omega) (by omega)]
  simp only [Option.some_bind]
  refine ⟨_, rfl, ⟨r, c, fun j' k' a1 a2 a3 a4 => ?_⟩, fun j' a1 a2 => ?_, fun k' a1 a2 => ?_,
    fun j' k' a1 a2 a3 a4 => ?_, fun k' a1 a2 => ?_⟩
  · show (if i % 2 = (i + 1) % 2 ∧ j' = j + 1 ∧ k' = k + 1 then _ else T.cell (i % 2) j' k') = _
    rw [if_neg (fun hc => parity_ne i hc.1)]
    exact hH j' k' a1 a2 a3 a4
  · show (if (i + 1) % 2 = (i + 1) % 2 ∧ j' = j + 1 ∧ i = k + 1 then _
        else T.cell ((i + 1) % 2) j' i) = _
    rw [if_neg (fun hc => by omega)]
    exact hA j' a1 a2
  · show (if (i + 1) % 2 = (i + 1) % 2 ∧ i = j + 1 ∧ k' = k + 1 then _
        else T.cell ((i + 1) % 2) i k') = _
    rw [if_neg (fun hc => by omega)]
    exact hB k' a1 a2
  · show (if (i + 1) % 2 = (i + 1) % 2 ∧ j' = j + 1 ∧ k' = k + 1 then _
        else T.cell ((i + 1) % 2) j' k') = _
    rw [if_neg (fun hc => by omega)]
    exact hC j' k' a1 a2 a3 a4
  · show (if (i + 1) % 2 = (i + 1) % 2 ∧ j + 1 = j + 1 ∧ k' = k + 1 then _
        else T.cell ((i + 1) % 2) (j + 1) k') = _
    by_cases hc : k' = k + 1
    · rw [if_pos ⟨rfl, rfl, hc⟩, hc, Kprime_succ]
    · rw [if_neg (fun h => hc h.2.2)]
      exact hD k' a1 (by omega)

theorem PassInv_next_row (lam : K) (s t : List Char) (n m i a b c d : Nat) (T : KdTable K)
    (hd : m ≤ d) (h : PassInv lam s t n m i a b c d T) :
    PassInv lam s t n m i a b (c + 1) (i + 1) T := by
  obtain ⟨hH, hA, hB, hC, hD⟩ := h
  refine ⟨hH, hA, hB, fun j k a1 a2 a3 a4 => ?_, fun k _ _ => by omega⟩
  by_cases hj : j = c
  · rw [hj]
    exact hD k a3 (by omega)
  · exact hC j k a1 (by omega) a3 a4

theorem PassInv_done (lam : K) (s t : List Char) (n m i c d : Nat) (T : KdTable K)
    (hc : n ≤ c) (h : PassInv lam s t n m i n m c d T) :
    Holds lam s t n m (i + 1) T := by
  obtain ⟨⟨r, cc, _⟩, hA, hB, hC, _⟩ := h
  refine ⟨r, cc, fun j k a1 a2 a3 a4 => ?_⟩
  by_cases hj : j = i
  · rw [hj, Kprime_eq_zero_left lam _ _ k (Nat.lt_succ_self i)]
    exact hB k (by omega) a4
  · by_cases hk : k = i
    · rw [hk, Kprime_eq_zero_right lam _ _ j (Nat.lt_succ_self i)]
      exact hA j (by omega) a3
    · exact hC j k (by omega) (by omega) (by omega) a4

theorem rowBody_spec (lam : K) (x y : DataElement) (i j : Nat) (T : KdTable K)
    (hj : i ≤ j) (hjn : j + 1 < x.length) (hm : 1 ≤ y.length) (him : i ≤ y.length)
    (hinv : PassInv lam x.attributes y.attributes x.length y.length i
      x.length y.length (j + 1) (i + 1) T) :
    ∃ T', rowBody lam x y (i + 1) (j + 1) T = some T' ∧
      PassInv lam x.attributes y.attributes x.length y.length i
        x.length y.length (j + 2) (i + 1) T' := by
  have hyl := y.length_lt
  have hyl' : y.length = y.attributes.length := rfl
  have hmax := SIZE_MAX_eq
  have e2 : ssub y.length 1 = y.length - 1 := ssub_one hm (by omega)
  unfold rowBody
  rw [e2]
  by_cases hc : i + 1 ≤ y.length
  · obtain ⟨st, e, h1, _⟩ := forLe_inv (innerBody lam x y (i + 1) (j + 1))
      (fun k (st : KdTable K × K) =>
        PassInv lam x.attributes y.attributes x.length y.length i
          x.length y.length (j + 1) k st.1 ∧
        st.2 = Kdprime lam x.attributes y.attributes i j (k - 1))
      (i + 1) (y.length - 1) (T, 0) (by omega) (by omega)
      ⟨hinv, (Kdprime_eq_zero lam _ _ j (Nat.lt_succ_self i)).symm⟩
      (fun k st hk1 hk2 ⟨h1, h2⟩ => by
        obtain ⟨k', rfl⟩ : ∃ k', k = k' + 1 := ⟨k - 1, by omega⟩
        obtain ⟨T', e, h3⟩ := innerBody_spec lam x y i j k' st.1 st.2 hj hjn
          (by omega) (by omega) h1 h2
        exact ⟨_, e, h3, rfl⟩)
    refine ⟨st.1, by rw [e]; rfl, ?_⟩
    exact PassInv_next_row lam _ _ _ _ i _ _ (j + 1) _ st.1 (by omega) h1
  · rw [forLe_empty _ _ _ _ (by omega) (by omega)]
    exact ⟨T, rfl, PassInv_next_row lam _ _ _ _ i _ _ (j + 1) _ T (by omega) hinv⟩

theorem mainLoop_spec (lam : K) (x y : DataElement) (i : Nat) (T : KdTable K)
    (hn : 1 ≤ x.length) (hm : 1 ≤ y.length) (hi : i ≤ x.length) (him : i ≤ y.length)
    (hinv : PassInv lam x.attributes y.attributes x.length y.length i
      x.length y.length (i + 1) (i + 1) T) :
    ∃ T', forLe (i + 1) (ssub x.length 1) (rowBody lam x y (i + 1)) T = some T' ∧
      Holds lam x.attributes y.attributes x.length y.length (i + 1) T' := by
  have hxl := x.length_lt
  have hxl' : x.length = x.attributes.length := rfl
  have hmax := SIZE_MAX_eq
  have e2 : ssub x.length 1 = x.length - 1 := ssub_one hn (by omega)
  rw [e2]
  by_cases hc : i + 1 ≤ x.length
  · obtain ⟨T', e, h1⟩ := forLe_inv (rowBody lam x y (i + 1))
      (fun j (T : KdTable K) =>
        PassInv lam x.attributes y.attributes x.length y.length i
          x.length y.length j (i + 1) T)
      (i + 1) (x.length - 1) T (by omega) (by omega) hinv
      (fun j T1 hj1 hj2 h1 => by
        obtain ⟨j', rfl⟩ : ∃ j', j = j' + 1 := ⟨j - 1, by omega⟩
        exact rowBody_spec lam x y i j' T1 (by omega) (by omega) hm him h1)
    exact ⟨T', e, PassInv_done lam _ _ _ _ i _ _ T' (by omega) h1⟩
  · rw [forLe_empty _ _ _ _ (by omega) (by omega)]
    exact ⟨T, rfl, PassInv_done lam _ _ _ _ i _ _ T (by omega) hinv⟩

theorem orderPass_spec (lam : K) (x y : DataElement) (i : Nat) (T : KdTable K)
    (hn : 1 ≤ x.length) (hm : 1 ≤ y.length) (hi : i ≤ x.length) (him : i ≤ y.length)
    (h : Holds lam x.attributes y.attributes x.length y.length i T) :
    ∃ T', orderPass lam x y (i + 1) T = some T' ∧
      Holds lam x.attributes y.attributes x.length y.length (i + 1) T' := by
  obtain ⟨T1, e1, h1⟩ := zeroCol_spec lam x y i T hn hi him h
  obtain ⟨T2, e2, h2⟩ := zeroRow_spec lam x y i T1 hm hi him h1
  obtain ⟨T3, e3, h3⟩ := mainLoop_spec lam x y i T2 hn hm hi him h2
  refine ⟨T3, ?_, h3⟩
  unfold orderPass
  rw [e1, Option.some_bind, e2, Option.some_bind, e3]

end Pass2

/-! ## The final accumulation and the engine as a whole -/


theorem aaRead_eq {K : Type} (aa : Nat → K) {a b : Char}
    (ha : code 'A' ≤ code a ∧ code a ≤ code 'Z') (hb : code 'A' ≤ code b ∧ code b ≤ code 'Z') :
    aaRead aa (aaIndex a b) = some (sub aa a b) := by
  have hA : code 'A' = 65 := by decide
  have hZ : code 'Z' = 90 := by decide
  rw [hA, hZ] at ha hb
  unfold aaRead sub aaIndex
  rw [hA, if_pos (by omega)]

section Final
variable {K : Type} [Field K]

theorem lastTable_succ (c : Nat) : lastTable (((c + 1 : Nat) : Int)) = some (c % 2) := by
  unfold lastTable
  have e : ((c + 1 : Nat) : Int) - 1 = (c : Int) := by push_cast; ring
  rw [e]
  have h2 : Int.tmod (c : Int) 2 = ((c % 2 : Nat) : Int) := by
    rw [Int.tmod_eq_emod (by omega) (by omega)]
    omega
  rw [h2, if_pos (by omega), Int.toNat_ofNat]

theorem getD_eq_of_getElem? {s : List Char} {i : Nat} {a : Char} (h : s[i]? = some a) :
    s.getD i 'A' = a := by
  rw [List.getD_eq_getElem?_getD, h]
  rfl

/-- One term of the final accumulation, for positions `i` of `s` and `j` of `t`. -/
theorem finalBody_spec (aa : Nat → K) (lam : K) (x y : DataElement) (c i j : Nat)
    (T : KdTable K) (sum : K) (hx : x.inAlphabet) (hy : y.inAlphabet)
    (hci : c ≤ i) (hin : i < x.length) (hcj : c ≤ j) (hjm : j < y.length)
    (h : Holds lam x.attributes y.attributes x.length y.length c T) :
    finalBody aa ((c + 1 : Nat) : Int) lam x y T (i + 1) (j + 1) sum
      = some (sum + lam * lam * sub aa (x.attributes.getD i 'A') (y.attributes.getD j 'A')
          * Kprime lam x.attributes y.attributes c i j) := by
  have hxl := x.length_lt
  have hyl := y.length_lt
  have hxl' : x.length = x.attributes.length := rfl
  have hyl' : y.length = y.attributes.length := rfl
  have hmax := SIZE_MAX_eq
  obtain ⟨r, cc, hH⟩ := h
  have ei : ssub (i + 1) 1 = i := by rw [ssub_one (by omega) (by omega)]; rfl
  have ej : ssub (j + 1) 1 = j := by rw [ssub_one (by omega) (by omega)]; rfl
  obtain ⟨xa, hxa⟩ : ∃ xa, x.attributes[i]? = some xa :=
    ⟨_, List.getElem?_eq_getElem (by omega)⟩
  obtain ⟨ya, hya⟩ : ∃ ya, y.attributes[j]? = some ya :=
    ⟨_, List.getElem?_eq_getElem (by omega)⟩
  have hxa' : x.attr i = some xa := hxa
  have hya' : y.attr j = some ya := hya
  have hxm : xa ∈ x.attributes := List.getElem?_mem hxa
  have hym : ya ∈ y.attributes := List.getElem?_mem hya
  have hv : T.get (c % 2) i j = some (Kprime lam x.attributes y.attributes c i j) := by
    rw [kdGet_eq T (Nat.mod_lt _ (by omega)) (by omega) (by omega)]
    exact hH i j (by omega) (by omega) (by omega) (by omega)
  unfold finalBody
  simp only [ei, ej, hxa', hya', Option.some_bind, aaRead_eq aa (hx xa hxm) (hy ya hym),
    lastTable_succ, hv, getD_eq_of_getElem? hxa, getD_eq_of_getElem? hya]

theorem term_sum_zero (aa : Nat → K) (lam : K) (s t : List Char) (c i b : Nat) (hb : b ≤ c) :
    ∑ j in Finset.range b,
      lam * lam * sub aa (s.getD i 'A') (t.getD j 'A') * Kprime lam s t c i j = 0 := by
  apply Finset.sum_eq_zero
  intro j hj
  rw [Finset.mem_range] at hj
  rw [Kprime_eq_zero_right lam s t i (by omega : j < c), mul_zero]

theorem row_sum_zero (aa : Nat → K) (lam : K) (s t : List Char) (c b : Nat) (hb : b ≤ c) :
    ∑ i in Finset.range b, ∑ j in Finset.range t.length,
      lam * lam * sub aa (s.getD i 'A') (t.getD j 'A') * Kprime lam s t c i j = 0 := by
  apply Finset.sum_eq_zero
  intro i hi
  rw [Finset.mem_range] at hi
  apply Finset.sum_eq_zero
  intro j _
  rw [Kprime_eq_zero_left lam s t j (by omega : i < c), mul_zero]

theorem finalInner_spec (aa : Nat → K) (lam : K) (x y : DataElement) (c i : Nat)
    (T : KdTable K) (sum : K) (hx : x.inAlphabet) (hy : y.inAlphabet)
    (hci : c ≤ i) (hin : i < x.length) (hcm : c ≤ y.length)
    (h : Holds lam x.attributes y.attributes x.length y.length c T) :
    forLe (c + 1) y.length (finalBody aa ((c + 1 : Nat) : Int) lam x y T (i + 1)) sum
      = some (sum + ∑ j in Finset.range y.attributes.length,
          lam * lam * sub aa (x.attributes.getD i 'A') (y.attributes.getD j 'A')
            * Kprime lam x.attributes y.attributes c i j) := by
  have hyl' : y.length = y.attributes.length := rfl
  obtain ⟨acc, e, hacc⟩ := forLe_inv (finalBody aa ((c + 1 : Nat) : Int) lam x y T (i + 1))
    (fun j acc => acc = sum + ∑ j' in Finset.range (j - 1),
      lam * lam * sub aa (x.attributes.getD i 'A') (y.attributes.getD j' 'A')
        * Kprime lam x.attributes y.attributes c i j')
    (c + 1) y.length sum y.length_lt (by omega)
    (by beta_reduce; rw [term_sum_zero aa lam _ _ c i _ (by omega), add_zero])
    (fun j acc hj1 hj2 hI => by
      obtain ⟨j', rfl⟩ : ∃ j', j = j' + 1 := ⟨j - 1, by omega⟩
      refine ⟨_, finalBody_spec aa lam x y c i j' T acc hx hy hci hin (by omega) (by omega) h, ?_⟩
      rw [hI]
      simp only [Nat.add_sub_cancel]
      rw [Finset.sum_range_succ, add_assoc])
  rw [e, hacc]
  simp only [Nat.add_sub_cancel]
  rw [hyl']

theorem finalSum_spec (aa : Nat → K) (lam : K) (x y : DataElement) (c : Nat)
    (T : KdTable K) (hx : x.inAlphabet) (hy : y.inAlphabet)
    (hcn : c ≤ x.length) (hcm : c ≤ y.length)
    (h : Holds lam x.attributes y.attributes x.length y.length c T) :
    finalSum aa ((c + 1 : Nat) : Int) lam x y T
      = some (finalValue aa lam x.attributes y.attributes c) := by
  have hxl := x.length_lt
  have hxl' : x.length = x.attributes.length := rfl
  have hmax := SIZE_MAX_eq
  unfold finalSum
  rw [toSizeT_natCast (by omega)]
  obtain ⟨acc, e, hacc⟩ := forLe_inv
    (fun i sum => forLe (c + 1) y.length (finalBody aa ((c + 1 : Nat) : Int) lam x y T i) sum)
    (fun i acc => acc = ∑ i' in Finset.range (i - 1),
      ∑ j in Finset.range y.attributes.length,
        lam * lam * sub aa (x.attributes.getD i' 'A') (y.attributes.getD j 'A')
          * Kprime lam x.attributes y.attributes c i' j)
    (c + 1) x.length 0 x.length_lt (by omega)
    (by beta_reduce; rw [row_sum_zero aa lam _ _ c _ (by omega)])
    (fun i acc hi1 hi2 hI => by
      obtain ⟨i', rfl⟩ : ∃ i', i = i' + 1 := ⟨i - 1, by omega⟩
      refine ⟨_, finalInner_spec aa lam x y c i' T acc hx hy (by omega) (by omega) hcm h, ?_⟩
      rw [hI]
      simp only [Nat.add_sub_cancel]
      rw [Finset.sum_range_succ])
  rw [e, hacc]
  simp only [Nat.add_sub_cancel]
  rfl

theorem orderLoop_spec (lam : K) (x y : DataElement) (c : Nat) (T : KdTable K)
    (hc : c < SIZE_MAX) (hcn : c ≤ x.length + 1) (hcm : c ≤ y.length + 1)
    (hn : 1 ≤ c → 1 ≤ x.length) (hm : 1 ≤ c → 1 ≤ y.length)
    (h : Holds lam x.attributes y.attributes x.length y.length 0 T) :
    ∃ T', forLe 1 c (orderPass lam x y) T = some T' ∧
      Holds lam x.attributes y.attributes x.length y.length c T' := by
  have hxl := x.length_lt
  have hxl' : x.length = x.attributes.length := rfl
  have hmax := SIZE_MAX_eq
  by_cases hc0 : c = 0
  · subst hc0
    rw [forLe_empty _ _ _ _ (by omega) (by omega)]
    exact ⟨T, rfl, h⟩
  · obtain ⟨T', e, hT'⟩ := forLe_inv (orderPass lam x y)
      (fun i (T : KdTable K) =>
        Holds lam x.attributes y.attributes x.length y.length (i - 1) T)
      1 c T (by omega) (by omega) h
      (fun i T1 hi1 hi2 hI => by
        obtain ⟨i', rfl⟩ : ∃ i', i = i' + 1 := ⟨i - 1, by omega⟩
        exact orderPass_spec lam x y i' T1 (hn (by omega)) (hm (by omega))
          (by omega) (by omega) hI)
    exact ⟨T', e, hT'⟩

/-- The engine computes `finalValue` whenever the order is at most one more than both lengths. -/
theorem kernel_eq_finalValue (aa : Nat → K) (lam : K) (x y : DataElement) (c : Nat)
    (hx : x.inAlphabet) (hy : y.inAlphabet) (hcn : c ≤ x.length) (hcm : c ≤ y.length) :
    kernel aa ((c + 1 : Nat) : Int) lam x y
      = some (finalValue aa lam x.attributes y.attributes c) := by
  have hxl := x.length_lt
  have hxl' : x.length = x.attributes.length := rfl
  have hmax := SIZE_MAX_eq
  obtain ⟨T0, e0, h0⟩ := initKd_holds lam x y
  obtain ⟨T1, e1, h1⟩ := orderLoop_spec lam x y c T0 (by omega) (by omega) (by omega)
    (by omega) (by omega) h0
  unfold kernel
  have ec : toSizeT (((c + 1 : Nat) : Int) - 1) = c := by
    have : ((c + 1 : Nat) : Int) - 1 = (c : Int) := by push_cast; ring
    rw [this, toSizeT_natCast (by omega)]
  rw [e0, Option.some_bind, ec, e1, Option.some_bind]
  exact finalSum_spec aa lam x y c T1 hx hy hcn hcm h1

end Final

/-! ## Matrix assembly: `compute_norms` and `compute_kernel` -/


theorem bufSet_eq {K : Type} (b : Buf K) {i : Nat} (v : K) (hi : i < b.size) :
    b.set i v = some ⟨b.size, fun i' => if i' = i then some v else b.cell i'⟩ := by
  unfold Buf.set
  rw [if_pos hi]

theorem bufGet_eq {K : Type} (b : Buf K) {i : Nat} (hi : i < b.size) :
    b.get i = b.cell i := by
  unfold Buf.get
  rw [if_pos hi]

theorem flat_index {N i j : Nat} (hN : N < 2 ^ 32) (hi : i < N) (hj : j < N) :
    sadd (smul i N) j = i * N + j := by
  have h1 : i * N ≤ 4294967295 * 4294967295 := Nat.mul_le_mul (by omega) (by omega)
  unfold sadd smul
  rw [SIZE_MOD_eq]
  omega

theorem flat_index_lt {N i j : Nat} (hi : i < N) (hj : j < N) : i * N + j < N * N := by
  have h1 : (i + 1) * N ≤ N * N := Nat.mul_le_mul_right N hi
  rw [Nat.add_mul, Nat.one_mul] at h1
  omega

theorem flat_index_inj {N i j i' j' : Nat} (hj : j < N) (hj' : j' < N)
    (h : i * N + j = i' * N + j') : i = i' ∧ j = j' := by
  have hN : 0 < N := by omega
  have h1 : (i * N + j) / N = i := by
    rw [Nat.add_comm, Nat.add_mul_div_right _ _ hN, Nat.div_eq_of_lt hj, Nat.zero_add]
  have h2 : (i' * N + j') / N = i' := by
    rw [Nat.add_comm, Nat.add_mul_div_right _ _ hN, Nat.div_eq_of_lt hj', Nat.zero_add]
  have h3 : i = i' := by rw [← h1, ← h2, h]
  subst h3
  exact ⟨rfl, by omega⟩

theorem smul_self {N : Nat} (hN : N < 2 ^ 32) : smul N N = N * N := by
  have h1 : N * N ≤ 4294967295 * 4294967295 := Nat.mul_le_mul (by omega) (by omega)
  unfold smul
  rw [SIZE_MOD_eq]
  omega

section MatrixProofs
variable {K : Type} [Field K]

theorem pairScore_spec (aa : Nat → K) (sk : StringKernel K) (ds : DataSet)
    (hret : PairsReturn aa sk ds) {i j : Nat} (hij : i ≤ j) (hj : j < ds.size) :
    ∃ xi xj, ds.elements[i]? = some xi ∧ ds.elements[j]? = some xj ∧
      kernel aa sk._kn sk._lambda xi xj = some (pairScore aa sk ds i j) := by
  have hi : i < ds.size := by omega
  have e1 : ds.elements[i]? = some (ds.elements.get ⟨i, hi⟩) := List.getElem?_eq_getElem hi
  have e2 : ds.elements[j]? = some (ds.elements.get ⟨j, hj⟩) := List.getElem?_eq_getElem hj
  refine ⟨_, _, e1, e2, ?_⟩
  obtain ⟨v, hv⟩ := Option.isSome_iff_exists.mp (hret i j hij hj)
  unfold pairScore
  rw [hv]
  unfold pairCall at hv
  rw [e1, e2, Option.some_bind, Option.some_bind] at hv
  rw [hv]
  rfl

theorem normsLoop_spec (aa : Nat → K) (sk : StringKernel K) (ds : DataSet)
    (hret : PairsReturn aa sk ds) :
    ∃ nb, forLt 0 ds.size (normsBody aa sk ds) (Buf.alloc ds.size) = some nb ∧
      nb.size = ds.size ∧ ∀ i, i < ds.size → nb.cell i = some (pairScore aa sk ds i i) := by
  obtain ⟨nb, e, h1, h2⟩ := forLt_inv (normsBody aa sk ds)
    (fun i (nb : Buf K) => nb.size = ds.size ∧
      ∀ i', i' < i → nb.cell i' = some (pairScore aa sk ds i' i'))
    0 ds.size (Buf.alloc ds.size) (Nat.zero_le _) ⟨rfl, fun i' h => by omega⟩
    (fun i nb _ hi ⟨h1, h2⟩ => by
      obtain ⟨xi, xj, e1, e2, e3⟩ := pairScore_spec aa sk ds hret (Nat.le_refl i) hi
      have hxx : xj = xi := Option.some.inj (e2.symm.trans e1)
      subst hxx
      unfold normsBody
      rw [e1, Option.some_bind, e3, Option.some_bind, bufSet_eq nb _ (by omega)]
      refine ⟨_, rfl, h1, fun i' hi' => ?_⟩
      show (if i' = i then _ else nb.cell i') = _
      by_cases hc : i' = i
      · rw [if_pos hc, hc]
      · rw [if_neg hc]
        exact h2 i' (by omega))
  exact ⟨nb, e, h1, h2⟩

theorem compute_norms_spec (aa : Nat → K) (sk : StringKernel K) (ds : DataSet)
    (hds : sk._string_data = some ds) (hret : PairsReturn aa sk ds) :
    ∃ nb, compute_norms aa sk = Except.ok { sk with norms := some nb } ∧
      nb.size = ds.size ∧ ∀ i, i < ds.size → nb.cell i = some (pairScore aa sk ds i i) := by
  obtain ⟨nb, e, h1, h2⟩ := normsLoop_spec aa sk ds hret
  refine ⟨nb, ?_, h1, h2⟩
  unfold compute_norms
  rw [hds]
  simp only [e]

end MatrixProofs


section MatrixProofs2
variable {K : Type} [Field K]

theorem matEntry_symm (aa : Nat → K) (sqrt : K → K) (sk : StringKernel K) (ds : DataSet)
    (i j : Nat) : matEntry aa sqrt sk ds j i = matEntry aa sqrt sk ds i j := by
  unfold matEntry
  rw [Nat.min_comm j i, Nat.max_comm j i]
  by_cases h : i = j
  · simp [h]
  · simp [h, Ne.symm h]

theorem matEntry_le (aa : Nat → K) (sqrt : K → K) (sk : StringKernel K) (ds : DataSet)
    {i j : Nat} (hij : i ≤ j) (hn : sk._normalize ≠ 0 → i ≠ j) :
    matEntry aa sqrt sk ds i j =
      if sk._normalize ≠ 0 then
        pairScore aa sk ds i j / sqrt (pairScore aa sk ds i i * pairScore aa sk ds j j)
      else pairScore aa sk ds i j := by
  unfold matEntry
  rw [Nat.min_eq_left hij, Nat.max_eq_right hij]
  by_cases h : sk._normalize ≠ 0
  · rw [if_pos h, if_pos h, if_neg (hn h)]
  · rw [if_neg h, if_neg h]

theorem entryBody_spec (aa : Nat → K) (sqrt : K → K) (sk : StringKernel K) (ds : DataSet)
    (hret : PairsReturn aa sk ds) (hnorm : NormsReady aa sk ds)
    (i j : Nat) (kb : Buf K) (hij : i ≤ j) (hj : j < ds.size)
    (hn : sk._normalize ≠ 0 → i ≠ j) (hsize : kb.size = ds.size * ds.size) :
    entryBody aa sqrt sk ds ds.size i j kb = some ⟨kb.size, fun c =>
      if c = j * ds.size + i then some (matEntry aa sqrt sk ds i j)
      else if c = i * ds.size + j then some (matEntry aa sqrt sk ds i j)
      else kb.cell c⟩ := by
  have hN : ds.size < 2 ^ 32 := ds.size_lt
  have hi : i < ds.size := by omega
  obtain ⟨xi, xj, e1, e2, e3⟩ := pairScore_spec aa sk ds hret hij hj
  have f1 : sadd (smul i ds.size) j = i * ds.size + j := flat_index hN hi hj
  have f2 : sadd (smul j ds.size) i = j * ds.size + i := flat_index hN hj hi
  have l1 : i * ds.size + j < kb.size := by rw [hsize]; exact flat_index_lt hi hj
  have l2 : j * ds.size + i < kb.size := by rw [hsize]; exact flat_index_lt hj hi
  unfold entryBody
  rw [e1, Option.some_bind, e2, Option.some_bind, e3, Option.some_bind, f1, f2,
    bufSet_eq kb _ l1, Option.some_bind, matEntry_le aa sqrt sk ds hij hn]
  by_cases h : sk._normalize ≠ 0
  · obtain ⟨nb, hnb, hs, hc⟩ := hnorm h
    have g1 : nb.get i = some (pairScore aa sk ds i i) := by
      rw [bufGet_eq nb (by omega)]
      exact hc i hi
    have g2 : nb.get j = some (pairScore aa sk ds j j) := by
      rw [bufGet_eq nb (by omega)]
      exact hc j hj
    rw [if_pos h, if_pos h, hnb]
    simp only [Option.some_bind, g1, g2]
    simp only [Option.some_bind, Buf.get, Buf.set, l1, l2, if_true]
    congr 2
    funext c
    by_cases c1 : c = j * ds.size + i
    · simp [c1]
    · by_cases c2 : c = i * ds.size + j
      · simp [c1, c2]
      · simp [c1, c2]
  · rw [if_neg h, if_neg h]
    simp only [Option.some_bind, Buf.get, Buf.set, l1, l2, if_true]

theorem entryLoop_spec (aa : Nat → K) (sqrt : K → K) (sk : StringKernel K) (ds : DataSet)
    (hret : PairsReturn aa sk ds) (hnorm : NormsReady aa sk ds)
    (i j0 : Nat) (kb : Buf K) (hi : i < ds.size) (hij : i ≤ j0) (hj0 : j0 ≤ ds.size)
    (hn : sk._normalize ≠ 0 → i < j0) (h : RowPartial aa sqrt sk ds i j0 kb) :
    ∃ kb', forLt j0 ds.size (entryBody aa sqrt sk ds ds.size i) kb = some kb' ∧
      RowsDone aa sqrt sk ds (i + 1) kb' := by
  obtain ⟨kb', e, ⟨h1, h2⟩, h3⟩ := forLt_inv (entryBody aa sqrt sk ds ds.size i)
    (fun j kb => RowPartial aa sqrt sk ds i j kb) j0 ds.size kb hj0 h
    (fun j kb1 hj1 hj2 ⟨⟨h1, h2⟩, h3⟩ => by
      refine ⟨_, entryBody_spec aa sqrt sk ds hret hnorm i j kb1 (by omega) hj2
        (fun hh => by have := hn hh; omega) h1, ⟨h1, fun a b ha hb hab => ?_⟩,
        fun b hb1 hb2 => ?_⟩
      · show (if a * ds.size + b = j * ds.size + i then _
          else if a * ds.size + b = i * ds.size + j then _ else kb1.cell (a * ds.size + b)) = _
        rw [if_neg (fun hc => by
            have := flat_index_inj hb hi hc
            omega),
          if_neg (fun hc => by
            have := flat_index_inj hb hj2 hc
            omega)]
        exact h2 a b ha hb hab
      · have hbN : b < ds.size := by omega
        constructor
        · show (if i * ds.size + b = j * ds.size + i then _
            else if i * ds.size + b = i * ds.size + j then _
            else kb1.cell (i * ds.size + b)) = _
          by_cases c1 : i * ds.size + b = j * ds.size + i
          · have := flat_index_inj hbN hi c1
            rw [if_pos c1, this.2, ← this.1]
          · rw [if_neg c1]
            by_cases c2 : b = j
            · rw [if_pos (by rw [c2]), c2]
            · rw [if_neg (fun hc => c2 (flat_index_inj hbN hj2 hc).2)]
              exact (h3 b hb1 (by omega)).1
        · show (if b * ds.size + i = j * ds.size + i then _
            else if b * ds.size + i = i * ds.size + j then _
            else kb1.cell (b * ds.size + i)) = _
          by_cases c1 : b = j
          · rw [if_pos (by rw [c1]), c1, matEntry_symm]
          · rw [if_neg (fun hc => c1 (flat_index_inj hi hi hc).1)]
            by_cases c2 : b * ds.size + i = i * ds.size + j
            · have := flat_index_inj hi hj2 c2
              omega
            · rw [if_neg c2]
              exact (h3 b hb1 (by omega)).2)
  refine ⟨kb', e, h1, fun a b ha hb hab => ?_⟩
  by_cases hlt : min a b < i
  · exact h2 a b ha hb hlt
  · by_cases hai : a = i
    · rw [hai]
      exact (h3 b (by omega) hb).1
    · have hbi : b = i := by omega
      rw [hbi]
      exact (h3 a (by omega) ha).2

theorem rowEntries_spec (aa : Nat → K) (sqrt : K → K) (sk : StringKernel K) (ds : DataSet)
    (hret : PairsReturn aa sk ds) (hnorm : NormsReady aa sk ds)
    (i : Nat) (kb : Buf K) (hi : i < ds.size) (h : RowsDone aa sqrt sk ds i kb) :
    ∃ kb', rowEntries aa sqrt sk ds ds.size i kb = some kb' ∧
      RowsDone aa sqrt sk ds (i + 1) kb' := by
  have hN : ds.size < 2 ^ 32 := ds.size_lt
  obtain ⟨h1, h2⟩ := h
  unfold rowEntries
  by_cases hz : sk._normalize ≠ 0
  · have f1 : sadd (smul i ds.size) i = i * ds.size + i := flat_index hN hi hi
    have l1 : i * ds.size + i < kb.size := by rw [h1]; exact flat_index_lt hi hi
    have e1 : sadd i 1 = i + 1 := sadd_one (by rw [SIZE_MAX_eq]; omega)
    rw [if_pos hz, f1, bufSet_eq kb _ l1, e1]
    simp only [Option.map_some', Option.some_bind]
    apply entryLoop_spec aa sqrt sk ds hret hnorm i (i + 1) _ hi (by omega) (by omega)
      (fun _ => by omega)
    refine ⟨⟨h1, fun a b ha hb hab => ?_⟩, fun b hb1 hb2 => ?_⟩
    · show (if a * ds.size + b = i * ds.size + i then _ else kb.cell (a * ds.size + b)) = _
      rw [if_neg (fun hc => by
        have := flat_index_inj hb hi hc
        omega)]
      exact h2 a b ha hb hab
    · have hb : b = i := by omega
      subst hb
      have hm : matEntry aa sqrt sk ds b b = 1 := by
        unfold matEntry
        rw [if_pos hz, if_pos rfl]
      rw [hm]
      constructor <;>
      · show (if b * ds.size + b = b * ds.size + b then some (1 : K) else _) = _
        rw [if_pos rfl]
  · rw [if_neg hz]
    simp only [Option.some_bind]
    exact entryLoop_spec aa sqrt sk ds hret hnorm i i kb hi (by omega) (by omega)
      (fun hh => absurd hh hz) ⟨⟨h1, h2⟩, fun b hb1 hb2 => by omega⟩

theorem matrixLoop_spec (aa : Nat → K) (sqrt : K → K) (sk : StringKernel K) (ds : DataSet)
    (hret : PairsReturn aa sk ds) (hnorm : NormsReady aa sk ds) :
    ∃ kb, forLt 0 ds.size (rowEntries aa sqrt sk ds ds.size)
        (Buf.alloc (smul ds.size ds.size)) = some kb ∧
      kb.size = ds.size * ds.size ∧
      ∀ i j, i < ds.size → j < ds.size →
        kb.get (i * ds.size + j) = some (matEntry aa sqrt sk ds i j) := by
  obtain ⟨kb, e, h1, h2⟩ := forLt_inv (rowEntries aa sqrt sk ds ds.size)
    (fun i kb => RowsDone aa sqrt sk ds i kb) 0 ds.size
    (Buf.alloc (smul ds.size ds.size)) (Nat.zero_le _)
    ⟨by show smul ds.size ds.size = ds.size * ds.size; exact smul_self ds.size_lt,
      fun a b _ _ hab => by omega⟩
    (fun i kb1 _ hi hI => rowEntries_spec aa sqrt sk ds hret hnorm i kb1 hi hI)
  refine ⟨kb, e, h1, fun i j hi hj => ?_⟩
  rw [bufGet_eq kb (by rw [h1]; exact flat_index_lt hi hj)]
  exact h2 i j hi hj (by omega)

/-- Complete description of the matrix assembled by `compute_kernel`. -/
theorem compute_kernel_spec (aa : Nat → K) (sqrt : K → K) (sk : StringKernel K) (ds : DataSet)
    (hds : sk._string_data = some ds) (hret : PairsReturn aa sk ds) :
    ∃ sk' kb, compute_kernel aa sqrt sk = Except.ok sk' ∧ sk'._kernel = some kb ∧
      kb.size = ds.size * ds.size ∧
      (∀ i j, i < ds.size → j < ds.size →
        kb.get (i * ds.size + j) = some (matEntry aa sqrt sk ds i j)) ∧
      (sk._normalize ≠ 0 → ∃ nb, sk'.norms = some nb ∧ nb.size = ds.size ∧
        ∀ i, i < ds.size → nb.get i = some (pairScore aa sk ds i i)) := by
  unfold compute_kernel
  rw [hds]
  by_cases hz : sk._normalize ≠ 0
  · obtain ⟨nb, e, hs, hc⟩ := compute_norms_spec aa sk ds hds hret
    obtain ⟨kb, ek, k1, k2⟩ := matrixLoop_spec aa sqrt { sk with norms := some nb } ds hret
      (fun _ => ⟨nb, rfl, hs, hc⟩)
    refine ⟨{ ({ sk with norms := some nb } : StringKernel K) with _kernel := some kb }, kb,
      ?_, rfl, k1, k2, fun _ => ⟨nb, rfl, hs, fun i hi => ?_⟩⟩
    · simp only [if_pos hz, e, ek]
    · rw [bufGet_eq nb (by omega)]
      exact hc i hi
  · obtain ⟨kb, ek, k1, k2⟩ := matrixLoop_spec aa sqrt sk ds hret (fun h => absurd h hz)
    refine ⟨{ sk with _kernel := some kb }, kb, ?_, rfl, k1, k2, fun h => absurd h hz⟩
    simp only [if_neg hz, ek]

end MatrixProofs2


theorem loopFrom_some_body {σ : Type} (body : Nat → σ → Option σ) :
    ∀ (n lo : Nat) (s s' : σ), loopFrom body n lo s = some s' →
      ∀ j, lo ≤ j → j < lo + n → ∃ s1 s2, body j s1 = some s2
  | 0, lo, _, _, _, j, h1, h2 => by omega
  | n + 1, lo, s, s', h, j, h1, h2 => by
    simp only [loopFrom] at h
    obtain ⟨s1, hb, hl⟩ := Option.bind_eq_some.mp h
    by_cases hj : j = lo
    · rw [hj]
      exact ⟨s, s1, hb⟩
    · exact loopFrom_some_body body n (lo + 1) s1 s' hl j (by omega) (by omega)

theorem forLt_some_body {σ : Type} (body : Nat → σ → Option σ) (lo hi : Nat) (s s' : σ)
    (h : forLt lo hi body s = some s') :
    ∀ j, lo ≤ j → j < hi → ∃ s1 s2, body j s1 = some s2 :=
  fun j h1 h2 => loopFrom_some_body body (hi - lo) lo s s' h j h1 (by omega)

section Returns
variable {K : Type} [Field K]

theorem entryBody_some_pair (aa : Nat → K) (sqrt : K → K) (sk : StringKernel K) (ds : DataSet)
    (N i j : Nat) (kb kb' : Buf K) (h : entryBody aa sqrt sk ds N i j kb = some kb') :
    (pairCall aa sk ds i j).isSome := by
  unfold entryBody at h
  obtain ⟨xi, e1, h⟩ := Option.bind_eq_some.mp h
  obtain ⟨xj, e2, h⟩ := Option.bind_eq_some.mp h
  obtain ⟨v, e3, _⟩ := Option.bind_eq_some.mp h
  unfold pairCall
  rw [e1, e2, Option.some_bind, Option.some_bind, e3]
  rfl

theorem normsBody_some_pair (aa : Nat → K) (sk : StringKernel K) (ds : DataSet)
    (i : Nat) (nb nb' : Buf K) (h : normsBody aa sk ds i nb = some nb') :
    (pairCall aa sk ds i i).isSome := by
  unfold normsBody at h
  obtain ⟨xi, e1, h⟩ := Option.bind_eq_some.mp h
  obtain ⟨v, e3, _⟩ := Option.bind_eq_some.mp h
  unfold pairCall
  rw [e1, Option.some_bind, Option.some_bind, e3]
  rfl

theorem rowEntries_some_pair (aa : Nat → K) (sqrt : K → K) (sk : StringKernel K)
    (ds : DataSet) (N i : Nat) (kb kb' : Buf K) (hi : i < SIZE_MAX)
    (h : rowEntries aa sqrt sk ds N i kb = some kb') :
    ∀ j, i < j → j < N → (pairCall aa sk ds i j).isSome := by
  intro j hij hj
  unfold rowEntries at h
  obtain ⟨st, e1, h⟩ := Option.bind_eq_some.mp h
  have hst : st.2 ≤ i + 1 := by
    by_cases hz : sk._normalize ≠ 0
    · rw [if_pos hz] at e1
      obtain ⟨kb1, _, e2⟩ := Option.map_eq_some'.mp e1
      rw [← e2, sadd_one hi]
    · rw [if_neg hz] at e1
      rw [← Option.some.inj e1]
      exact Nat.le_succ i
  obtain ⟨s1, s2, hb⟩ := forLt_some_body _ _ _ _ _ h j (by omega) hj
  exact entryBody_some_pair aa sqrt sk ds N i j s1 s2 hb

theorem rowEntries_some_diag (aa : Nat → K) (sqrt : K → K) (sk : StringKernel K)
    (ds : DataSet) (N i : Nat) (kb kb' : Buf K) (hz : sk._normalize = 0) (hi : i < N)
    (h : rowEntries aa sqrt sk ds N i kb = some kb') :
    (pairCall aa sk ds i i).isSome := by
  unfold rowEntries at h
  rw [if_neg (not_not.mpr hz), Option.some_bind] at h
  obtain ⟨s1, s2, hb⟩ := forLt_some_body _ _ _ _ _ h i (Nat.le_refl i) hi
  exact entryBody_some_pair aa sqrt sk ds N i i s1 s2 hb

/-- When `compute_kernel` returns, every engine call it made returned. -/
theorem compute_kernel_ok_pairs (aa : Nat → K) (sqrt : K → K) (sk sk' : StringKernel K)
    (ds : DataSet) (hds : sk._string_data = some ds)
    (h : compute_kernel aa sqrt sk = Except.ok sk') : PairsReturn aa sk ds := by
  have hN : ds.size < 2 ^ 32 := ds.size_lt
  have hmax := SIZE_MAX_eq
  obtain ⟨nz, ss, ml, kn, lam, sd, kern, nrm, pd⟩ := sk
  simp only at hds
  subst hds
  unfold compute_kernel at h
  simp only at h
  by_cases hz : nz ≠ 0
  · simp only [if_pos hz] at h
    unfold compute_norms at h
    simp only at h
    cases hn : forLt 0 ds.size (normsBody aa ⟨nz, ss, ml, kn, lam, some ds, kern, nrm, pd⟩ ds)
        (Buf.alloc ds.size) with
    | none => simp [hn] at h
    | some nb =>
      simp only [hn] at h
      cases hm : forLt 0 ds.size
          (rowEntries aa sqrt ⟨nz, ss, ml, kn, lam, some ds, kern, some nb, pd⟩ ds ds.size)
          (Buf.alloc (smul ds.size ds.size)) with
      | none => simp [hm] at h
      | some kb =>
        intro i j hij hj
        by_cases hd : i = j
        · subst hd
          obtain ⟨s1, s2, hb⟩ := forLt_some_body _ _ _ _ _ hn i (Nat.zero_le i) hj
          exact normsBody_some_pair aa _ ds i s1 s2 hb
        · obtain ⟨s1, s2, hb⟩ := forLt_some_body _ _ _ _ _ hm i (Nat.zero_le i) (by omega)
          exact rowEntries_some_pair aa sqrt _ ds ds.size i s1 s2 (by omega) hb j
            (by omega) hj
  · simp only [if_neg hz] at h
    cases hm : forLt 0 ds.size
        (rowEntries aa sqrt ⟨nz, ss, ml, kn, lam, some ds, kern, nrm, pd⟩ ds ds.size)
        (Buf.alloc (smul ds.size ds.size)) with
    | none => simp [hm] at h
    | some kb =>
      intro i j hij hj
      obtain ⟨s1, s2, hb⟩ := forLt_some_body _ _ _ _ _ hm i (Nat.zero_le i) (by omega)
      by_cases hd : i = j
      · subst hd
        exact rowEntries_some_diag aa sqrt _ ds ds.size i s1 s2 (not_not.mp hz) hj hb
      · exact rowEntries_some_pair aa sqrt _ ds ds.size i s1 s2 (by omega) hb j
          (by omega) hj

end Returns

/-! ## The accumulated value as a sum over index tuples -/


section GapSumProofs
variable {K : Type} [Field K]

theorem list_sum_finset_comm {α β : Type} (L : List α) (u : Finset β) (f : α → β → K) :
    (L.map fun a => ∑ b in u, f a b).sum = ∑ b in u, (L.map fun a => f a b).sum := by
  induction L with
  | nil => simp
  | cons a L ih => simp [Finset.sum_add_distrib, ih]

/-- A sum over the tuples of length `c + 1` below `n`, split by the last index. -/
theorem sum_incTuples_succ (F : List Nat → K) (c : Nat) :
    ∀ n : Nat, ((incTuples (c + 1) n).map F).sum
      = ∑ i in Finset.range n, ((incTuples c i).map fun p => F (p ++ [i])).sum
  | 0 => by simp [incTuples]
  | n + 1 => by
    rw [incTuples_succ_succ, List.map_append, List.sum_append, List.map_map,
      sum_incTuples_succ F c n, Finset.sum_range_succ]
    rfl

theorem pairTerm_snoc (aa : Nat → K) (lam : K) (s t : List Char) {c i j : Nat}
    {p q : List Nat} (hp : p ∈ incTuples c i) (hq : q ∈ incTuples c j) :
    pairTerm aa lam s t (p ++ [i]) (q ++ [j])
      = lam * lam * sub aa (s.getD i 'A') (t.getD j 'A')
        * (if hardMatch s t p q then tupleWeight lam i j p q else 0) := by
  have e1 : (p ++ [i]).headD 0 = p.headD i := by cases p <;> rfl
  have e2 : (q ++ [j]).headD 0 = q.headD j := by cases q <;> rfl
  have h1 : p.headD i ≤ i := by
    cases p with
    | nil => exact Nat.le_refl i
    | cons a p' => exact Nat.le_of_lt (incTuples_lt i c _ hp a (by simp))
  have h2 : q.headD j ≤ j := by
    cases q with
    | nil => exact Nat.le_refl j
    | cons a q' => exact Nat.le_of_lt (incTuples_lt j c _ hq a (by simp))
  unfold pairTerm
  simp only [List.dropLast_concat, List.getLastD_concat, e1, e2]
  by_cases hm : hardMatch s t p q = true
  · simp only [hm, if_true, tupleWeight]
    have e : i - p.headD i + 1 + (j - q.headD j + 1)
        = (i - p.headD i + (j - q.headD j)) + 1 + 1 := by omega
    rw [e, pow_succ, pow_succ]
    ring
  · simp [hm]

theorem finalValue_eq_gapSum (aa : Nat → K) (lam : K) (s t : List Char) (c : Nat) :
    finalValue aa lam s t c = gapSum aa lam s t (c + 1) := by
  unfold finalValue gapSum
  rw [sum_incTuples_succ _ c s.length]
  apply Finset.sum_congr rfl
  intro i _
  have inner : ∀ p ∈ incTuples c i,
      ((incTuples (c + 1) t.length).map fun q => pairTerm aa lam s t (p ++ [i]) q).sum
        = ∑ j in Finset.range t.length,
            lam * lam * sub aa (s.getD i 'A') (t.getD j 'A')
              * ((incTuples c j).map fun q =>
                  if hardMatch s t p q then tupleWeight lam i j p q else 0).sum := by
    intro p hp
    rw [sum_incTuples_succ _ c t.length]
    apply Finset.sum_congr rfl
    intro j _
    rw [← List.sum_map_mul_left]
    congr 1
    apply List.map_congr_left
    intro q hq
    exact pairTerm_snoc aa lam s t hp hq
  rw [List.map_congr_left inner, list_sum_finset_comm]
  apply Finset.sum_congr rfl
  intro j _
  rw [List.sum_map_mul_left]
  rfl

end GapSumProofs

/-! ## The enumeration lists exactly the strictly increasing tuples -/


theorem incTuples_pairwise : ∀ (n k : Nat) (p : List Nat), p ∈ incTuples k n →
    p.Pairwise (· < ·)
  | n, 0, p, h => by
    rw [incTuples_zero] at h
    simp at h
    simp [h]
  | 0, k + 1, p, h => by simp [incTuples] at h
  | n + 1, k + 1, p, h => by
    rw [incTuples_succ_succ, List.mem_append, List.mem_map] at h
    rcases h with h | ⟨p', hp', rfl⟩
    · exact incTuples_pairwise n (k + 1) p h
    · rw [List.pairwise_append]
      refine ⟨incTuples_pairwise n k p' hp', List.pairwise_singleton _ _, fun a ha b hb => ?_⟩
      rw [List.mem_singleton] at hb
      rw [hb]
      exact incTuples_lt n k p' hp' a ha

theorem mem_incTuples_of : ∀ (n k : Nat) (l : List Nat), l.length = k →
    l.Pairwise (· < ·) → (∀ a ∈ l, a < n) → l ∈ incTuples k n
  | n, 0, l, hl, _, _ => by
    rw [incTuples_zero, List.length_eq_zero.mp hl]
    simp
  | 0, k + 1, l, hl, _, hlt => by
    cases l with
    | nil => simp at hl
    | cons a l' => exact absurd (hlt a (by simp)) (Nat.not_lt_zero a)
  | n + 1, k + 1, l, hl, hp, hlt => by
    rcases List.eq_nil_or_concat l with h | ⟨l', a, h⟩
    · rw [h] at hl
      simp at hl
    · rw [List.concat_eq_append] at h
      subst h
      rw [List.pairwise_append] at hp
      obtain ⟨hp1, _, hp3⟩ := hp
      have hl' : l'.length = k := by simpa using hl
      have ha : a < n + 1 := hlt a (by simp)
      rw [incTuples_succ_succ, List.mem_append, List.mem_map]
      by_cases han : a = n
      · right
        refine ⟨l', mem_incTuples_of n k l' hl' hp1 (fun b hb => ?_), by rw [han]⟩
        rw [← han]
        exact hp3 b hb a (by simp)
      · left
        refine mem_incTuples_of n (k + 1) _ hl
          (List.pairwise_append.mpr ⟨hp1, List.pairwise_singleton _ _, hp3⟩) (fun b hb => ?_)
        rw [List.mem_append, List.mem_singleton] at hb
        rcases hb with hb | hb
        · have := hp3 b hb a (by simp)
          omega
        · omega

theorem incTuples_nodup : ∀ (n k : Nat), (incTuples k n).Nodup
  | n, 0 => by
    rw [incTuples_zero]
    simp
  | 0, k + 1 => by simp [incTuples]
  | n + 1, k + 1 => by
    rw [incTuples_succ_succ, List.nodup_append]
    refine ⟨incTuples_nodup n (k + 1), ?_, ?_⟩
    · apply List.Nodup.map _ (incTuples_nodup n k)
      intro a b hab
      exact List.append_cancel_right hab
    · intro l h1 h2
      rw [List.mem_map] at h2
      obtain ⟨p', _, rfl⟩ := h2
      have := incTuples_lt n (k + 1) _ h1 n (by simp)
      omega

theorem tupleList_length {k n : Nat} (p : Fin k → Fin n) : (tupleList p).length = k := by
  unfold tupleList
  simp

theorem tupleList_getElem {k n : Nat} (p : Fin k → Fin n) (i : Nat) (h : i < k)
    (h2 : i < (tupleList p).length) : (tupleList p)[i] = (p ⟨i, h⟩).val := by
  unfold tupleList
  simp

theorem tupleList_injective {k n : Nat} : Function.Injective (tupleList : (Fin k → Fin n) → _) := by
  intro p q h
  unfold tupleList at h
  have := List.ofFn_injective h
  funext m
  exact Fin.ext (congrFun this m)

theorem tupleList_mem {k n : Nat} {p : Fin k → Fin n} (hp : p ∈ incFuns k n) :
    tupleList p ∈ incTuples k n := by
  unfold incFuns at hp
  rw [Finset.mem_filter] at hp
  apply mem_incTuples_of n k _ (tupleList_length p)
  · unfold tupleList
    rw [List.pairwise_ofFn]
    intro i j hij
    exact hp.2 i j hij
  · intro a ha
    unfold tupleList at ha
    rw [List.mem_ofFn] at ha
    obtain ⟨m, rfl⟩ := ha
    exact (p m).isLt

theorem exists_tupleList {k n : Nat} {l : List Nat} (hl : l ∈ incTuples k n) :
    ∃ p ∈ incFuns k n, tupleList p = l := by
  have hlen := incTuples_length n k l hl
  have hlt := incTuples_lt n k l hl
  have hpw := incTuples_pairwise n k l hl
  refine ⟨fun m => ⟨l.get ⟨m.val, by rw [hlen]; exact m.isLt⟩,
    hlt _ (List.getElem_mem _)⟩, ?_, ?_⟩
  · unfold incFuns
    rw [Finset.mem_filter]
    refine ⟨Finset.mem_univ _, fun a b hab => ?_⟩
    show l.get ⟨a.val, _⟩ < l.get ⟨b.val, _⟩
    exact List.pairwise_iff_getElem.mp hpw a.val b.val _ _ hab
  · apply List.ext_getElem
    · rw [tupleList_length, hlen]
    · intro i h1 h2
      rw [tupleList_getElem _ i (by rw [← hlen]; exact h2) h1]
      rfl

section FinsetSum
variable {K : Type} [Field K]

/-- A sum over the strictly increasing tuples is the sum over their enumeration. -/
theorem sum_incFuns (g : List Nat → K) (k n : Nat) :
    ∑ p in incFuns k n, g (tupleList p) = ((incTuples k n).map g).sum := by
  rw [← List.sum_toFinset g (incTuples_nodup n k)]
  have himg : (incTuples k n).toFinset = (incFuns k n).image tupleList := by
    ext l
    rw [List.mem_toFinset, Finset.mem_image]
    constructor
    · intro hl
      exact exists_tupleList hl
    · rintro ⟨p, hp, rfl⟩
      exact tupleList_mem hp
  rw [himg, Finset.sum_image]
  intro p _ q _ h
  exact tupleList_injective h

end FinsetSum


theorem hardMatch_ofFn (s t : List Char) : ∀ (k : Nat) (f g : Fin k → Nat),
    hardMatch s t (List.ofFn f) (List.ofFn g) = true ↔ ∀ i : Fin k, s[f i]? = t[g i]?
  | 0, f, g => by
    simp [hardMatch]
  | k + 1, f, g => by
    rw [List.ofFn_succ, List.ofFn_succ, Fin.forall_fin_succ,
      ← hardMatch_ofFn s t k (fun i => f i.succ) (fun i => g i.succ)]
    simp [hardMatch]

theorem tupleList_headD {k n : Nat} (p : Fin (k + 1) → Fin n) :
    (tupleList p).headD 0 = (p 0).val := by
  unfold tupleList
  rw [List.ofFn_succ]
  rfl

theorem tupleList_concat {k n : Nat} (p : Fin (k + 1) → Fin n) :
    tupleList p = List.ofFn (fun i : Fin k => (p i.castSucc).val) ++ [(p (Fin.last k)).val] := by
  unfold tupleList
  rw [List.ofFn_succ', List.concat_eq_append]

theorem tupleList_getLastD {k n : Nat} (p : Fin (k + 1) → Fin n) :
    (tupleList p).getLastD 0 = (p (Fin.last k)).val := by
  rw [tupleList_concat, List.getLastD_concat]

theorem tupleList_dropLast {k n : Nat} (p : Fin (k + 1) → Fin n) :
    (tupleList p).dropLast = List.ofFn (fun i : Fin k => (p i.castSucc).val) := by
  rw [tupleList_concat, List.dropLast_concat]

theorem forall_ne_last {k : Nat} (P : Fin (k + 1) → Prop) :
    (∀ m : Fin (k + 1), m ≠ Fin.last k → P m) ↔ ∀ i : Fin k, P i.castSucc := by
  constructor
  · intro h i
    exact h _ (Fin.castSucc_lt_last i).ne
  · intro h m hm
    obtain ⟨i, rfl⟩ := Fin.exists_castSucc_eq.mpr hm
    exact h i

section PairTerm
variable {K : Type} [Field K]

theorem pairTerm_tupleList (aa : Nat → K) (lam : K) (s t : List Char) (k : Nat)
    (p : Fin (k + 1) → Fin s.length) (q : Fin (k + 1) → Fin t.length) :
    pairTerm aa lam s t (tupleList p) (tupleList q)
      = if ∀ m : Fin (k + 1), m ≠ Fin.last k → s.get (p m) = t.get (q m) then
          lam ^ (((p (Fin.last k)).val - (p 0).val + 1)
              + ((q (Fin.last k)).val - (q 0).val + 1))
            * sub aa (s.get (p (Fin.last k))) (t.get (q (Fin.last k)))
        else 0 := by
  have hcond : (hardMatch s t (tupleList p).dropLast (tupleList q).dropLast = true)
      ↔ ∀ m : Fin (k + 1), m ≠ Fin.last k → s.get (p m) = t.get (q m) := by
    rw [tupleList_dropLast, tupleList_dropLast, hardMatch_ofFn, forall_ne_last]
    apply forall_congr'
    intro i
    rw [List.getElem?_eq_getElem (p i.castSucc).isLt,
      List.getElem?_eq_getElem (q i.castSucc).isLt]
    simp
  unfold pairTerm
  rw [tupleList_headD, tupleList_headD, tupleList_getLastD, tupleList_getLastD,
    List.getD_eq_getElem _ _ (p (Fin.last k)).isLt, List.getD_eq_getElem _ _ (q (Fin.last k)).isLt]
  by_cases h : ∀ m : Fin (k + 1), m ≠ Fin.last k → s.get (p m) = t.get (q m)
  · rw [if_pos h, if_pos (hcond.mpr h)]
    rfl
  · rw [if_neg h, if_neg (fun hh => h (hcond.mp hh))]

theorem gapSum_eq_subsequenceKernel (aa : Nat → K) (lam : K) (s t : List Char) (k : Nat) :
    gapSum aa lam s t (k + 1) = subsequenceKernel aa lam s t (k + 1) := by
  unfold gapSum subsequenceKernel
  rw [← sum_incFuns _ (k + 1) s.length]
  apply Finset.sum_congr rfl
  intro p _
  rw [← sum_incFuns _ (k + 1) t.length]
  apply Finset.sum_congr rfl
  intro q _
  exact pairTerm_tupleList aa lam s t k p q

end PairTerm

/-! ## Symmetry of the reference quantities -/


theorem hardMatch_comm (s t : List Char) : ∀ (p q : List Nat),
    hardMatch s t p q = hardMatch t s q p
  | [], [] => rfl
  | [], _ :: _ => rfl
  | _ :: _, [] => rfl
  | a :: p, b :: q => by
    have ih := hardMatch_comm s t p q
    unfold hardMatch at ih ⊢
    simp only [List.zip_cons_cons, List.all_cons, ih]
    congr 1
    exact decide_eq_decide.mpr eq_comm

section Symmetry
variable {K : Type} [Field K]

theorem list_sum_comm {α β : Type} (L1 : List α) (L2 : List β) (f : α → β → K) :
    (L1.map fun a => (L2.map fun b => f a b).sum).sum
      = (L2.map fun b => (L1.map fun a => f a b).sum).sum := by
  induction L1 with
  | nil => simp
  | cons a L ih => simp [List.sum_map_add, ih]

theorem Kprime_comm (lam : K) (s t : List Char) (i j k : Nat) :
    Kprime lam s t i j k = Kprime lam t s i k j := by
  unfold Kprime
  rw [list_sum_comm]
  congr 1
  apply List.map_congr_left
  intro q _
  congr 1
  apply List.map_congr_left
  intro p _
  rw [hardMatch_comm s t p q]
  unfold tupleWeight
  rw [Nat.add_comm]

theorem finalValue_comm (aa : Nat → K) (lam : K) (x y : DataElement) (c : Nat)
    (hx : x.inAlphabet) (hy : y.inAlphabet)
    (hsym : SymmetricTable aa) :
    finalValue aa lam x.attributes y.attributes c
      = finalValue aa lam y.attributes x.attributes c := by
  unfold finalValue
  rw [Finset.sum_comm]
  apply Finset.sum_congr rfl
  intro j hj
  apply Finset.sum_congr rfl
  intro i hi
  rw [Finset.mem_range] at hi hj
  have hi' : x.attributes.getD i 'A' ∈ x.attributes := by
    rw [List.getD_eq_getElem _ _ hi]
    exact List.getElem_mem _
  have hj' : y.attributes.getD j 'A' ∈ y.attributes := by
    rw [List.getD_eq_getElem _ _ hj]
    exact List.getElem_mem _
  rw [hsym _ _ (hx _ hi') (hy _ hj'), Kprime_comm]

end Symmetry

/-! ## Sequences shorter than the order -/


theorem loopFrom_id {σ : Type} (body : Nat → σ → Option σ) (s : σ) :
    ∀ (n lo : Nat), (∀ j, lo ≤ j → j < lo + n → body j s = some s) →
      loopFrom body n lo s = some s
  | 0, _, _ => rfl
  | n + 1, lo, h => by
    simp only [loopFrom]
    rw [h lo (Nat.le_refl lo) (by omega), Option.some_bind]
    exact loopFrom_id body s n (lo + 1) (fun j h1 h2 => h j (by omega) (by omega))

theorem forLe_eq_loopFrom {σ : Type} (body : Nat → σ → Option σ) (lo hi : Nat) (s : σ)
    (hhi : hi < SIZE_MAX) : forLe lo hi body s = loopFrom body (hi + 1 - lo) lo s := by
  unfold forLe
  rw [if_neg (Nat.ne_of_lt hhi)]

section Short
variable {K : Type} [Field K]

theorem orderPass_id (lam : K) (x y : DataElement) (i : Nat) (T : KdTable K)
    (hn : 1 ≤ x.length) (hm : 1 ≤ y.length) (hin : x.length < i) (him : y.length < i)
    (hmax : i ≤ SIZE_MAX) : orderPass lam x y i T = some T := by
  have hxl := x.length_lt
  have hyl := y.length_lt
  have hxl' : x.length = x.attributes.length := rfl
  have hyl' : y.length = y.attributes.length := rfl
  have e1 : ssub i 1 = i - 1 := ssub_one (by omega) hmax
  have e2 : ssub x.length 1 = x.length - 1 := ssub_one hn (by omega)
  have e3 : ssub y.length 1 = y.length - 1 := ssub_one hm (by omega)
  unfold orderPass
  rw [e1, e2, e3, forLe_empty _ _ _ _ (by omega) (by omega), Option.some_bind,
    forLe_empty _ _ _ _ (by omega) (by omega), Option.some_bind,
    forLe_empty _ _ _ _ (by omega) (by omega)]

theorem orderPass_fail (lam : K) (x y : DataElement) (i : Nat) (T : KdTable K)
    (hn : 1 ≤ x.length) (hm : 1 ≤ y.length)
    (hr : T.rows = x.length + 1) (hc : T.cols = y.length + 1)
    (hi : (x.length + 2 ≤ i ∧ i ≤ y.length) ∨ (y.length + 2 ≤ i ∧ i ≤ x.length)) :
    orderPass lam x y i T = none := by
  have hxl := x.length_lt
  have hyl := y.length_lt
  have hxl' : x.length = x.attributes.length := rfl
  have hyl' : y.length = y.attributes.length := rfl
  have hmax := SIZE_MAX_eq
  have e1 : ssub i 1 = i - 1 := ssub_one (by omega) (by omega)
  have e2 : ssub x.length 1 = x.length - 1 := ssub_one hn (by omega)
  have e3 : ssub y.length 1 = y.length - 1 := ssub_one hm (by omega)
  unfold orderPass
  rw [e1, e2, e3]
  rcases hi with ⟨h1, h2⟩ | ⟨h1, h2⟩
  · rw [forLe_empty _ _ _ _ (by omega) (by omega), Option.some_bind,
      forLe_fail_first _ _ _ _ (by omega), Option.none_bind]
    unfold zeroRowBody
    rw [e1]
    exact kdSet_none_of_row T 0 (by omega)
  · rw [forLe_fail_first _ _ _ _ (by omega), Option.none_bind]
    unfold zeroColBody
    rw [e1]
    exact kdSet_none_of_col T 0 (by omega)

theorem orderPass_fail_empty (lam : K) (x y : DataElement) (T : KdTable K)
    (hr : T.rows = x.length + 1) (hc : T.cols = y.length + 1)
    (h0 : x.length = 0 ∨ y.length = 0) : orderPass lam x y 1 T = none := by
  have hxl := x.length_lt
  have hxl' : x.length = x.attributes.length := rfl
  have hmax := SIZE_MAX_eq
  unfold orderPass
  by_cases hx0 : x.length = 0
  · rw [hx0, ssub_zero_one, forLe_max, Option.none_bind]
  · have hy0 : y.length = 0 := by omega
    have e1 : ssub 1 1 = 0 := by decide
    have e2 : ssub x.length 1 = x.length - 1 := ssub_one (by omega) (by omega)
    obtain ⟨T1, e, _⟩ := forLe_inv (zeroColBody 1 : Nat → KdTable K → Option (KdTable K))
      (fun _ (T : KdTable K) => T.rows = x.length + 1 ∧ T.cols = y.length + 1)
      0 (x.length - 1) T (by omega) (by omega) ⟨hr, hc⟩
      (fun j T1 _ hj ⟨h1, h2⟩ => by
        unfold zeroColBody
        rw [e1]
        exact ⟨_, kdSet_eq T1 0 (by omega) (by omega) (by omega), h1, h2⟩)
    rw [e1, e2, e, Option.some_bind, hy0, ssub_zero_one, forLe_max, Option.none_bind]

theorem finalSum_short (aa : Nat → K) (lam : K) (x y : DataElement) (c : Nat) (T : KdTable K)
    (hc : c < SIZE_MAX) (h : x.length < c + 1 ∨ y.length < c + 1) :
    finalSum aa ((c + 1 : Nat) : Int) lam x y T = some 0 := by
  have hxl := x.length_lt
  have hyl := y.length_lt
  have hxl' : x.length = x.attributes.length := rfl
  have hyl' : y.length = y.attributes.length := rfl
  unfold finalSum
  rw [toSizeT_natCast (by omega)]
  by_cases hx : x.length < c + 1
  · exact forLe_empty _ _ _ _ x.length_lt hx
  · have hy : y.length < c + 1 := by omega
    obtain ⟨acc, e, hacc⟩ := forLe_inv
      (fun i sum => forLe (c + 1) y.length (finalBody aa ((c + 1 : Nat) : Int) lam x y T i) sum)
      (fun _ (acc : K) => acc = 0) (c + 1) x.length 0 x.length_lt (by omega) rfl
      (fun i acc _ _ hI => ⟨acc, forLe_empty _ _ _ _ y.length_lt hy, hI⟩)
    rw [e, hacc]

/-- The engine on a pair with a sequence shorter than `kn - 1 = c`: it returns nothing when a
sequence is empty or when the order loop reaches a pass that writes outside the tables, and
`0` otherwise. -/
theorem kernel_short (aa : Nat → K) (lam : K) (x y : DataElement) (c : Nat)
    (hc : c < SIZE_MAX) (hshort : x.length < c ∨ y.length < c) :
    kernel aa ((c + 1 : Nat) : Int) lam x y
      = if x.length = 0 ∨ y.length = 0 ∨
            (min x.length y.length + 2 ≤ c ∧ min x.length y.length + 2 ≤ max x.length y.length)
        then none else some 0 := by
  have hxl := x.length_lt
  have hyl := y.length_lt
  have hxl' : x.length = x.attributes.length := rfl
  have hyl' : y.length = y.attributes.length := rfl
  have hmax := SIZE_MAX_eq
  obtain ⟨T0, e0, h0⟩ := initKd_holds lam x y
  have ec : toSizeT (((c + 1 : Nat) : Int) - 1) = c := by
    have : ((c + 1 : Nat) : Int) - 1 = (c : Int) := by push_cast; ring
    rw [this, toSizeT_natCast (by omega)]
  unfold kernel
  rw [e0, Option.some_bind, ec, forLe_eq_loopFrom _ _ _ _ hc]
  by_cases hz : x.length = 0 ∨ y.length = 0
  · have e : c + 1 - 1 = (c - 1) + 1 := by omega
    rw [e, loopFrom_fail_first _ _ _ _
      (orderPass_fail_empty lam x y T0 h0.1 h0.2.1 hz), Option.none_bind, if_pos]
    rcases hz with hz | hz
    · exact Or.inl hz
    · exact Or.inr (Or.inl hz)
  · have hn : 1 ≤ x.length := by omega
    have hm : 1 ≤ y.length := by omega
    obtain ⟨T1, e1, h1⟩ := orderLoop_spec lam x y (min x.length y.length + 1) T0
      (by omega) (by omega) (by omega) (fun _ => hn) (fun _ => hm) h0
    rw [forLe_eq_loopFrom _ _ _ _ (by omega)] at e1
    have e : c + 1 - 1 = (min x.length y.length + 1 + 1 - 1) + (c - (min x.length y.length + 1)) := by
      omega
    rw [e, loopFrom_add, e1, Option.some_bind]
    by_cases hr : c = min x.length y.length + 1
    · have er : c - (min x.length y.length + 1) = 0 := by omega
      rw [er, if_neg (by omega)]
      exact finalSum_short aa lam x y c T1 hc (by omega)
    · by_cases hbig : min x.length y.length + 2 ≤ max x.length y.length
      · have er : c - (min x.length y.length + 1)
            = (c - (min x.length y.length + 2)) + 1 := by omega
        rw [er, loopFrom_fail_first _ _ _ _
          (orderPass_fail lam x y _ T1 hn hm h1.1 h1.2.1 (by omega)), Option.none_bind,
          if_pos (by omega)]
      · rw [loopFrom_id _ T1 _ _ (fun j hj1 hj2 =>
          orderPass_id lam x y j T1 hn hm (by omega) (by omega) (by omega)),
          Option.some_bind, if_neg (by omega)]
        exact finalSum_short aa lam x y c T1 hc (by omega)

end Short

/-! ## The engine against the specification's formulas -/


theorem forall_fin_last {k : Nat} (P : Fin (k + 1) → Prop) :
    (∀ m : Fin (k + 1), P m) ↔ (∀ m : Fin (k + 1), m ≠ Fin.last k → P m) ∧ P (Fin.last k) := by
  constructor
  · intro h
    exact ⟨fun m _ => h m, h _⟩
  · rintro ⟨h1, h2⟩ m
    by_cases hm : m = Fin.last k
    · rw [hm]
      exact h2
    · exact h1 m hm

theorem sub_identityTable {K : Type} [Field K] : IdentityTable (identityTable : Nat → K) := by
  intro a b ha hb
  have hA : code 'A' = 65 := by decide
  have hZ : code 'Z' = 90 := by decide
  rw [hA, hZ] at ha hb
  unfold sub identityTable aaIndex
  rw [hA]
  have hab : a = b ↔ code a = code b := by
    constructor
    · intro h
      rw [h]
    · intro h
      unfold code at h
      have h' : a.toNat = b.toNat := by exact_mod_cast h
      exact Char.ext (UInt32.ext h')
  have hidx : ((code a - 65) * 26 + code b - 65).toNat
      = (code a - 65).toNat * 26 + (code b - 65).toNat := by omega
  have hb26 : (code b - 65).toNat < 26 := by omega
  rw [hidx, Nat.add_comm, Nat.add_mul_div_right _ _ (by omega : 0 < 26),
    Nat.add_mul_mod_self_right, Nat.div_eq_of_lt hb26, Nat.mod_eq_of_lt hb26, Nat.zero_add]
  by_cases h : a = b
  · rw [if_pos h, if_pos (by rw [h])]
  · rw [if_neg h, if_neg (fun hh => h (hab.mpr (by omega)))]

section EngineClaims
variable {K : Type} [Field K]

theorem subsequenceKernel_identity (aa : Nat → K) (lam : K) (x y : DataElement) (k : Nat)
    (hx : x.inAlphabet) (hy : y.inAlphabet) (hid : IdentityTable aa) :
    subsequenceKernel aa lam x.attributes y.attributes (k + 1)
      = exactSubsequenceKernel lam x.attributes y.attributes (k + 1) := by
  unfold subsequenceKernel exactSubsequenceKernel
  apply Finset.sum_congr rfl
  intro p _
  apply Finset.sum_congr rfl
  intro q _
  have h1 := hx _ (List.get_mem x.attributes (p (Fin.last k)).val (p (Fin.last k)).isLt)
  have h2 := hy _ (List.get_mem y.attributes (q (Fin.last k)).val (q (Fin.last k)).isLt)
  rw [hid _ _ h1 h2]
  by_cases hc : ∀ m : Fin (k + 1), x.attributes.get (p m) = y.attributes.get (q m)
  · rw [if_pos hc, if_pos (fun m _ => hc m), if_pos (hc _), mul_one]
  · rw [if_neg hc]
    by_cases hc' : ∀ m : Fin (k + 1), m ≠ Fin.last k →
        x.attributes.get (p m) = y.attributes.get (q m)
    · rw [if_pos hc', if_neg (fun hl => hc ((forall_fin_last _).mpr ⟨hc', hl⟩)), mul_zero]
    · rw [if_neg hc']

/-- The engine of order `kn ≤ min(|x|, |y|)` returns the gap-weighted sum. -/
theorem kernel_eq_subsequenceKernel (aa : Nat → K) (lam : K) (x y : DataElement) (kn : Nat)
    (h1 : 1 ≤ kn) (hx : kn ≤ x.length) (hy : kn ≤ y.length)
    (hax : x.inAlphabet) (hay : y.inAlphabet) :
    kernel aa (kn : Int) lam x y
      = some (subsequenceKernel aa lam x.attributes y.attributes kn) := by
  obtain ⟨c, rfl⟩ : ∃ c, kn = c + 1 := ⟨kn - 1, by omega⟩
  rw [kernel_eq_finalValue aa lam x y c hax hay (by omega) (by omega), finalValue_eq_gapSum,
    gapSum_eq_subsequenceKernel]

/-- The engine of order `1` returns `lam ^ 2` times the sum of all pairwise scores. -/
theorem kernel_one_eq (aa : Nat → K) (lam : K) (x y : DataElement)
    (hax : x.inAlphabet) (hay : y.inAlphabet) :
    kernel aa 1 lam x y
      = some (lam ^ 2 * ∑ i : Fin x.attributes.length, ∑ j : Fin y.attributes.length,
          sub aa (x.attributes.get i) (y.attributes.get j)) := by
  have h := kernel_eq_finalValue aa lam x y 0 hax hay (Nat.zero_le _) (Nat.zero_le _)
  have e : (((0 + 1 : Nat)) : Int) = 1 := rfl
  rw [e] at h
  rw [h]
  congr 1
  unfold finalValue
  rw [Finset.mul_sum, Finset.sum_range]
  apply Finset.sum_congr rfl
  intro i _
  rw [Finset.mul_sum, Finset.sum_range]
  apply Finset.sum_congr rfl
  intro j _
  rw [Kprime_zero, mul_one, List.getD_eq_getElem _ _ i.isLt, List.getD_eq_getElem _ _ j.isLt,
    pow_two]
  rfl

/-- The engine returns on every pair of a store of sequences over the alphabet that are
at least `kn - 1` long. -/
theorem pairsReturn_of (aa : Nat → K) (sk : StringKernel K) (ds : DataSet) (c : Nat)
    (hkn : sk._kn = ((c + 1 : Nat) : Int))
    (h : ∀ a ∈ ds.elements, a.inAlphabet ∧ c ≤ a.length) : PairsReturn aa sk ds := by
  intro i j hij hj
  have hi : i < ds.size := by omega
  have e1 : ds.elements[i]? = some (ds.elements.get ⟨i, hi⟩) := List.getElem?_eq_getElem hi
  have e2 : ds.elements[j]? = some (ds.elements.get ⟨j, hj⟩) := List.getElem?_eq_getElem hj
  have h1 := h _ (List.getElem?_mem e1)
  have h2 := h _ (List.getElem?_mem e2)
  unfold pairCall
  rw [e1, e2, Option.some_bind, Option.some_bind, hkn,
    kernel_eq_finalValue aa sk._lambda _ _ c h1.1 h2.1 h1.2 h2.2]
  rfl

end EngineClaims

/-! ## Main theorems: the engine -/


section EngineClaims2
variable {K : Type} [Field K]

/-- C1: `kernel` computes the gap-weighted subsequence kernel of order `kn` with a soft
final match.  For every `kn ≥ 1`, every `lam` and all sequences `x`, `y` over the alphabet
with `kn ≤ min(|x|, |y|)`, `kernel(x, y)` returns the sum, over all pairs of strictly
increasing index tuples `p` into `x` and `q` into `y` with `x[p_m] = y[q_m]` for every
`m < kn`, of `lam ^ ((p_kn - p_1 + 1) + (q_kn - q_1 + 1)) * sub(x[p_kn], y[q_kn])`; with the
identity table this is the classical gap-weighted sum over the common subsequences of
length `kn`. -/
theorem kernel_computes_subsequenceKernel (aa : Nat → K) (lam : K) (x y : DataElement)
    (kn : Nat) (h1 : 1 ≤ kn) (hx : kn ≤ x.length) (hy : kn ≤ y.length)
    (hax : x.inAlphabet) (hay : y.inAlphabet) :
    kernel aa (kn : Int) lam x y
        = some (subsequenceKernel aa lam x.attributes y.attributes kn) ∧
      (IdentityTable aa →
        kernel aa (kn : Int) lam x y
          = some (exactSubsequenceKernel lam x.attributes y.attributes kn)) := by
  refine ⟨kernel_eq_subsequenceKernel aa lam x y kn h1 hx hy hax hay, fun hid => ?_⟩
  rw [kernel_eq_subsequenceKernel aa lam x y kn h1 hx hy hax hay]
  obtain ⟨c, rfl⟩ : ∃ c, kn = c + 1 := ⟨kn - 1, by omega⟩
  rw [subsequenceKernel_identity aa lam x y c hax hay hid]

/-- C2: the engine is symmetric in its two arguments whenever the substitution table is
symmetric.  For every `kn ≥ 1` (an `int`), every `lam` and all sequences `x`, `y` over the
alphabet, `kernel(x, y)` and `kernel(y, x)` are the same: the same score, or both without a
result. -/
theorem kernel_symmetric (aa : Nat → K) (lam : K) (x y : DataElement) (kn : Nat)
    (h1 : 1 ≤ kn) (hk : (kn : Int) ≤ INT_MAX) (hax : x.inAlphabet) (hay : y.inAlphabet)
    (hsym : SymmetricTable aa) :
    kernel aa (kn : Int) lam x y = kernel aa (kn : Int) lam y x := by
  obtain ⟨c, rfl⟩ : ∃ c, kn = c + 1 := ⟨kn - 1, by omega⟩
  have hc : c < SIZE_MAX := by
    unfold INT_MAX at hk
    rw [SIZE_MAX_eq]
    omega
  by_cases hshort : x.length < c ∨ y.length < c
  · rw [kernel_short aa lam x y c hc hshort, kernel_short aa lam y x c hc (Or.symm hshort),
      Nat.min_comm y.length x.length, Nat.max_comm y.length x.length]
    apply if_congr _ rfl rfl
    constructor
    · rintro (h | h | h)
      · exact Or.inr (Or.inl h)
      · exact Or.inl h
      · exact Or.inr (Or.inr h)
    · rintro (h | h | h)
      · exact Or.inr (Or.inl h)
      · exact Or.inl h
      · exact Or.inr (Or.inr h)
  · rw [kernel_eq_finalValue aa lam x y c hax hay (by omega) (by omega),
      kernel_eq_finalValue aa lam y x c hay hax (by omega) (by omega),
      finalValue_comm aa lam x y c hax hay hsym]

/-- C8: order-1 closed form.  For `kn = 1`, every `lam` and all sequences `x`, `y` over the
alphabet, `kernel(x, y) = lam ^ 2 * (sum over all positions i of x and j of y of
sub(x[i], y[j]))`; with an identity substitution table this is `lam ^ 2` times the number
of position pairs `(i, j)` with `x[i] = y[j]`. -/
theorem kernel_order_one (aa : Nat → K) (lam : K) (x y : DataElement)
    (hax : x.inAlphabet) (hay : y.inAlphabet) :
    kernel aa 1 lam x y
        = some (lam ^ 2 * ∑ i : Fin x.attributes.length, ∑ j : Fin y.attributes.length,
            sub aa (x.attributes.get i) (y.attributes.get j)) ∧
      (IdentityTable aa →
        kernel aa 1 lam x y
          = some (lam ^ 2 * ((Finset.univ.filter
              (fun ij : Fin x.attributes.length × Fin y.attributes.length =>
                x.attributes.get ij.1 = y.attributes.get ij.2)).card : K))) := by
  refine ⟨kernel_one_eq aa lam x y hax hay, fun hid => ?_⟩
  rw [kernel_one_eq aa lam x y hax hay]
  congr 2
  rw [Finset.card_filter, Nat.cast_sum, Fintype.sum_prod_type]
  apply Finset.sum_congr rfl
  intro i _
  apply Finset.sum_congr rfl
  intro j _
  rw [hid _ _ (hax _ (List.get_mem x.attributes i.val i.isLt))
    (hay _ (List.get_mem y.attributes j.val j.isLt))]
  by_cases h : x.attributes.get i = y.attributes.get j
  · simp [h]
  · simp [h]

end EngineClaims2

/-- C9: end-to-end example.  With the identity substitution table and `kn = 1`,
`kernel("AA", "AA") = 4` when `gap_decay = 1` and `kernel("AA", "AA") = 1` when
`gap_decay = 1/2`. -/
theorem kernel_AA_AA :
    kernel (identityTable : Nat → ℚ) 1 1 seqAA seqAA = some 4 ∧
    kernel (identityTable : Nat → ℚ) 1 (1 / 2) seqAA seqAA = some 1 := by
  have hs : sub (identityTable : Nat → ℚ) 'A' 'A' = 1 := by
    rw [sub_identityTable 'A' 'A' (by decide) (by decide), if_pos rfl]
  have hsum : ∑ i : Fin seqAA.attributes.length, ∑ j : Fin seqAA.attributes.length,
      sub (identityTable : Nat → ℚ) (seqAA.attributes.get i) (seqAA.attributes.get j) = 4 := by
    show ∑ i : Fin 2, ∑ j : Fin 2,
      sub (identityTable : Nat → ℚ) (['A', 'A'].get i) (['A', 'A'].get j) = 4
    simp [Fin.sum_univ_succ, hs]
    norm_num
  constructor
  · rw [kernel_one_eq identityTable 1 seqAA seqAA (by decide) (by decide), hsum]
    norm_num
  · rw [kernel_one_eq identityTable (1 / 2) seqAA seqAA (by decide) (by decide), hsum]
    norm_num

/-- C10 (the engine at a failing input): for `x = "A"`, `y = "ABC"` and `kn = 4` the pass of
order 3 executes `Kd[1][2][2] = 0` although `Kd[1]` has only the rows `0` and `1`; the
engine leaves its tables and returns nothing, whatever the table and `lambda`. -/
theorem kernel_short_leaves_tables {K : Type} [Field K] (aa : Nat → K) (lam : K) :
    kernel aa 4 lam seqA seqABC = none := by
  have h := kernel_short aa lam seqA seqABC 3 (by decide) (Or.inl (by decide))
  have e : (((3 + 1 : Nat)) : Int) = 4 := rfl
  rw [e] at h
  rw [h]
  exact if_pos (by decide)

/-! ## Main theorems: the assembled matrix -/


section Claims
variable {K : Type} [Field K]

/-- The matrix and the norms in the object that `compute_kernel` returns. -/
theorem compute_kernel_result (aa : Nat → K) (sqrt : K → K) (sk sk' : StringKernel K)
    (ds : DataSet) (hds : sk._string_data = some ds)
    (h : compute_kernel aa sqrt sk = Except.ok sk') :
    PairsReturn aa sk ds ∧ ∃ kb, sk'._kernel = some kb ∧ kb.size = ds.size * ds.size ∧
      (∀ i j, i < ds.size → j < ds.size →
        kb.get (i * ds.size + j) = some (matEntry aa sqrt sk ds i j)) ∧
      (sk._normalize ≠ 0 → ∃ nb, sk'.norms = some nb ∧ nb.size = ds.size ∧
        ∀ i, i < ds.size → nb.get i = some (pairScore aa sk ds i i)) := by
  have hret := compute_kernel_ok_pairs aa sqrt sk sk' ds hds h
  obtain ⟨sk2, kb, e, h1, h2, h3, h4⟩ := compute_kernel_spec aa sqrt sk ds hds hret
  rw [e] at h
  have hsk : sk2 = sk' := Except.ok.inj h
  subst hsk
  exact ⟨hret, kb, h1, h2, h3, h4⟩

/-- C3: the matrix produced by `compute_kernel` is symmetric.  For every store, every
parameter setting (normalize on or off) and every substitution table (symmetric or not):
`compute_kernel` returns whenever the engine returns on the pairs `(s_i, s_j)`, `i ≤ j`, and
in the matrix it returns the cells `(i, j)` and `(j, i)` hold the same value for all
`i, j < N`. -/
theorem compute_kernel_symmetric (aa : Nat → K) (sqrt : K → K) (sk : StringKernel K)
    (ds : DataSet) (hds : sk._string_data = some ds) :
    (PairsReturn aa sk ds → ∃ sk', compute_kernel aa sqrt sk = Except.ok sk') ∧
    ∀ sk', compute_kernel aa sqrt sk = Except.ok sk' →
      ∃ kb, sk'._kernel = some kb ∧
        ∀ i j, i < ds.size → j < ds.size →
          ∃ v, kb.get (i * ds.size + j) = some v ∧ kb.get (j * ds.size + i) = some v := by
  constructor
  · intro hret
    obtain ⟨sk', _, e, _⟩ := compute_kernel_spec aa sqrt sk ds hds hret
    exact ⟨sk', e⟩
  · intro sk' h
    obtain ⟨_, kb, hk, _, hcell, _⟩ := compute_kernel_result aa sqrt sk sk' ds hds h
    refine ⟨kb, hk, fun i j hi hj => ⟨matEntry aa sqrt sk ds i j, hcell i j hi hj, ?_⟩⟩
    rw [hcell j i hj hi, matEntry_symm]

/-- C4: with normalize set, every diagonal entry of the matrix produced by
`compute_kernel` is exactly `1`, whatever the self-similarity of the sequence:
`compute_kernel` returns whenever the engine returns on the pairs `(s_i, s_j)`, `i ≤ j`, and
in the matrix it returns `K[i][i] = 1` for every `i < N`. -/
theorem compute_kernel_normalized_diagonal (aa : Nat → K) (sqrt : K → K) (sk : StringKernel K)
    (ds : DataSet) (hds : sk._string_data = some ds) (hz : sk._normalize ≠ 0) :
    (PairsReturn aa sk ds → ∃ sk', compute_kernel aa sqrt sk = Except.ok sk') ∧
    ∀ sk', compute_kernel aa sqrt sk = Except.ok sk' →
      ∃ kb, sk'._kernel = some kb ∧
        ∀ i, i < ds.size → kb.get (i * ds.size + i) = some 1 := by
  constructor
  · intro hret
    obtain ⟨sk', _, e, _⟩ := compute_kernel_spec aa sqrt sk ds hds hret
    exact ⟨sk', e⟩
  · intro sk' h
    obtain ⟨_, kb, hk, _, hcell, _⟩ := compute_kernel_result aa sqrt sk sk' ds hds h
    refine ⟨kb, hk, fun i hi => ?_⟩
    rw [hcell i i hi hi]
    unfold matEntry
    rw [if_pos hz, if_pos rfl]

/-- C5: with normalize set, every off-diagonal entry is the cosine-normalised engine score:
in the matrix that `compute_kernel` returns, for `i < j < N` the cells `(i, j)` and `(j, i)`
both hold `kernel(s_i, s_j) / sqrt(norms[i] * norms[j])`, where `norms[i] = kernel(s_i, s_i)`
and `norms[j] = kernel(s_j, s_j)` are the entries that `compute_norms` stored; and
`compute_kernel` returns whenever the engine returns on the pairs `(s_i, s_j)`, `i ≤ j`. -/
theorem compute_kernel_normalized_entry (aa : Nat → K) (sqrt : K → K) (sk : StringKernel K)
    (ds : DataSet) (hds : sk._string_data = some ds) (hz : sk._normalize ≠ 0) :
    (PairsReturn aa sk ds → ∃ sk', compute_kernel aa sqrt sk = Except.ok sk') ∧
    ∀ sk', compute_kernel aa sqrt sk = Except.ok sk' →
      ∃ kb nb, sk'._kernel = some kb ∧ sk'.norms = some nb ∧
        ∀ i j, i < j → j < ds.size →
          ∃ si sj v ni nj, ds.elements[i]? = some si ∧ ds.elements[j]? = some sj ∧
            kernel aa sk._kn sk._lambda si sj = some v ∧
            kernel aa sk._kn sk._lambda si si = some ni ∧
            kernel aa sk._kn sk._lambda sj sj = some nj ∧
            nb.get i = some ni ∧ nb.get j = some nj ∧
            kb.get (i * ds.size + j) = some (v / sqrt (ni * nj)) ∧
            kb.get (j * ds.size + i) = some (v / sqrt (ni * nj)) := by
  constructor
  · intro hret
    obtain ⟨sk', _, e, _⟩ := compute_kernel_spec aa sqrt sk ds hds hret
    exact ⟨sk', e⟩
  · intro sk' h
    obtain ⟨hret, kb, hk, _, hcell, hnorms⟩ := compute_kernel_result aa sqrt sk sk' ds hds h
    obtain ⟨nb, hnb, _, hget⟩ := hnorms hz
    refine ⟨kb, nb, hk, hnb, fun i j hij hj => ?_⟩
    have hi : i < ds.size := by omega
    obtain ⟨si, sj, e1, e2, e3⟩ := pairScore_spec aa sk ds hret (Nat.le_of_lt hij) hj
    obtain ⟨si', si'', e4, e5, e6⟩ := pairScore_spec aa sk ds hret (Nat.le_refl i) hi
    obtain ⟨sj', sj'', e7, e8, e9⟩ := pairScore_spec aa sk ds hret (Nat.le_refl j) hj
    have a1 : si' = si := Option.some.inj (e4.symm.trans e1)
    have a2 : si'' = si := Option.some.inj (e5.symm.trans e1)
    have a3 : sj' = sj := Option.some.inj (e7.symm.trans e2)
    have a4 : sj'' = sj := Option.some.inj (e8.symm.trans e2)
    subst a1 a2 a3 a4
    have hm : matEntry aa sqrt sk ds i j
        = pairScore aa sk ds i j / sqrt (pairScore aa sk ds i i * pairScore aa sk ds j j) := by
      rw [matEntry_le aa sqrt sk ds (Nat.le_of_lt hij) (fun _ => Nat.ne_of_lt hij), if_pos hz]
    refine ⟨_, _, _, _, _, e1, e2, e3, e6, e9, hget i hi, hget j hj, ?_, ?_⟩
    · rw [hcell i j hi hj, hm]
    · rw [hcell j i hj hi, matEntry_symm, hm]

/-- C6: with normalize off, `compute_kernel` fills the matrix with raw engine scores, the
diagonal included: in the matrix it returns, for `i ≤ j < N` the cells `(i, j)` and `(j, i)`
both hold the value of `kernel(s_i, s_j)`, the engine being called on the pair in this
order, with no rescaling; and `compute_kernel` returns whenever the engine returns on the
pairs `(s_i, s_j)`, `i ≤ j`. -/
theorem compute_kernel_raw_entry (aa : Nat → K) (sqrt : K → K) (sk : StringKernel K)
    (ds : DataSet) (hds : sk._string_data = some ds) (hz : sk._normalize = 0) :
    (PairsReturn aa sk ds → ∃ sk', compute_kernel aa sqrt sk = Except.ok sk') ∧
    ∀ sk', compute_kernel aa sqrt sk = Except.ok sk' →
      ∃ kb, sk'._kernel = some kb ∧
        ∀ i j, i ≤ j → j < ds.size →
          ∃ si sj v, ds.elements[i]? = some si ∧ ds.elements[j]? = some sj ∧
            kernel aa sk._kn sk._lambda si sj = some v ∧
            kb.get (i * ds.size + j) = some v ∧ kb.get (j * ds.size + i) = some v := by
  constructor
  · intro hret
    obtain ⟨sk', _, e, _⟩ := compute_kernel_spec aa sqrt sk ds hds hret
    exact ⟨sk', e⟩
  · intro sk' h
    obtain ⟨hret, kb, hk, _, hcell, _⟩ := compute_kernel_result aa sqrt sk sk' ds hds h
    refine ⟨kb, hk, fun i j hij hj => ?_⟩
    have hi : i < ds.size := by omega
    obtain ⟨si, sj, e1, e2, e3⟩ := pairScore_spec aa sk ds hret hij hj
    have hm : matEntry aa sqrt sk ds i j = pairScore aa sk ds i j := by
      rw [matEntry_le aa sqrt sk ds hij (fun h => absurd hz h), if_neg (not_not.mpr hz)]
    refine ⟨si, sj, _, e1, e2, e3, ?_, ?_⟩
    · rw [hcell i j hi hj, hm]
    · rw [hcell j i hj hi, matEntry_symm, hm]

/-- C7: self-consistency of the norms.  For every store and parameters, the value that
`compute_norms` stores in `norms[i]` is `kernel(s_i, s_i)`, and it equals the diagonal
entry `K[i][i]` that `compute_kernel` produces for the same store and parameters with
normalize off; both functions return whenever the engine returns on the pairs
`(s_i, s_j)`, `i ≤ j`. -/
theorem norms_eq_raw_diagonal (aa : Nat → K) (sqrt : K → K) (sk : StringKernel K)
    (ds : DataSet) (hds : sk._string_data = some ds) :
    (PairsReturn aa sk ds → ∃ sk1 sk2, compute_norms aa sk = Except.ok sk1 ∧
      compute_kernel aa sqrt { sk with _normalize := 0 } = Except.ok sk2) ∧
    ∀ sk1 sk2, compute_norms aa sk = Except.ok sk1 →
      compute_kernel aa sqrt { sk with _normalize := 0 } = Except.ok sk2 →
      ∃ nb kb, sk1.norms = some nb ∧ sk2._kernel = some kb ∧
        ∀ i, i < ds.size →
          ∃ si v, ds.elements[i]? = some si ∧ kernel aa sk._kn sk._lambda si si = some v ∧
            nb.get i = some v ∧ kb.get (i * ds.size + i) = some v := by
  constructor
  · intro hret
    obtain ⟨nb, e, _⟩ := compute_norms_spec aa sk ds hds hret
    obtain ⟨sk2, _, e2, _⟩ := compute_kernel_spec aa sqrt { sk with _normalize := 0 } ds hds hret
    exact ⟨_, sk2, e, e2⟩
  · intro sk1 sk2 h1 h2
    obtain ⟨hret, kb, hk, _, hcell, _⟩ :=
      compute_kernel_result aa sqrt { sk with _normalize := 0 } sk2 ds hds h2
    obtain ⟨nb, e, hs, hc⟩ := compute_norms_spec aa sk ds hds hret
    rw [e] at h1
    have hsk : { sk with norms := some nb } = sk1 := Except.ok.inj h1
    subst hsk
    refine ⟨nb, kb, rfl, hk, fun i hi => ?_⟩
    obtain ⟨si, si', e3, e4, e5⟩ := pairScore_spec aa sk ds hret (Nat.le_refl i) hi
    have a1 : si' = si := Option.some.inj (e4.symm.trans e3)
    subst a1
    refine ⟨si', _, e3, e5, ?_, ?_⟩
    · rw [bufGet_eq nb (by omega)]
      exact hc i hi
    · rw [hcell i i hi hi]
      unfold matEntry
      simp only [ne_eq, not_true_eq_false, if_false, Nat.min_self, Nat.max_self]
      rfl

end Claims

/-! ## The main theorems at concrete inputs -/


theorem symmetricTable_identity {K : Type} [Field K] :
    SymmetricTable (identityTable : Nat → K) := by
  intro a b ha hb
  rw [sub_identityTable a b ha hb, sub_identityTable b a hb ha]
  by_cases h : a = b
  · rw [if_pos h, if_pos h.symm]
  · rw [if_neg h, if_neg (fun hh => h hh.symm)]

theorem exampleKernel_returns (normalize : Int) :
    PairsReturn (identityTable : Nat → ℚ) (exampleKernel normalize) exampleStore :=
  pairsReturn_of identityTable (exampleKernel normalize) exampleStore 1 rfl (by decide)

/-- The theorem of C1 at `x = "AB"`, `y = "ABC"`, `kn = 2`, `lam = 1/2`, identity table. -/
theorem kernel_computes_subsequenceKernel_witness :
    (1 ≤ 2 ∧ 2 ≤ seqAB.length ∧ 2 ≤ seqABC.length ∧ seqAB.inAlphabet ∧ seqABC.inAlphabet) ∧
    (kernel (identityTable : Nat → ℚ) ((2 : Nat) : Int) (1 / 2) seqAB seqABC
        = some (subsequenceKernel identityTable (1 / 2) seqAB.attributes seqABC.attributes 2) ∧
      (IdentityTable (identityTable : Nat → ℚ) →
        kernel (identityTable : Nat → ℚ) ((2 : Nat) : Int) (1 / 2) seqAB seqABC
          = some (exactSubsequenceKernel (1 / 2) seqAB.attributes seqABC.attributes 2))) :=
  ⟨⟨by decide, by decide, by decide, by decide, by decide⟩,
    kernel_computes_subsequenceKernel identityTable (1 / 2) seqAB seqABC 2
      (by decide) (by decide) (by decide) (by decide) (by decide)⟩

/-- The theorem of C2 at `x = "AB"`, `y = "ABC"`, `kn = 2`, `lam = 1/2`, identity table. -/
theorem kernel_symmetric_witness :
    (1 ≤ 2 ∧ ((2 : Nat) : Int) ≤ INT_MAX ∧ seqAB.inAlphabet ∧ seqABC.inAlphabet ∧
      SymmetricTable (identityTable : Nat → ℚ)) ∧
    kernel (identityTable : Nat → ℚ) ((2 : Nat) : Int) (1 / 2) seqAB seqABC
      = kernel (identityTable : Nat → ℚ) ((2 : Nat) : Int) (1 / 2) seqABC seqAB :=
  ⟨⟨by decide, by decide, by decide, by decide, symmetricTable_identity⟩,
    kernel_symmetric identityTable (1 / 2) seqAB seqABC 2
      (by decide) (by decide) (by decide) (by decide) symmetricTable_identity⟩

/-- The theorem of C8 at `x = "AA"`, `y = "AB"`, `lam = 1/2`, identity table. -/
theorem kernel_order_one_witness :
    (seqAA.inAlphabet ∧ seqAB.inAlphabet) ∧
    (kernel (identityTable : Nat → ℚ) 1 (1 / 2) seqAA seqAB
        = some ((1 / 2) ^ 2 * ∑ i : Fin seqAA.attributes.length,
            ∑ j : Fin seqAB.attributes.length,
              sub identityTable (seqAA.attributes.get i) (seqAB.attributes.get j)) ∧
      (IdentityTable (identityTable : Nat → ℚ) →
        kernel (identityTable : Nat → ℚ) 1 (1 / 2) seqAA seqAB
          = some ((1 / 2) ^ 2 * ((Finset.univ.filter
              (fun ij : Fin seqAA.attributes.length × Fin seqAB.attributes.length =>
                seqAA.attributes.get ij.1 = seqAB.attributes.get ij.2)).card : ℚ)))) :=
  ⟨⟨by decide, by decide⟩,
    kernel_order_one identityTable (1 / 2) seqAA seqAB (by decide) (by decide)⟩

/-- The theorem of C3 at the example store, normalize on: the matrix exists and is
symmetric. -/
theorem compute_kernel_symmetric_witness :
    ∃ sk' kb, compute_kernel identityTable id (exampleKernel 1) = Except.ok sk' ∧
      sk'._kernel = some kb ∧
      ∀ i j, i < exampleStore.size → j < exampleStore.size →
        ∃ v, kb.get (i * exampleStore.size + j) = some v ∧
          kb.get (j * exampleStore.size + i) = some v := by
  obtain ⟨hret, hprop⟩ :=
    compute_kernel_symmetric identityTable id (exampleKernel 1) exampleStore rfl
  obtain ⟨sk', e⟩ := hret (exampleKernel_returns 1)
  obtain ⟨kb, h1, h2⟩ := hprop sk' e
  exact ⟨sk', kb, e, h1, h2⟩

/-- The theorem of C4 at the example store: the matrix exists and its diagonal is `1`. -/
theorem compute_kernel_normalized_diagonal_witness :
    ∃ sk' kb, compute_kernel identityTable id (exampleKernel 1) = Except.ok sk' ∧
      sk'._kernel = some kb ∧
      ∀ i, i < exampleStore.size → kb.get (i * exampleStore.size + i) = some 1 := by
  obtain ⟨hret, hprop⟩ :=
    compute_kernel_normalized_diagonal identityTable id (exampleKernel 1) exampleStore rfl
      (by decide)
  obtain ⟨sk', e⟩ := hret (exampleKernel_returns 1)
  obtain ⟨kb, h1, h2⟩ := hprop sk' e
  exact ⟨sk', kb, e, h1, h2⟩

/-- The theorem of C5 at the example store: the matrix and the norms exist and the
off-diagonal entries are the normalised scores. -/
theorem compute_kernel_normalized_entry_witness :
    ∃ sk' kb nb, compute_kernel identityTable id (exampleKernel 1) = Except.ok sk' ∧
      sk'._kernel = some kb ∧ sk'.norms = some nb ∧
      ∀ i j, i < j → j < exampleStore.size →
        ∃ si sj v ni nj, exampleStore.elements[i]? = some si ∧
          exampleStore.elements[j]? = some sj ∧
          kernel identityTable (exampleKernel 1)._kn (exampleKernel 1)._lambda si sj = some v ∧
          kernel identityTable (exampleKernel 1)._kn (exampleKernel 1)._lambda si si = some ni ∧
          kernel identityTable (exampleKernel 1)._kn (exampleKernel 1)._lambda sj sj = some nj ∧
          nb.get i = some ni ∧ nb.get j = some nj ∧
          kb.get (i * exampleStore.size + j) = some (v / id (ni * nj)) ∧
          kb.get (j * exampleStore.size + i) = some (v / id (ni * nj)) := by
  obtain ⟨hret, hprop⟩ :=
    compute_kernel_normalized_entry identityTable id (exampleKernel 1) exampleStore rfl
      (by decide)
  obtain ⟨sk', e⟩ := hret (exampleKernel_returns 1)
  obtain ⟨kb, nb, h1, h2, h3⟩ := hprop sk' e
  exact ⟨sk', kb, nb, e, h1, h2, h3⟩

/-- The theorem of C6 at the example store, normalize off: the matrix exists and holds the
raw scores. -/
theorem compute_kernel_raw_entry_witness :
    ∃ sk' kb, compute_kernel identityTable id (exampleKernel 0) = Except.ok sk' ∧
      sk'._kernel = some kb ∧
      ∀ i j, i ≤ j → j < exampleStore.size →
        ∃ si sj v, exampleStore.elements[i]? = some si ∧
          exampleStore.elements[j]? = some sj ∧
          kernel identityTable (exampleKernel 0)._kn (exampleKernel 0)._lambda si sj = some v ∧
          kb.get (i * exampleStore.size + j) = some v ∧
          kb.get (j * exampleStore.size + i) = some v := by
  obtain ⟨hret, hprop⟩ :=
    compute_kernel_raw_entry identityTable id (exampleKernel 0) exampleStore rfl rfl
  obtain ⟨sk', e⟩ := hret (exampleKernel_returns 0)
  obtain ⟨kb, h1, h2⟩ := hprop sk' e
  exact ⟨sk', kb, e, h1, h2⟩

/-- The theorem of C7 at the example store: the norms and the raw matrix exist and agree on
the diagonal. -/
theorem norms_eq_raw_diagonal_witness :
    ∃ sk1 sk2 nb kb, compute_norms identityTable (exampleKernel 1) = Except.ok sk1 ∧
      compute_kernel identityTable id { exampleKernel 1 with _normalize := 0 }
        = Except.ok sk2 ∧
      sk1.norms = some nb ∧ sk2._kernel = some kb ∧
      ∀ i, i < exampleStore.size →
        ∃ si v, exampleStore.elements[i]? = some si ∧
          kernel identityTable (exampleKernel 1)._kn (exampleKernel 1)._lambda si si
            = some v ∧
          nb.get i = some v ∧ kb.get (i * exampleStore.size + i) = some v := by
  obtain ⟨hret, hprop⟩ :=
    norms_eq_raw_diagonal identityTable id (exampleKernel 1) exampleStore rfl
  obtain ⟨sk1, sk2, e1, e2⟩ := hret (exampleKernel_returns 1)
  obtain ⟨nb, kb, h1, h2, h3⟩ := hprop sk1 sk2 e1 e2
  exact ⟨sk1, sk2, nb, kb, e1, e2, h1, h2, h3⟩

/-! ## The engine on every pair with a short sequence -/


section Boundary
variable {K : Type} [Field K]

/-- The engine of order `c + 1 = min(|x|, |y|) + 1`: every pass stays inside the tables and
the final loops are empty. -/
theorem kernel_boundary (aa : Nat → K) (lam : K) (x y : DataElement) (c : Nat)
    (hcn : c ≤ x.length) (hcm : c ≤ y.length) (hshort : x.length < c + 1 ∨ y.length < c + 1) :
    kernel aa ((c + 1 : Nat) : Int) lam x y = some 0 := by
  have hxl := x.length_lt
  have hxl' : x.length = x.attributes.length := rfl
  have hmax := SIZE_MAX_eq
  obtain ⟨T0, e0, h0⟩ := initKd_holds lam x y
  obtain ⟨T1, e1, _⟩ := orderLoop_spec lam x y c T0 (by omega) (by omega) (by omega)
    (by omega) (by omega) h0
  unfold kernel
  have ec : toSizeT (((c + 1 : Nat) : Int) - 1) = c := by
    have : ((c + 1 : Nat) : Int) - 1 = (c : Int) := by push_cast; ring
    rw [this, toSizeT_natCast (by omega)]
  rw [e0, Option.some_bind, ec, e1, Option.some_bind]
  exact finalSum_short aa lam x y c T1 (by omega) hshort

/-- X1: the outcome of the engine on every pair with a sequence shorter than `kn`: it returns
`0`, except that it leaves its tables (and returns nothing) when `kn ≥ 2` and a sequence is
empty, or when `kn ≥ min(|x|, |y|) + 3` and the longer sequence has at least
`min(|x|, |y|) + 2` symbols. -/
theorem kernel_short_outcome (aa : Nat → K) (lam : K) (x y : DataElement) (kn : Nat)
    (h1 : 1 ≤ kn) (hk : (kn : Int) ≤ INT_MAX) (hshort : x.length < kn ∨ y.length < kn) :
    kernel aa (kn : Int) lam x y
      = if (2 ≤ kn ∧ (x.length = 0 ∨ y.length = 0)) ∨
            (min x.length y.length + 3 ≤ kn ∧
              min x.length y.length + 2 ≤ max x.length y.length)
        then none else some 0 := by
  obtain ⟨c, rfl⟩ : ∃ c, kn = c + 1 := ⟨kn - 1, by omega⟩
  have hc : c < SIZE_MAX := by
    unfold INT_MAX at hk
    rw [SIZE_MAX_eq]
    omega
  by_cases hs : x.length < c ∨ y.length < c
  · rw [kernel_short aa lam x y c hc hs]
    apply if_congr _ rfl rfl
    constructor
    · rintro (h | h | h)
      · exact Or.inl ⟨by omega, Or.inl h⟩
      · exact Or.inl ⟨by omega, Or.inr h⟩
      · exact Or.inr ⟨by omega, h.2⟩
    · rintro (⟨_, h | h⟩ | h)
      · exact Or.inl h
      · exact Or.inr (Or.inl h)
      · exact Or.inr (Or.inr ⟨by omega, h.2⟩)
  · rw [kernel_boundary aa lam x y c (by omega) (by omega) hshort, if_neg]
    omega

end Boundary

/-- The theorem of X1 at `x = "A"`, `y = "AB"`, `kn = 3`: the engine
returns `0`. -/
theorem kernel_short_outcome_witness :
    kernel (identityTable : Nat → ℚ) ((3 : Nat) : Int) (1 / 2) seqA seqAB = some 0 := by
  rw [kernel_short_outcome identityTable (1 / 2) seqA seqAB 3 (by decide) (by decide)
    (Or.inl (by decide))]
  exact if_neg (by decide)

/-! ## Main theorems: dependence on the gap decay and on the table -/


section Monotone
variable {K : Type} [LinearOrderedField K]

theorem tupleWeight_nonneg (lam : K) (h0 : 0 ≤ lam) (n m : Nat) (p q : List Nat) :
    0 ≤ tupleWeight lam n m p q := by
  unfold tupleWeight
  exact pow_nonneg h0 _

theorem Kprime_nonneg (lam : K) (h0 : 0 ≤ lam) (s t : List Char) (i j k : Nat) :
    0 ≤ Kprime lam s t i j k := by
  unfold Kprime
  apply List.sum_nonneg
  intro v hv
  rw [List.mem_map] at hv
  obtain ⟨p, _, rfl⟩ := hv
  apply List.sum_nonneg
  intro w hw
  rw [List.mem_map] at hw
  obtain ⟨q, _, rfl⟩ := hw
  split
  · exact tupleWeight_nonneg lam h0 _ _ _ _
  · exact le_refl 0

theorem Kprime_mono (l1 l2 : K) (h0 : 0 ≤ l1) (h12 : l1 ≤ l2) (s t : List Char)
    (i j k : Nat) : Kprime l1 s t i j k ≤ Kprime l2 s t i j k := by
  unfold Kprime
  apply List.sum_le_sum
  intro p _
  apply List.sum_le_sum
  intro q _
  split
  · unfold tupleWeight
    exact pow_le_pow_left₀ h0 h12 _
  · exact le_refl 0

theorem sub_nonneg_of (aa : Nat → K) (hnn : NonnegTable aa) {a b : Char}
    (ha : code 'A' ≤ code a ∧ code a ≤ code 'Z') (hb : code 'A' ≤ code b ∧ code b ≤ code 'Z') :
    0 ≤ sub aa a b := by
  have hA : code 'A' = 65 := by decide
  have hZ : code 'Z' = 90 := by decide
  rw [hA, hZ] at ha hb
  unfold sub aaIndex
  rw [hA]
  apply hnn
  omega

theorem getD_mem_alphabet (x : DataElement) (hx : x.inAlphabet) {i : Nat}
    (hi : i < x.attributes.length) :
    code 'A' ≤ code (x.attributes.getD i 'A') ∧ code (x.attributes.getD i 'A') ≤ code 'Z' := by
  apply hx
  rw [List.getD_eq_getElem _ _ hi]
  exact List.getElem_mem _

theorem finalValue_mono (aa : Nat → K) (l1 l2 : K) (x y : DataElement) (c : Nat)
    (hx : x.inAlphabet) (hy : y.inAlphabet) (hnn : NonnegTable aa)
    (h0 : 0 ≤ l1) (h12 : l1 ≤ l2) :
    finalValue aa l1 x.attributes y.attributes c
      ≤ finalValue aa l2 x.attributes y.attributes c := by
  unfold finalValue
  apply Finset.sum_le_sum
  intro i hi
  apply Finset.sum_le_sum
  intro j hj
  rw [Finset.mem_range] at hi hj
  have hs := sub_nonneg_of aa hnn (getD_mem_alphabet x hx hi) (getD_mem_alphabet y hy hj)
  have h2 : 0 ≤ l2 := le_trans h0 h12
  apply mul_le_mul
  · exact mul_le_mul_of_nonneg_right (mul_le_mul h12 h12 h0 h2) hs
  · exact Kprime_mono l1 l2 h0 h12 _ _ _ _ _
  · exact Kprime_nonneg l1 h0 _ _ _ _ _
  · exact mul_nonneg (mul_nonneg h2 h2) hs

/-- C11: scale monotonicity in the gap decay.  For every `kn ≥ 1` (an `int`), all sequences
`x`, `y` over the alphabet and every substitution table with only non-negative entries, if
`0 ≤ lam1 ≤ lam2` (in particular if `0 ≤ lam1 ≤ lam2 ≤ 1`) then the score computed with
`lam1` is at most the score computed with `lam2`; on the pairs on which the engine returns
nothing it does so for both decays. -/
theorem kernel_monotone_in_lambda (aa : Nat → K) (l1 l2 : K) (x y : DataElement) (kn : Nat)
    (h1 : 1 ≤ kn) (hk : (kn : Int) ≤ INT_MAX) (hax : x.inAlphabet) (hay : y.inAlphabet)
    (hnn : NonnegTable aa) (h0 : 0 ≤ l1) (h12 : l1 ≤ l2) :
    (kernel aa (kn : Int) l1 x y = none ∧ kernel aa (kn : Int) l2 x y = none) ∨
    ∃ v1 v2, kernel aa (kn : Int) l1 x y = some v1 ∧ kernel aa (kn : Int) l2 x y = some v2 ∧
      v1 ≤ v2 := by
  obtain ⟨c, rfl⟩ : ∃ c, kn = c + 1 := ⟨kn - 1, by omega⟩
  have hc : c < SIZE_MAX := by
    unfold INT_MAX at hk
    rw [SIZE_MAX_eq]
    omega
  by_cases hshort : x.length < c ∨ y.length < c
  · rw [kernel_short aa l1 x y c hc hshort, kernel_short aa l2 x y c hc hshort]
    split
    · exact Or.inl ⟨rfl, rfl⟩
    · exact Or.inr ⟨0, 0, rfl, rfl, le_refl 0⟩
  · rw [kernel_eq_finalValue aa l1 x y c hax hay (by omega) (by omega),
      kernel_eq_finalValue aa l2 x y c hax hay (by omega) (by omega)]
    exact Or.inr ⟨_, _, rfl, rfl, finalValue_mono aa l1 l2 x y c hax hay hnn h0 h12⟩

end Monotone
/-- Every access of the embedding that returns a value was inside its bounds: a cell of
`Kd` is read or written only with `t < 2`, `j < rows`, `k < cols`, a symbol is read only at
a position below the length, and `aa_model` only at a flat index in `[0, 676)`. -/
theorem access_in_bounds {K : Type} (aa : Nat → K) :
    (∀ (T : KdTable K) (t j k : Nat),
      ((∃ v, T.get t j k = some v) ∨ (∃ v T1, T.set t j k v = some T1)) →
        t < 2 ∧ j < T.rows ∧ k < T.cols) ∧
    (∀ (z : DataElement) (i : Nat) (c : Char), z.attr i = some c → i < z.length) ∧
    (∀ (idx : Int) (v : K), aaRead aa idx = some v → 0 ≤ idx ∧ idx < 676) := by
  refine ⟨fun T t j k h => ?_, fun z i c h => ?_, fun idx v h => ?_⟩
  · by_contra hn
    rcases h with ⟨v, h⟩ | ⟨v, T1, h⟩
    · unfold KdTable.get at h
      rw [if_neg hn] at h
      exact Option.noConfusion h
    · unfold KdTable.set at h
      rw [if_neg hn] at h
      exact Option.noConfusion h
  · unfold DataElement.attr at h
    exact (List.getElem?_eq_some_iff.mp h).1
  · by_contra hn
    unfold aaRead at h
    rw [if_neg hn] at h
    exact Option.noConfusion h

section Linear
variable {K : Type} [Field K]

theorem sub_combine (S1 S2 : Nat → K) (a b : K) (c d : Char) :
    sub (fun n => a * S1 n + b * S2 n) c d = a * sub S1 c d + b * sub S2 c d := rfl

theorem finalValue_linear (S1 S2 : Nat → K) (a b lam : K) (s t : List Char) (c : Nat) :
    finalValue (fun n => a * S1 n + b * S2 n) lam s t c
      = a * finalValue S1 lam s t c + b * finalValue S2 lam s t c := by
  unfold finalValue
  rw [Finset.mul_sum, Finset.mul_sum, ← Finset.sum_add_distrib]
  apply Finset.sum_congr rfl
  intro i _
  rw [Finset.mul_sum, Finset.mul_sum, ← Finset.sum_add_distrib]
  apply Finset.sum_congr rfl
  intro j _
  rw [sub_combine]
  ring

/-- C16: soft matching enters only at the final order.  The tables handed to the final
accumulation are computed without the substitution table, and for fixed `x`, `y` over the
alphabet, `kn ≥ 1` (an `int`) and `lam` the score is a linear function of the table: the
engine run with the table `a * S1 + b * S2` returns `a * kernel(with S1) + b * kernel(with
S2)` (and returns nothing exactly when the runs with `S1` and `S2` return nothing). -/
theorem kernel_linear_in_table (S1 S2 : Nat → K) (a b lam : K) (x y : DataElement) (kn : Nat)
    (h1 : 1 ≤ kn) (hk : (kn : Int) ≤ INT_MAX) (hax : x.inAlphabet) (hay : y.inAlphabet) :
    (∃ tables : Option (KdTable K), ∀ aa : Nat → K,
      kernel aa (kn : Int) lam x y = tables.bind (finalSum aa (kn : Int) lam x y)) ∧
    kernel (fun n => a * S1 n + b * S2 n) (kn : Int) lam x y
      = (kernel S1 (kn : Int) lam x y).bind fun v1 =>
          (kernel S2 (kn : Int) lam x y).map fun v2 => a * v1 + b * v2 := by
  constructor
  · refine ⟨(initKd x y (KdTable.alloc (sadd x.length 1) (sadd y.length 1))).bind
      (forLe 1 (toSizeT ((kn : Int) - 1)) (orderPass lam x y)), fun aa => ?_⟩
    unfold kernel
    rw [Option.bind_assoc]
  · obtain ⟨c, rfl⟩ : ∃ c, kn = c + 1 := ⟨kn - 1, by omega⟩
    have hc : c < SIZE_MAX := by
      unfold INT_MAX at hk
      rw [SIZE_MAX_eq]
      omega
    by_cases hshort : x.length < c ∨ y.length < c
    · rw [kernel_short _ lam x y c hc hshort, kernel_short S1 lam x y c hc hshort,
        kernel_short S2 lam x y c hc hshort]
      split
      · rfl
      · simp
    · rw [kernel_eq_finalValue _ lam x y c hax hay (by omega) (by omega),
        kernel_eq_finalValue S1 lam x y c hax hay (by omega) (by omega),
        kernel_eq_finalValue S2 lam x y c hax hay (by omega) (by omega),
        finalValue_linear]
      rfl

/-- C17: index safety of the engine under the stated precondition.  For every pair of
sequences over `A .. Z` and every `kn` with `1 ≤ kn ≤ min(|x|, |y|)` the engine returns a
score: no read or write of `Kd`, no access to `attributes` and no read of `aa_model` leaves
its bounds, since any such access makes the embedding return `none`.  The tables keep the
allocated extent `(|x| + 1) x (|y| + 1)` through the order loop, and an access that returns
is one with `t < 2`, `j ≤ |x|`, `k ≤ |y|`, a symbol position below the length and a flat
table index in `[0, 676)`. -/
theorem kernel_index_safe (aa : Nat → K) (lam : K) (x y : DataElement) (kn : Nat)
    (h1 : 1 ≤ kn) (hx : kn ≤ x.length) (hy : kn ≤ y.length)
    (hax : x.inAlphabet) (hay : y.inAlphabet) :
    (∃ v, kernel aa (kn : Int) lam x y = some v) ∧
    ∃ Kd0 Kd : KdTable K,
      initKd x y (KdTable.alloc (sadd x.length 1) (sadd y.length 1)) = some Kd0 ∧
      forLe 1 (toSizeT ((kn : Int) - 1)) (orderPass lam x y) Kd0 = some Kd ∧
      Kd.rows = x.length + 1 ∧ Kd.cols = y.length + 1 ∧
      (∃ v, finalSum aa (kn : Int) lam x y Kd = some v) ∧
      (∀ (T : KdTable K) (t j k : Nat), T.rows = x.length + 1 → T.cols = y.length + 1 →
        ((∃ v, T.get t j k = some v) ∨ (∃ v T1, T.set t j k v = some T1)) →
          t < 2 ∧ j ≤ x.length ∧ k ≤ y.length) ∧
      (∀ (z : DataElement) (i : Nat) (c : Char), z.attr i = some c → i < z.length) ∧
      (∀ (idx : Int) (v : K), aaRead aa idx = some v → 0 ≤ idx ∧ idx < 676) := by
  obtain ⟨c, rfl⟩ : ∃ c, kn = c + 1 := ⟨kn - 1, by omega⟩
  have hxl := x.length_lt
  have hxl' : x.length = x.attributes.length := rfl
  have hmax := SIZE_MAX_eq
  refine ⟨⟨_, kernel_eq_finalValue aa lam x y c hax hay (by omega) (by omega)⟩, ?_⟩
  obtain ⟨T0, e0, h0⟩ := initKd_holds lam x y
  obtain ⟨T1, e1, hT1⟩ := orderLoop_spec lam x y c T0 (by omega) (by omega) (by omega)
    (by omega) (by omega) h0
  have ec : toSizeT (((c + 1 : Nat) : Int) - 1) = c := by
    have : ((c + 1 : Nat) : Int) - 1 = (c : Int) := by push_cast; ring
    rw [this, toSizeT_natCast (by omega)]
  exact ⟨T0, T1, e0, by rw [ec]; exact e1, hT1.1, hT1.2.1,
    ⟨finalValue aa lam x.attributes y.attributes c,
      finalSum_spec aa lam x y c T1 hax hay (by omega) (by omega) hT1⟩,
    fun T t j k hr hc h => by
      have := (access_in_bounds aa).1 T t j k h
      omega,
    (access_in_bounds aa).2.1, (access_in_bounds aa).2.2⟩

end Linear

section TextbookProofs
variable {K : Type} [Field K]

theorem textKdprime_eq (lam : K) (s t : List Char) (i j : Nat) :
    ∀ k, textKdprime lam s t (Kprime lam s t i) j k = Kdprime lam s t i j k
  | 0 => by
    rw [Kdprime_eq_zero lam s t j (Nat.succ_pos i)]
    rfl
  | k + 1 => by
    rw [Kdprime_succ, ← textKdprime_eq lam s t i j k]
    rfl

theorem textKprimeStep_eq (lam : K) (s t : List Char) (i : Nat) :
    ∀ j k, textKprimeStep lam s t (i + 1) (Kprime lam s t i) j k = Kprime lam s t (i + 1) j k
  | 0, k => by
    rw [Kprime_eq_zero_left lam s t k (Nat.succ_pos i)]
    rfl
  | j + 1, k => by
    unfold textKprimeStep
    by_cases h : min (j + 1) k < i + 1
    · rw [if_pos h]
      by_cases hj : j + 1 < i + 1
      · rw [Kprime_eq_zero_left lam s t k hj]
      · rw [Kprime_eq_zero_right lam s t (j + 1) (by omega)]
    · rw [if_neg h, textKprimeStep_eq lam s t i j k, textKdprime_eq, Kprime_succ]

/-- The textbook recursion computes the sum over index tuples. -/
theorem textKprime_eq (lam : K) (s t : List Char) :
    ∀ i j k, textKprime lam s t i j k = Kprime lam s t i j k
  | 0, j, k => by
    rw [Kprime_zero]
    rfl
  | i + 1, j, k => by
    have ih : textKprime lam s t i = Kprime lam s t i := by
      funext j k
      exact textKprime_eq lam s t i j k
    show textKprimeStep lam s t (i + 1) (textKprime lam s t i) j k = _
    rw [ih, textKprimeStep_eq]

/-- C15: the two rotating tables refine the textbook recursion kept in one table per
order.  For every `kn ≥ 1` with `kn ≤ min(|x|, |y|)` and every order `i` in `1 .. kn - 1`,
the first `i` passes of the order loop return tables in which, for all `j` in
`[i - 1, |x| - 1]` and `k` in `[i - 1, |y| - 1]`, the cell `Kd[i mod 2][j][k]` holds the
textbook value `K'_i(x[0..j), y[0..k))`; the remaining passes and the final accumulation
continue from these tables, so no cell they read holds a value of order `i - 2` or of the
initialisation. -/
theorem tables_refine_textbook (lam : K) (x y : DataElement) (kn i : Nat)
    (h1 : 1 ≤ kn) (hx : kn ≤ x.length) (hy : kn ≤ y.length) (hi1 : 1 ≤ i) (hi : i ≤ kn - 1) :
    ∃ Kd0 Kdi Kd : KdTable K,
      initKd x y (KdTable.alloc (sadd x.length 1) (sadd y.length 1)) = some Kd0 ∧
      forLe 1 i (orderPass lam x y) Kd0 = some Kdi ∧
      forLe (i + 1) (toSizeT ((kn : Int) - 1)) (orderPass lam x y) Kdi = some Kd ∧
      forLe 1 (toSizeT ((kn : Int) - 1)) (orderPass lam x y) Kd0 = some Kd ∧
      (∀ j k, i - 1 ≤ j → j ≤ x.length - 1 → i - 1 ≤ k → k ≤ y.length - 1 →
        Kdi.get (i % 2) j k = some (textKprime lam x.attributes y.attributes i j k)) ∧
      (∀ j k, kn - 1 ≤ j + 1 → j ≤ x.length - 1 → kn - 1 ≤ k + 1 → k ≤ y.length - 1 →
        Kd.get ((kn - 1) % 2) j k
          = some (textKprime lam x.attributes y.attributes (kn - 1) j k)) := by
  obtain ⟨c, rfl⟩ : ∃ c, kn = c + 1 := ⟨kn - 1, by omega⟩
  have hxl := x.length_lt
  have hxl' : x.length = x.attributes.length := rfl
  have hmax := SIZE_MAX_eq
  have ec : toSizeT (((c + 1 : Nat) : Int) - 1) = c := by
    have : ((c + 1 : Nat) : Int) - 1 = (c : Int) := by push_cast; ring
    rw [this, toSizeT_natCast (by omega)]
  have ec' : c + 1 - 1 = c := by omega
  rw [ec, ec'] at *
  obtain ⟨T0, e0, h0⟩ := initKd_holds lam x y
  obtain ⟨Ti, ei, hTi⟩ := orderLoop_spec lam x y i T0 (by omega) (by omega) (by omega)
    (by omega) (by omega) h0
  obtain ⟨T1, e1, hT1⟩ := orderLoop_spec lam x y c T0 (by omega) (by omega) (by omega)
    (by omega) (by omega) h0
  have hsplit : forLe (i + 1) c (orderPass lam x y) Ti = some T1 := by
    have e1' := e1
    rw [forLe_eq_loopFrom _ _ _ _ (by omega)] at e1' ei ⊢
    have e : c + 1 - 1 = (i + 1 - 1) + (c + 1 - (i + 1)) := by omega
    rw [e, loopFrom_add, ei, Option.some_bind] at e1'
    have e2 : 1 + (i + 1 - 1) = i + 1 := by omega
    rw [e2] at e1'
    exact e1'
  refine ⟨T0, Ti, T1, e0, ei, hsplit, e1, fun j k a1 a2 a3 a4 => ?_,
    fun j k a1 a2 a3 a4 => ?_⟩
  · rw [kdGet_eq Ti (Nat.mod_lt _ (by omega)) (by rw [hTi.1]; omega) (by rw [hTi.2.1]; omega),
      textKprime_eq]
    exact hTi.2.2 j k (by omega) (by omega) (by omega) (by omega)
  · rw [kdGet_eq T1 (Nat.mod_lt _ (by omega)) (by rw [hT1.1]; omega) (by rw [hT1.2.1]; omega),
      textKprime_eq]
    exact hT1.2.2 j k (by omega) (by omega) (by omega) (by omega)

end TextbookProofs

section Shape
variable {K : Type} [Field K]

/-- C14: matrix shape and totality.  For a store of `N ≥ 1` sequences, in both normalize
modes: `compute_kernel` returns whenever the engine returns on the pairs `(s_i, s_j)`,
`i ≤ j`; the matrix it returns is a flat array of `N * N` entries in which every cell has
been assigned (a cell is `none` until it is first assigned), the entry `(i, j)` is the cell
`i * N + j`, and for `N = 1` with normalize set the matrix is `[[1]]`. -/
theorem compute_kernel_shape (aa : Nat → K) (sqrt : K → K) (sk : StringKernel K)
    (ds : DataSet) (hds : sk._string_data = some ds) (hN : 1 ≤ ds.size) :
    (PairsReturn aa sk ds → ∃ sk', compute_kernel aa sqrt sk = Except.ok sk') ∧
    ∀ sk', compute_kernel aa sqrt sk = Except.ok sk' →
      ∃ kb, sk'._kernel = some kb ∧ kb.size = ds.size * ds.size ∧
        (∀ c, c < ds.size * ds.size → ∃ v, kb.get c = some v ∧ kb.cell c = some v) ∧
        (∀ i j, i < ds.size → j < ds.size →
          kb.get (sadd (smul i ds.size) j) = some (matEntry aa sqrt sk ds i j) ∧
          sadd (smul i ds.size) j = i * ds.size + j) ∧
        (ds.size = 1 → sk._normalize ≠ 0 → kb.size = 1 ∧ kb.get 0 = some 1) := by
  constructor
  · intro hret
    obtain ⟨sk', _, e, _⟩ := compute_kernel_spec aa sqrt sk ds hds hret
    exact ⟨sk', e⟩
  · intro sk' h
    obtain ⟨_, kb, e, hs, hc, _⟩ := compute_kernel_result aa sqrt sk sk' ds hds h
    refine ⟨kb, e, hs, fun c hlt => ?_, fun i j hi hj => ?_, fun h1 hz => ?_⟩
    · have hdiv : c / ds.size < ds.size := Nat.div_lt_of_lt_mul hlt
      have hmod : c % ds.size < ds.size := Nat.mod_lt _ (by omega)
      have hcell := hc (c / ds.size) (c % ds.size) hdiv hmod
      rw [Nat.mul_comm, Nat.div_add_mod] at hcell
      refine ⟨_, hcell, ?_⟩
      rw [← bufGet_eq kb (by rw [hs]; exact hlt)]
      exact hcell
    · have hf : sadd (smul i ds.size) j = i * ds.size + j := flat_index ds.size_lt hi hj
      rw [hf]
      exact ⟨hc i j hi hj, rfl⟩
    · have h00 := hc 0 0 (by omega) (by omega)
      rw [Nat.zero_mul, Nat.add_zero] at h00
      rw [hs, h1, h00]
      refine ⟨rfl, ?_⟩
      unfold matEntry
      rw [if_pos hz, if_pos rfl]

end Shape

section Positive
variable {K : Type} [LinearOrderedField K]

theorem Kprime_diag (lam : K) (s : List Char) :
    ∀ c, Kprime lam s s c c c = (lam ^ 2) ^ c
  | 0 => by rw [Kprime_zero, pow_zero]
  | c + 1 => by
    rw [Kprime_succ, Kprime_eq_zero_left lam s s (c + 1) (Nat.lt_succ_self c), Kdprime_succ,
      Kdprime_eq_zero lam s s c (Nat.lt_succ_self c), if_pos rfl, Kprime_diag lam s c]
    ring

theorem finalValue_self_pos (aa : Nat → K) (lam : K) (x : DataElement) (c : Nat)
    (hx : x.inAlphabet) (hc : c < x.length) (hlam : 0 < lam) (hnn : NonnegTable aa)
    (hpd : PositiveDiagonal aa) :
    0 < finalValue aa lam x.attributes x.attributes c := by
  have hxl : x.length = x.attributes.length := rfl
  have hterm : ∀ i j, i < x.attributes.length → j < x.attributes.length →
      0 ≤ lam * lam * sub aa (x.attributes.getD i 'A') (x.attributes.getD j 'A')
        * Kprime lam x.attributes x.attributes c i j := fun i j hi hj =>
    mul_nonneg (mul_nonneg (mul_nonneg hlam.le hlam.le)
      (sub_nonneg_of aa hnn (getD_mem_alphabet x hx hi) (getD_mem_alphabet x hx hj)))
      (Kprime_nonneg lam hlam.le _ _ _ _ _)
  unfold finalValue
  apply Finset.sum_pos'
  · intro i hi
    apply Finset.sum_nonneg
    intro j hj
    exact hterm i j (Finset.mem_range.mp hi) (Finset.mem_range.mp hj)
  · refine ⟨c, Finset.mem_range.mpr (by omega), ?_⟩
    apply Finset.sum_pos'
    · intro j hj
      exact hterm c j (by omega) (Finset.mem_range.mp hj)
    · refine ⟨c, Finset.mem_range.mpr (by omega), ?_⟩
      rw [Kprime_diag]
      exact mul_pos (mul_pos (mul_pos hlam hlam)
        (hpd _ (getD_mem_alphabet x hx (by omega)))) (pow_pos (pow_pos hlam 2) c)

/-- The self-similarity of a sequence at least as long as the order is positive. -/
theorem kernel_self_pos (aa : Nat → K) (lam : K) (x : DataElement) (c : Nat)
    (hx : x.inAlphabet) (hc : c < x.length) (hlam : 0 < lam) (hnn : NonnegTable aa)
    (hpd : PositiveDiagonal aa) :
    ∃ v, kernel aa ((c + 1 : Nat) : Int) lam x x = some v ∧ 0 < v :=
  ⟨_, kernel_eq_finalValue aa lam x x c hx hx (by omega) (by omega),
    finalValue_self_pos aa lam x c hx hc hlam hnn hpd⟩

/-- X2: positivity of the self-similarity in exact arithmetic.  With `k_type` and `_lambda`
read as elements of a linearly ordered field (no rounding, no underflow), for every
`kn ≥ 1`, every `lam > 0` and every substitution table with non-negative entries and
positive diagonal: for every sequence `x` over the alphabet with `|x| ≥ kn` the engine
returns a positive `kernel(x, x)`; hence for a normalising kernel object over a store whose
sequences all lie in the alphabet and have length at least `kn`, `compute_kernel` returns,
and for all `i, j` the entries of `norms` satisfy `norms[i] * norms[j] > 0` and
`sqrt(norms[i] * norms[j])` is not zero (for a `sqrt` that is non-zero on positive
arguments).  The statement does not carry over to `double`, where `_lambda * _lambda` can
underflow to `0`. -/
theorem normalisation_divisor_nonzero (aa : Nat → K) (sqrt : K → K) (lam : K) (kn : Nat)
    (h1 : 1 ≤ kn) (hlam : 0 < lam) (hnn : NonnegTable aa) (hpd : PositiveDiagonal aa)
    (hsqrt : ∀ z, 0 < z → sqrt z ≠ 0) :
    (∀ x : DataElement, x.inAlphabet → kn ≤ x.length →
      ∃ v, kernel aa (kn : Int) lam x x = some v ∧ 0 < v) ∧
    ∀ (sk : StringKernel K) (ds : DataSet), sk._kn = (kn : Int) → sk._lambda = lam →
      sk._normalize ≠ 0 → sk._string_data = some ds →
      (∀ a ∈ ds.elements, a.inAlphabet ∧ kn ≤ a.length) →
      ∃ sk' nb, compute_kernel aa sqrt sk = Except.ok sk' ∧ sk'.norms = some nb ∧
        ∀ i j, i < ds.size → j < ds.size →
          ∃ xi xj ni nj, ds.elements[i]? = some xi ∧ ds.elements[j]? = some xj ∧
            kernel aa (kn : Int) lam xi xi = some ni ∧
            kernel aa (kn : Int) lam xj xj = some nj ∧
            nb.get i = some ni ∧ nb.get j = some nj ∧
            0 < ni * nj ∧ sqrt (ni * nj) ≠ 0 := by
  obtain ⟨c, rfl⟩ : ∃ c, kn = c + 1 := ⟨kn - 1, by omega⟩
  refine ⟨fun x hx hl => kernel_self_pos aa lam x c hx (by omega) hlam hnn hpd, ?_⟩
  intro sk ds hkn hl hz hds hall
  have hret : PairsReturn aa sk ds :=
    pairsReturn_of aa sk ds c hkn (fun a ha => ⟨(hall a ha).1, by have := (hall a ha).2; omega⟩)
  obtain ⟨sk', kb, e, _, _, _, hn⟩ := compute_kernel_spec aa sqrt sk ds hds hret
  obtain ⟨nb, enb, _, hnb⟩ := hn hz
  refine ⟨sk', nb, e, enb, fun i j hi hj => ?_⟩
  obtain ⟨xi, xi2, ei, ei2, ki⟩ := pairScore_spec aa sk ds hret (Nat.le_refl i) hi
  obtain ⟨xj, xj2, ej, ej2, kj⟩ := pairScore_spec aa sk ds hret (Nat.le_refl j) hj
  obtain rfl : xi = xi2 := Option.some.inj (ei.symm.trans ei2)
  obtain rfl : xj = xj2 := Option.some.inj (ej.symm.trans ej2)
  rw [hkn, hl] at ki kj
  have hai := hall xi (List.getElem?_mem ei)
  have haj := hall xj (List.getElem?_mem ej)
  obtain ⟨vi, evi, pi⟩ := kernel_self_pos aa lam xi c hai.1 (by have := hai.2; omega) hlam hnn hpd
  obtain ⟨vj, evj, pj⟩ := kernel_self_pos aa lam xj c haj.1 (by have := haj.2; omega) hlam hnn hpd
  have hi' : pairScore aa sk ds i i = vi := Option.some.inj (ki.symm.trans evi)
  have hj' : pairScore aa sk ds j j = vj := Option.some.inj (kj.symm.trans evj)
  refine ⟨xi, xj, vi, vj, ei, ej, evi, evj, ?_, ?_, mul_pos pi pj, hsqrt _ (mul_pos pi pj)⟩
  · rw [hnb i hi, hi']
  · rw [hnb j hj, hj']

end Positive

section Faults
variable {K : Type} [Field K]

/-- With order `0` the bound `_kn - 1` of the order loop converts to `SIZE_MAX`: the loop
cannot end. -/
theorem kernel_order_zero (aa : Nat → K) (lam : K) (x y : DataElement) :
    kernel aa 0 lam x y = none := by
  have e : toSizeT ((0 : Int) - 1) = SIZE_MAX := by decide
  unfold kernel
  rw [e]
  cases initKd x y (KdTable.alloc (sadd x.length 1) (sadd y.length 1) : KdTable K) with
  | none => rfl
  | some T0 => rw [Option.some_bind, forLe_max, Option.none_bind]

/-- With order `0` no engine call returns, so `compute_kernel` on a non-empty store passes
`assert(_string_data)` and then does not return: the first call of the engine, from
`compute_norms` or from the first row, does not end.  No assertion fails and no matrix
is stored. -/
theorem compute_kernel_order_zero (aa : Nat → K) (sqrt : K → K) (sk : StringKernel K)
    (ds : DataSet) (hkn : sk._kn = 0) (hds : sk._string_data = some ds) (hN : 1 ≤ ds.size) :
    compute_kernel aa sqrt sk = Except.error Fault.undefined := by
  obtain ⟨n, e⟩ : ∃ n, ds.size - 0 = n + 1 := ⟨ds.size - 1, by omega⟩
  have e0 : ds.elements[0]? = some (ds.elements.get ⟨0, hN⟩) := List.getElem?_eq_getElem hN
  have hnorm : ∀ nb : Buf K, normsBody aa sk ds 0 nb = none := by
    intro nb
    unfold normsBody
    rw [e0, Option.some_bind, hkn, kernel_order_zero, Option.none_bind]
  have hentry : ∀ (sk1 : StringKernel K) (kb : Buf K), sk1._kn = 0 →
      entryBody aa sqrt sk1 ds ds.size 0 0 kb = none := by
    intro sk1 kb h1
    unfold entryBody
    rw [e0, Option.some_bind, Option.some_bind, h1, kernel_order_zero, Option.none_bind]
  unfold compute_kernel
  rw [hds]
  by_cases hz : sk._normalize ≠ 0
  · have hcn : compute_norms aa sk = Except.error Fault.undefined := by
      unfold compute_norms
      rw [hds]
      simp only [forLt, e, loopFrom_fail_first _ _ _ _ (hnorm _)]
    simp only [if_pos hz, hcn]
  · have hrow : ∀ kb : Buf K, rowEntries aa sqrt sk ds ds.size 0 kb = none := by
      intro kb
      unfold rowEntries
      rw [if_neg hz, Option.some_bind]
      simp only [forLt, e, loopFrom_fail_first _ _ _ _ (hentry sk _ hkn)]
    simp only [if_neg hz, forLt, e, loopFrom_fail_first _ _ _ _ (hrow _)]

/-- C13 as stated fails at `kn = 0`: the constructor accepts the order `0` and stores it,
and `compute_kernel` on the example store then passes its only check and ends in the order
loop that cannot terminate (`Fault.undefined`), not in a reported failure
(`Fault.assertion`, the only report the code can make). -/
theorem order_below_one_not_rejected :
    (0 : Int) < 1 ∧
    (StringKernel.init 1 26 10 0 (1 / 2) : StringKernel ℚ)._kn = 0 ∧
    compute_kernel (identityTable : Nat → ℚ) id
        (set_data (StringKernel.init 1 26 10 0 (1 / 2)) (some exampleStore))
      = Except.error Fault.undefined ∧
    Fault.undefined ≠ Fault.assertion :=
  ⟨by decide, rfl,
    compute_kernel_order_zero identityTable id _ exampleStore rfl rfl (by decide),
    by decide⟩

/-- C13, amended: an order `kn < 1` is not rejected.  The constructor stores every `kn`
unchanged, with no data and no matrix, and reports nothing.  Run with `kn = 0` the engine
returns no score for any pair of sequences (the bound `_kn - 1` of the order loop
converts to `SIZE_MAX`), and `compute_kernel` on a store of at least one sequence stores
no matrix and fails no assertion: the call does not return. -/
theorem kernel_order_below_one (aa : Nat → K) (sqrt : K → K) (lam : K)
    (normalize symbol_size : Int) (max_length : Nat) (ds : DataSet) (hN : 1 ≤ ds.size) :
    (∀ kn : Int, kn < 1 →
      (StringKernel.init normalize symbol_size max_length kn lam)._kn = kn ∧
      (StringKernel.init normalize symbol_size max_length kn lam)._string_data = none ∧
      (StringKernel.init normalize symbol_size max_length kn lam)._kernel = none) ∧
    (∀ x y : DataElement, kernel aa 0 lam x y = none) ∧
    compute_kernel aa sqrt
        (set_data (StringKernel.init normalize symbol_size max_length 0 lam) (some ds))
      = Except.error Fault.undefined := by
  refine ⟨fun _ _ => ⟨rfl, rfl, rfl⟩, fun x y => kernel_order_zero aa lam x y, ?_⟩
  exact compute_kernel_order_zero aa sqrt _ ds rfl rfl hN

/-- C12: the code at the failing input.  With a borrowed store of size `0` handed over by
`set_data(DataSet *)`, `compute_kernel` fails no assertion: it returns with a matrix of
`0` entries, for every kernel object and both normalize modes.  The neighbouring paths do
fail: `compute_kernel` without data (never set, or a null pointer) fails
`assert(_string_data)`, and `set_data` on an empty vector of strings fails
`assert(strings.size() > 0)`. -/
theorem compute_kernel_empty_store (aa : Nat → K) (sqrt : K → K) (sk : StringKernel K) :
    (∃ sk' kb, compute_kernel aa sqrt (set_data sk (some emptyStore)) = Except.ok sk' ∧
      sk'._kernel = some kb ∧ kb.size = 0) ∧
    compute_kernel aa sqrt (set_data sk none) = Except.error Fault.assertion ∧
    (∀ (normalize symbol_size : Int) (max_length : Nat) (kn : Int) (lam : K),
      compute_kernel aa sqrt (StringKernel.init normalize symbol_size max_length kn lam)
        = Except.error Fault.assertion) ∧
    (∀ load_strings : Nat → Int → List (List Char) → DataSet,
      set_data_strings load_strings sk [] = Except.error Fault.assertion) := by
  refine ⟨?_, rfl, fun _ _ _ _ _ => rfl, fun _ => rfl⟩
  have hret : PairsReturn aa (set_data sk (some emptyStore)) emptyStore := by
    intro i j _ hj
    exact absurd hj (Nat.not_lt_zero j)
  obtain ⟨sk', kb, e, h1, h2, _⟩ :=
    compute_kernel_spec aa sqrt (set_data sk (some emptyStore)) emptyStore rfl hret
  exact ⟨sk', kb, e, h1, h2⟩

end Faults

/-! ## The later theorems at concrete inputs -/

theorem nonnegTable_identity {K : Type} [LinearOrderedField K] :
    NonnegTable (identityTable : Nat → K) := by
  intro n _
  unfold identityTable
  split
  · exact zero_le_one
  · exact le_refl 0

theorem positiveDiagonal_identity {K : Type} [LinearOrderedField K] :
    PositiveDiagonal (identityTable : Nat → K) := by
  intro a ha
  rw [sub_identityTable a a ha ha, if_pos rfl]
  exact one_pos

/-- The theorem of C11 at `x = "AB"`, `y = "ABC"`, `kn = 2`, identity table, `lam` raised
from `1/4` to `1/2`. -/
theorem kernel_monotone_in_lambda_witness :
    (1 ≤ 2 ∧ ((2 : Nat) : Int) ≤ INT_MAX ∧ seqAB.inAlphabet ∧ seqABC.inAlphabet ∧
      NonnegTable (identityTable : Nat → ℚ) ∧ (0 : ℚ) ≤ 1 / 4 ∧ (1 / 4 : ℚ) ≤ 1 / 2) ∧
    ((kernel (identityTable : Nat → ℚ) ((2 : Nat) : Int) (1 / 4) seqAB seqABC = none ∧
        kernel (identityTable : Nat → ℚ) ((2 : Nat) : Int) (1 / 2) seqAB seqABC = none) ∨
      ∃ v1 v2, kernel (identityTable : Nat → ℚ) ((2 : Nat) : Int) (1 / 4) seqAB seqABC = some v1 ∧
        kernel (identityTable : Nat → ℚ) ((2 : Nat) : Int) (1 / 2) seqAB seqABC = some v2 ∧
        v1 ≤ v2) :=
  ⟨⟨by decide, by decide, by decide, by decide, nonnegTable_identity, by norm_num,
      by norm_num⟩,
    kernel_monotone_in_lambda identityTable (1 / 4) (1 / 2) seqAB seqABC 2
      (by decide) (by decide) (by decide) (by decide) nonnegTable_identity (by norm_num)
      (by norm_num)⟩

/-- The theorem of C13 at the example store, normalize off, `lam = 1/2`: with order `0`
the call of `compute_kernel` does not return. -/
theorem kernel_order_below_one_witness :
    1 ≤ exampleStore.size ∧
    compute_kernel (identityTable : Nat → ℚ) id
        (set_data (StringKernel.init 0 26 10 0 (1 / 2)) (some exampleStore))
      = Except.error Fault.undefined :=
  ⟨by decide,
    (kernel_order_below_one identityTable id (1 / 2 : ℚ) 0 26 10 exampleStore
      (by decide)).2.2⟩

/-- The theorem of C14 at the example store, normalize on: the matrix exists, has `9`
entries and every one of them is assigned. -/
theorem compute_kernel_shape_witness :
    ∃ sk' kb, compute_kernel identityTable id (exampleKernel 1) = Except.ok sk' ∧
      sk'._kernel = some kb ∧ kb.size = 9 ∧ ∀ c, c < 9 → ∃ v, kb.get c = some v := by
  obtain ⟨hret, hprop⟩ :=
    compute_kernel_shape identityTable id (exampleKernel 1) exampleStore rfl (by decide)
  obtain ⟨sk', e⟩ := hret (exampleKernel_returns 1)
  obtain ⟨kb, h1, h2, h3, _⟩ := hprop sk' e
  exact ⟨sk', kb, e, h1, h2, fun c hc => (h3 c hc).imp fun _ hv => hv.1⟩

/-- The theorem of C15 at `x = y = "ABC"`, `kn = 3`, order `i = 2`, `lam = 1/2`: after two
passes table `0` holds the textbook `K'_2` on the cells `[1, 2] x [1, 2]`. -/
theorem tables_refine_textbook_witness :
    (1 ≤ 3 ∧ 3 ≤ seqABC.length ∧ 1 ≤ 2 ∧ 2 ≤ 3 - 1) ∧
    ∃ Kd0 Kdi : KdTable ℚ,
      initKd seqABC seqABC (KdTable.alloc (sadd seqABC.length 1) (sadd seqABC.length 1))
        = some Kd0 ∧
      forLe 1 2 (orderPass (1 / 2) seqABC seqABC) Kd0 = some Kdi ∧
      ∀ j k, 2 - 1 ≤ j → j ≤ seqABC.length - 1 → 2 - 1 ≤ k → k ≤ seqABC.length - 1 →
        Kdi.get (2 % 2) j k
          = some (textKprime (1 / 2) seqABC.attributes seqABC.attributes 2 j k) := by
  refine ⟨⟨by decide, by decide, by decide, by decide⟩, ?_⟩
  obtain ⟨Kd0, Kdi, _, e0, ei, _, _, h, _⟩ :=
    tables_refine_textbook (1 / 2 : ℚ) seqABC seqABC 3 2 (by decide) (by decide) (by decide)
      (by decide) (by decide)
  exact ⟨Kd0, Kdi, e0, ei, h⟩

/-- The theorem of C16 at `x = "AB"`, `y = "ABC"`, `kn = 2`, `lam = 1/2` and the table
`2 * I + 3 * I` for the identity table `I`. -/
theorem kernel_linear_in_table_witness :
    (1 ≤ 2 ∧ ((2 : Nat) : Int) ≤ INT_MAX ∧ seqAB.inAlphabet ∧ seqABC.inAlphabet) ∧
    kernel (fun n => 2 * (identityTable : Nat → ℚ) n + 3 * identityTable n) ((2 : Nat) : Int)
        (1 / 2) seqAB seqABC
      = (kernel (identityTable : Nat → ℚ) ((2 : Nat) : Int) (1 / 2) seqAB seqABC).bind fun v1 =>
          (kernel (identityTable : Nat → ℚ) ((2 : Nat) : Int) (1 / 2) seqAB seqABC).map
            fun v2 => 2 * v1 + 3 * v2 :=
  ⟨⟨by decide, by decide, by decide, by decide⟩,
    (kernel_linear_in_table identityTable identityTable 2 3 (1 / 2) seqAB seqABC 2
      (by decide) (by decide) (by decide) (by decide)).2⟩

/-- The theorem of C17 at `x = "AB"`, `y = "ABC"`, `kn = 2`, `lam = 1/2`, identity table:
the engine returns a score. -/
theorem kernel_index_safe_witness :
    (1 ≤ 2 ∧ 2 ≤ seqAB.length ∧ 2 ≤ seqABC.length ∧ seqAB.inAlphabet ∧ seqABC.inAlphabet) ∧
    ∃ v, kernel (identityTable : Nat → ℚ) ((2 : Nat) : Int) (1 / 2) seqAB seqABC = some v :=
  ⟨⟨by decide, by decide, by decide, by decide, by decide⟩,
    (kernel_index_safe identityTable (1 / 2) seqAB seqABC 2
      (by decide) (by decide) (by decide) (by decide) (by decide)).1⟩

/-- The theorem of X2 at `kn = 2`, `lam = 1/2`, identity table: the self-similarity of
`"ABC"` is positive, and on the example store with normalize on the norms exist and every
product `norms[i] * norms[j]` is positive. -/
theorem normalisation_divisor_nonzero_witness :
    (1 ≤ 2 ∧ (0 : ℚ) < 1 / 2 ∧ NonnegTable (identityTable : Nat → ℚ) ∧
      PositiveDiagonal (identityTable : Nat → ℚ) ∧ (∀ z : ℚ, 0 < z → id z ≠ 0) ∧
      seqABC.inAlphabet ∧ 2 ≤ seqABC.length ∧
      (∀ a ∈ exampleStore.elements, a.inAlphabet ∧ 2 ≤ a.length)) ∧
    (∃ v, kernel (identityTable : Nat → ℚ) ((2 : Nat) : Int) (1 / 2) seqABC seqABC = some v ∧
      0 < v) ∧
    ∃ sk' nb, compute_kernel (identityTable : Nat → ℚ) id (exampleKernel 1) = Except.ok sk' ∧
      sk'.norms = some nb ∧
      ∀ i j, i < exampleStore.size → j < exampleStore.size →
        ∃ ni nj, nb.get i = some ni ∧ nb.get j = some nj ∧ 0 < ni * nj ∧ id (ni * nj) ≠ 0 := by
  have h := normalisation_divisor_nonzero (identityTable : Nat → ℚ) id (1 / 2) 2 (by decide)
    (by norm_num) nonnegTable_identity positiveDiagonal_identity (fun _ hz => ne_of_gt hz)
  refine ⟨⟨by decide, by norm_num, nonnegTable_identity, positiveDiagonal_identity,
    fun _ hz => ne_of_gt hz, by decide, by decide, by decide⟩,
    h.1 seqABC (by decide) (by decide), ?_⟩
  obtain ⟨sk', nb, e, en, hall⟩ :=
    h.2 (exampleKernel 1) exampleStore rfl rfl (by decide) rfl (by decide)
  refine ⟨sk', nb, e, en, fun i j hi hj => ?_⟩
  obtain ⟨_, _, ni, nj, _, _, _, _, gi, gj, hp, hs⟩ := hall i j hi hj
  exact ⟨ni, nj, gi, gj, hp, hs⟩


end SKernel
